import Mathlib

/-!
# Verification of the Swift.org site-check crawler and site-visualize layering

A shallow embedding, in Lean 4, of the graph-construction and analysis engine
of `scripts/site-check.js` (URL normalisation, the crawl frontier state
machine, link/image classification, post-crawl link validation, orphan
detection) and of the multi-source BFS layering algorithm of
`scripts/site-visualize.js` (whose source is embedded in
`scripts/site-visualize.md`).

Modelling conventions:
* JavaScript strings are modelled as `List Char` (abbreviated `Str`).
* JavaScript `Set` objects are modelled as insertion-ordered duplicate-free
  lists (`setAdd` appends only when absent, exactly like `Set.prototype.add`;
  `setDelete` removes the element).
* JavaScript `Map` objects / plain objects used as dictionaries are modelled
  as insertion-ordered association lists: `mapSet` overwrites in place or
  appends, `mapUpdate` rewrites the value at a key (modelling in-place
  mutation of the record obtained from `get`), `mapGet?` looks a key up.
* The WHATWG `URL` platform class (an external collaborator of the scripts)
  is modelled by `JsUrl`/`parseAbs`/`newURL` for absolute `scheme://...`
  URLs and path-absolute references (`/x/y?q#f`).  Percent-encoding,
  default-port elision, dot-segment removal and the other relative reference
  forms are outside the modelled fragment; `newURL` returns `none` for them,
  as it does for inputs the real constructor rejects.
* Fields marked as ghost instrumentation (`fetchLog`, `refLog`, `okLog`,
  `biLog`, probe logs, `expLog`) record the events the specification talks
  about (page fetch dispatches, link-target registrations, successful
  fetches, broken-image reports, existence probes, BFS expansions).  They are
  write-only observations: no modelled code branches on them.
-/

namespace SiteCheckModel

/-- JavaScript strings are modelled as lists of characters. -/
abbrev Str := List Char

/-- Model of `Set.prototype.add`: appends the element unless already present
(JS sets are insertion-ordered and duplicate-free). -/
def setAdd (s : List Str) (x : Str) : List Str :=
  if x ∈ s then s else s ++ [x]

/-- Model of `Set.prototype.delete`: removes the element. -/
def setDelete (s : List Str) (x : Str) : List Str :=
  s.filter (fun y => y ≠ x)

/-- Model of `Map.prototype.get` / object indexing (`none` = absent key). -/
def mapGet? {κ α : Type} [DecidableEq κ] (m : List (κ × α)) (k : κ) : Option α :=
  match m with
  | [] => none
  | (k₁, v₁) :: rest => if k₁ = k then some v₁ else mapGet? rest k

/-- Model of `Map.prototype.has`. -/
def mapHas {κ α : Type} [DecidableEq κ] (m : List (κ × α)) (k : κ) : Bool :=
  (mapGet? m k).isSome

/-- Model of `Map.prototype.set` / object assignment: overwrite in place, or
append a new entry (JS maps and objects are insertion-ordered). -/
def mapSet {κ α : Type} [DecidableEq κ] (m : List (κ × α)) (k : κ) (v : α) :
    List (κ × α) :=
  match m with
  | [] => [(k, v)]
  | (k₁, v₁) :: rest => if k₁ = k then (k, v) :: rest else (k₁, v₁) :: mapSet rest k v

/-- Model of mutating, through the reference returned by `get`, the value
stored at key `k` (e.g. `state.pages.get(url).incomingLinks.push(...)`). -/
def mapUpdate {κ α : Type} [DecidableEq κ] (m : List (κ × α)) (k : κ) (f : α → α) :
    List (κ × α) :=
  match m with
  | [] => []
  | (k₁, v₁) :: rest =>
      if k₁ = k then (k₁, f v₁) :: mapUpdate rest k f
      else (k₁, v₁) :: mapUpdate rest k f

theorem mapGet?_update {κ α : Type} [DecidableEq κ] (m : List (κ × α)) (k j : κ)
    (f : α → α) :
    mapGet? (mapUpdate m k f) j =
      if j = k then (mapGet? m j).map f else mapGet? m j := by
  induction m with
  | nil => simp only [mapUpdate, mapGet?, Option.map_none']; split <;> rfl
  | cons e rest ih =>
    obtain ⟨k₁, v₁⟩ := e
    by_cases h1 : k₁ = k
    · subst h1
      by_cases h2 : j = k₁
      · subst h2
        simp [mapUpdate, mapGet?]
      · have h2s : ¬ (k₁ = j) := fun h => h2 h.symm
        simp only [mapUpdate, if_pos rfl, mapGet?, if_neg h2s, if_neg h2] at *
        simpa [h2] using ih
    · by_cases h2 : k₁ = j
      · subst h2
        simp [mapUpdate, mapGet?, if_neg h1, h1]
      · have h2s : ¬ (j = k₁) := fun h => h2 h.symm
        simp only [mapUpdate, if_neg h1, mapGet?, if_neg h2] at *
        exact ih

theorem mapGet?_set {κ α : Type} [DecidableEq κ] (m : List (κ × α)) (k j : κ)
    (v : α) :
    mapGet? (mapSet m k v) j = if j = k then some v else mapGet? m j := by
  induction m with
  | nil =>
    simp only [mapSet, mapGet?]
    split <;> rename_i h
    · simp [h]
    · rw [if_neg (fun hh => h hh.symm)]
  | cons e rest ih =>
    obtain ⟨k₁, v₁⟩ := e
    by_cases h1 : k₁ = k
    · subst h1
      by_cases h2 : j = k₁
      · subst h2; simp [mapSet, mapGet?]
      · have h2s : ¬ (k₁ = j) := fun h => h2 h.symm
        simp [mapSet, mapGet?, h2, h2s]
    · by_cases h2 : k₁ = j
      · subst h2
        have h1s : ¬ (k₁ = k) := h1
        simp [mapSet, mapGet?, h1s]
      · have h2s : ¬ (j = k₁) := fun h => h2 h.symm
        simp [mapSet, mapGet?, h1, h2, h2s, ih]

theorem mapGet?_append_new {κ α : Type} [DecidableEq κ] (m : List (κ × α))
    (k j : κ) (v : α) (h : mapGet? m j = none) :
    mapGet? (m ++ [(k, v)]) j = if j = k then some v else none := by
  induction m with
  | nil =>
    simp only [List.nil_append, mapGet?]
    split <;> rename_i hk
    · simp [hk]
    · rw [if_neg (fun hh => hk hh.symm)]
  | cons e rest ih =>
    obtain ⟨k₁, v₁⟩ := e
    by_cases h1 : k₁ = j
    · simp [mapGet?, h1] at h
    · simp only [mapGet?, if_neg h1, List.cons_append] at h ⊢
      exact ih h

theorem mapGet?_append_old {κ α : Type} [DecidableEq κ] (m : List (κ × α))
    (tl : List (κ × α)) (j : κ) (v : α) (h : mapGet? m j = some v) :
    mapGet? (m ++ tl) j = some v := by
  induction m with
  | nil => simp [mapGet?] at h
  | cons e rest ih =>
    obtain ⟨k₁, v₁⟩ := e
    by_cases h1 : k₁ = j <;> simp only [mapGet?, if_pos, if_neg, h1, List.cons_append] at h ⊢ <;>
      simp_all

theorem setAdd_mem (s : List Str) (x y : Str) :
    y ∈ setAdd s x ↔ y ∈ s ∨ y = x := by
  unfold setAdd
  by_cases h : x ∈ s
  · simp only [if_pos h]
    constructor
    · exact fun hy => Or.inl hy
    · rintro (hy | rfl)
      · exact hy
      · exact h
  · simp [if_neg h]

theorem setAdd_nodup (s : List Str) (x : Str) (h : s.Nodup) :
    (setAdd s x).Nodup := by
  unfold setAdd
  by_cases hx : x ∈ s <;> simp [hx, List.nodup_append, h]

/-! ## The URL collaborator

`site-check.js` manipulates URLs through the platform `URL` class.  `JsUrl`
models a parsed URL object of the modelled fragment (hierarchical
`scheme://authority/path?query#fragment` URLs); `JsUrl.href` is its
serialisation, `parseAbs` parses an absolute URL string and `newURL` models
the two-argument constructor `new URL(url, base)` for absolute inputs and
path-absolute references. -/

/-- A parsed URL object.  `authority` is the serialised `host[:port]` part;
`path` is the list of path segments (`[[]]` is the root path `/`, a trailing
empty segment is a trailing slash). -/
structure JsUrl where
  scheme : Str
  authority : Str
  path : List Str
  query : Option Str
  fragment : Option Str
deriving DecidableEq, Repr

/-- Joins path segments with `/` separators (no leading slash). -/
def joinSegs : List Str → Str
  | [] => []
  | [s] => s
  | s :: rest => s ++ '/' :: joinSegs rest

/-- The `?query` part of a serialised URL (empty when there is no query). -/
def queryTail : Option Str → Str
  | none => []
  | some q => '?' :: q

/-- The `#fragment` part of a serialised URL (empty when none). -/
def fragTail : Option Str → Str
  | none => []
  | some f => '#' :: f

/-- Serialisation of a parsed URL back to a string, mirroring `url.href`. -/
def JsUrl.href (u : JsUrl) : Str :=
  u.scheme ++ ':' :: '/' :: '/' :: u.authority ++ '/' :: joinSegs u.path ++
    queryTail u.query ++ fragTail u.fragment

/-- Splits a character list at the first character satisfying `p`
(the breaking character stays at the head of the second component). -/
def spanUntil (p : Char → Bool) : Str → Str × Str
  | [] => ([], [])
  | c :: cs =>
      if p c then ([], c :: cs)
      else
        let r := spanUntil p cs
        (c :: r.1, r.2)

theorem spanUntil_sizeLe (p : Char → Bool) (l : Str) :
    (spanUntil p l).2.length ≤ l.length := by
  induction l with
  | nil => simp [spanUntil]
  | cons c cs ih =>
    simp only [spanUntil]
    split
    · simp
    · simpa using Nat.le_succ_of_le ih

/-- A character ending a URL path segment. -/
def segBreak (c : Char) : Bool := c = '/' || c = '?' || c = '#'

/-- Parses a `/`-separated segment list, stopping at `?` or `#`.  The first
component is always nonempty (an empty input is the lone empty segment). -/
def parseSegs : Str → List Str × Str
  | [] => ([[]], [])
  | c :: cs =>
      if c = '/' then
        let r := parseSegs cs
        ([] :: r.1, r.2)
      else if c = '?' ∨ c = '#' then
        ([[]], c :: cs)
      else
        let r := parseSegs cs
        match r.1 with
        | [] => ([[c]], r.2)
        | s :: segs => ((c :: s) :: segs, r.2)

/-- Parses the `?query#fragment` tail of a URL. -/
def parseQF (l : Str) : Option Str × Option Str :=
  match l with
  | '?' :: r =>
      match spanUntil (fun c => c = '#') r with
      | (q, '#' :: f) => (some q, some f)
      | (q, _) => (some q, none)
  | '#' :: f => (none, some f)
  | _ => (none, none)

/-- Parses an absolute hierarchical URL (`scheme://authority...`), the
modelled fragment of the WHATWG parser.  Inputs outside this fragment are
rejected (`none`). -/
def parseAbs (l : Str) : Option JsUrl :=
  match spanUntil (fun c => c = ':') l with
  | (scheme, ':' :: '/' :: '/' :: r) =>
      if scheme = [] then none
      else
        match spanUntil segBreak r with
        | (auth, r₂) =>
          if auth = [] then none
          else
            match r₂ with
            | '/' :: r₃ =>
                let sr := parseSegs r₃
                let qf := parseQF sr.2
                some ⟨scheme, auth, sr.1, qf.1, qf.2⟩
            | _ =>
                let qf := parseQF r₂
                some ⟨scheme, auth, [[]], qf.1, qf.2⟩
  | _ => none

/-- Resolution of a path-absolute reference (`/x/y?q#f`) against a base,
the only relative-reference form the model supports.  Protocol-relative
references (`//host/...`) are outside the modelled fragment. -/
def resolvePathAbs (u : Str) (b : Str) : Option JsUrl :=
  match parseAbs b with
  | none => none
  | some base =>
    match u with
    | '/' :: '/' :: _ => none
    | '/' :: r =>
        let sr := parseSegs r
        let qf := parseQF sr.2
        some ⟨base.scheme, base.authority, sr.1, qf.1, qf.2⟩
    | _ => none

/-- Model of the JS `new URL(url, baseUrl)` constructor on the modelled
fragment: an absolute URL ignores the base, a path-absolute reference is
resolved against it, everything else is rejected. -/
def newURL (url : Str) (base : Str) : Option JsUrl :=
  match parseAbs url with
  | some u => some u
  | none => resolvePathAbs url base

/-- Does the string end with a slash (`normalized.endsWith('/')`)? -/
def endsWithSlash (l : Str) : Bool := l.getLast? = some '/'

/-- Model of `normalizeUrl(url, baseUrl)` from `scripts/site-check.js`:
resolve against the base, clear the fragment (`urlObj.hash = ''`), then
strip one trailing slash unless the result equals `baseUrl + '/'`.
Returns `none` where the script returns `null` (URL constructor throw). -/
def normalizeUrl (url : Str) (baseUrl : Str) : Option Str :=
  match newURL url baseUrl with
  | none => none
  | some urlObj =>
      let noHash : JsUrl := { urlObj with fragment := none }
      let normalized := noHash.href
      if endsWithSlash normalized ∧ normalized ≠ baseUrl ++ ['/'] then
        some normalized.dropLast
      else
        some normalized

/-- The hostname part of an authority (everything before the `:`). -/
def hostnameOf (auth : Str) : Str := (spanUntil (fun c => c = ':') auth).1

/-- The port part of an authority (everything after the `:`, `[]` if none),
mirroring `URL.prototype.port` on the modelled fragment. -/
def portOf (auth : Str) : Str :=
  match spanUntil (fun c => c = ':') auth with
  | (_, ':' :: p) => p
  | _ => []

/-- The `normalizeHost` helper of `isInternalUrl`: `0.0.0.0` and
`localhost` are identified. -/
def normalizeHost (h : Str) : Str :=
  if h = "0.0.0.0".toList ∨ h = "localhost".toList then "localhost".toList else h

/-- Model of `isInternalUrl(url, baseUrl)` from `scripts/site-check.js`:
hostname (up to the `0.0.0.0`/`localhost` identification) and port must both
match the base URL; a constructor throw yields `false`. -/
def isInternalUrl (url : Str) (baseUrl : Str) : Bool :=
  match newURL url baseUrl, parseAbs baseUrl with
  | some urlObj, some baseObj =>
      normalizeHost (hostnameOf urlObj.authority) =
          normalizeHost (hostnameOf baseObj.authority) &&
        portOf urlObj.authority = portOf baseObj.authority
  | _, _ => false

/-- Model of `new URL(x).hostname` with no base (used for external-link
domains): `none` models the constructor throwing on relative input. -/
def hostnameOfUrl (url : Str) : Option Str :=
  (parseAbs url).map (fun u => hostnameOf u.authority)

/-- Well-formedness of a parsed URL object: the invariants every object
produced by the real WHATWG parser satisfies on the modelled fragment
(nonempty scheme and authority, no separator characters inside components,
nonempty segment list, no `#` inside the query). -/
def JsUrl.WF (u : JsUrl) : Prop :=
  u.scheme ≠ [] ∧ (∀ c ∈ u.scheme, (c = ':') = False ∧ segBreak c = false) ∧
  u.authority ≠ [] ∧ (∀ c ∈ u.authority, segBreak c = false) ∧
  u.path ≠ [] ∧ (∀ s ∈ u.path, ∀ c ∈ s, segBreak c = false) ∧
  (∀ q, u.query = some q → ∀ c ∈ q, (c = '#') = False)

instance : DecidablePred JsUrl.WF := fun u => by
  unfold JsUrl.WF
  exact inferInstance

theorem spanUntil_break (p : Char → Bool) (xs : Str) (c : Char) (ys : Str)
    (hxs : ∀ x ∈ xs, p x = false) (hc : p c = true) :
    spanUntil p (xs ++ c :: ys) = (xs, c :: ys) := by
  induction xs with
  | nil => simp [spanUntil, hc]
  | cons x xs ih =>
    have hx : p x = false := hxs x (List.mem_cons_self x xs)
    have hxs2 : ∀ y ∈ xs, p y = false := fun y hy => hxs y (List.mem_cons_of_mem x hy)
    simp [spanUntil, hx, ih hxs2]

theorem spanUntil_all (p : Char → Bool) (xs : Str)
    (hxs : ∀ x ∈ xs, p x = false) :
    spanUntil p xs = (xs, []) := by
  induction xs with
  | nil => simp [spanUntil]
  | cons x xs ih =>
    have hx : p x = false := hxs x (List.mem_cons_self x xs)
    have hxs2 : ∀ y ∈ xs, p y = false := fun y hy => hxs y (List.mem_cons_of_mem x hy)
    simp [spanUntil, hx, ih hxs2]

theorem parseSegs_prepend (s t : Str) (s₀ : Str) (segs : List Str) (rest : Str)
    (hs : ∀ c ∈ s, segBreak c = false)
    (h : parseSegs t = (s₀ :: segs, rest)) :
    parseSegs (s ++ t) = ((s ++ s₀) :: segs, rest) := by
  induction s with
  | nil => simpa using h
  | cons c cs ih =>
    have hc : segBreak c = false := hs c (List.mem_cons_self c cs)
    have hcs : ∀ x ∈ cs, segBreak x = false :=
      fun x hx => hs x (List.mem_cons_of_mem c hx)
    have hc1 : ¬ (c = '/') := by
      intro hcc; subst hcc; simp [segBreak] at hc
    have hc2 : ¬ (c = '?' ∨ c = '#') := by
      rintro (hcc | hcc) <;> (subst hcc; simp [segBreak] at hc)
    simp only [List.cons_append, parseSegs, if_neg hc1, if_neg hc2, List.append_eq,
      ih hcs]

theorem parseSegs_round (segs : List Str) (rest : Str) (hne : segs ≠ [])
    (hclean : ∀ s ∈ segs, ∀ c ∈ s, segBreak c = false)
    (hrest : rest = [] ∨ (∃ r, rest = '?' :: r) ∨ (∃ r, rest = '#' :: r)) :
    parseSegs (joinSegs segs ++ rest) = (segs, rest) := by
  induction segs with
  | nil => exact absurd rfl hne
  | cons s tl ih =>
    have hs : ∀ c ∈ s, segBreak c = false :=
      hclean s (List.mem_cons_self s tl)
    cases tl with
    | nil =>
      have hrest2 : parseSegs rest = ([[]], rest) := by
        rcases hrest with h | ⟨r, h⟩ | ⟨r, h⟩ <;> subst h <;> simp [parseSegs]
      have := parseSegs_prepend s rest [] [] rest hs hrest2
      simpa [joinSegs] using this
    | cons s₂ tl₂ =>
      have htl : ∀ t ∈ s₂ :: tl₂, ∀ c ∈ t, segBreak c = false :=
        fun t ht => hclean t (List.mem_cons_of_mem s ht)
      have hihr : parseSegs (joinSegs (s₂ :: tl₂) ++ rest) = (s₂ :: tl₂, rest) :=
        ih (by simp) htl
      have hslash : parseSegs ('/' :: (joinSegs (s₂ :: tl₂) ++ rest)) =
          ([] :: s₂ :: tl₂, rest) := by
        simp [parseSegs, hihr]
      have := parseSegs_prepend s ('/' :: (joinSegs (s₂ :: tl₂) ++ rest))
        [] (s₂ :: tl₂) rest hs hslash
      simpa [joinSegs, List.append_assoc] using this

theorem parseQF_round (q? f? : Option Str)
    (hq : ∀ q, q? = some q → ∀ c ∈ q, (c = '#') = False) :
    parseQF (queryTail q? ++ fragTail f?) = (q?, f?) := by
  cases q? with
  | none =>
    cases f? with
    | none => rfl
    | some f => rfl
  | some q =>
    have hq2 : ∀ c ∈ q, (fun c => decide (c = '#')) c = false := by
      intro c hc
      simpa using fun h => (hq q rfl c hc).mp h
    cases f? with
    | none =>
      simp only [queryTail, fragTail, List.append_nil]
      rw [parseQF, spanUntil_all _ q hq2]
    | some f =>
      simp only [queryTail, fragTail, List.cons_append]
      rw [parseQF, spanUntil_break _ q '#' f hq2 (by simp)]
      rfl

theorem qfTail_shape (q? f? : Option Str) :
    queryTail q? ++ fragTail f? = [] ∨
      (∃ r, queryTail q? ++ fragTail f? = '?' :: r) ∨
      (∃ r, queryTail q? ++ fragTail f? = '#' :: r) := by
  cases q? with
  | none =>
    cases f? with
    | none => exact Or.inl rfl
    | some f => exact Or.inr (Or.inr ⟨f, rfl⟩)
  | some q => exact Or.inr (Or.inl ⟨q ++ fragTail f?, rfl⟩)

theorem parseAbs_href (u : JsUrl) (h : u.WF) : parseAbs u.href = some u := by
  obtain ⟨hs, hsc, ha, hac, hp, hpc, hqc⟩ := h
  obtain ⟨scheme, auth, path, q?, f?⟩ := u
  simp only at hs hsc ha hac hp hpc hqc ⊢
  have hschemeColon : ∀ c ∈ scheme, (fun c => decide (c = ':')) c = false := by
    intro c hc
    simpa using fun hcc => ((hsc c hc).1).mp hcc
  have hhref : JsUrl.href ⟨scheme, auth, path, q?, f?⟩ =
      scheme ++ ':' :: '/' :: '/' ::
        (auth ++ '/' :: (joinSegs path ++ (queryTail q? ++ fragTail f?))) := by
    simp [JsUrl.href, List.append_assoc]
  rw [hhref, parseAbs,
    spanUntil_break _ scheme ':'
      ('/' :: '/' :: (auth ++ '/' :: (joinSegs path ++ (queryTail q? ++ fragTail f?))))
      hschemeColon (by simp)]
  simp only [if_neg hs]
  rw [spanUntil_break segBreak auth '/'
    (joinSegs path ++ (queryTail q? ++ fragTail f?)) hac (by decide)]
  simp only [if_neg ha]
  rw [parseSegs_round path (queryTail q? ++ fragTail f?) hp hpc (qfTail_shape q? f?)]
  simp only
  rw [parseQF_round q? f? hqc]

theorem newURL_of_parseAbs (s b : Str) (r : JsUrl) (h : parseAbs s = some r) :
    newURL s b = some r := by
  simp [newURL, h]

theorem getLast?_mem_of_eq {l : Str} {c : Char} (h : l.getLast? = some c) :
    c ∈ l := by
  obtain ⟨hne, hc⟩ := List.mem_getLast?_eq_getLast (Option.mem_def.mpr h)
  rw [hc]
  exact List.getLast_mem hne

theorem joinSegs_concat (σ : List Str) (s : Str) :
    joinSegs (σ ++ [s]) = if σ = [] then s else joinSegs σ ++ '/' :: s := by
  induction σ with
  | nil => simp [joinSegs]
  | cons x σ ih =>
    cases σ with
    | nil => simp [joinSegs]
    | cons y σ₂ =>
      have hne : (y :: σ₂ : List Str) ≠ [] := by simp
      have ih2 : joinSegs (y :: σ₂ ++ [s]) = joinSegs (y :: σ₂) ++ '/' :: s := by
        rw [ih, if_neg hne]
      have h1 : joinSegs (x :: (y :: σ₂ ++ [s])) =
          x ++ '/' :: joinSegs (y :: σ₂ ++ [s]) := by
        cases σ₂ <;> rfl
      rw [List.cons_append, h1, ih2, if_neg (by simp : ¬ (x :: y :: σ₂ : List Str) = [])]
      have h2 : joinSegs (x :: y :: σ₂) = x ++ '/' :: joinSegs (y :: σ₂) := rfl
      rw [h2]
      simp [List.append_assoc]

theorem mem_joinSegs {c : Char} {segs : List Str} (h : c ∈ joinSegs segs) :
    c = '/' ∨ ∃ s ∈ segs, c ∈ s := by
  induction segs with
  | nil => simp [joinSegs] at h
  | cons s tl ih =>
    cases tl with
    | nil =>
      simp only [joinSegs] at h
      exact Or.inr ⟨s, by simp, h⟩
    | cons s₂ tl₂ =>
      simp only [joinSegs, List.mem_append, List.mem_cons] at h
      rcases h with h | h | h
      · exact Or.inr ⟨s, by simp, h⟩
      · exact Or.inl h
      · rcases ih h with h2 | ⟨t, ht, hc⟩
        · exact Or.inl h2
        · exact Or.inr ⟨t, List.mem_cons_of_mem s ht, hc⟩

theorem href_no_hash (u : JsUrl) (h : u.WF) (hf : u.fragment = none) :
    '#' ∉ u.href := by
  obtain ⟨hs, hsc, ha, hac, hp, hpc, hqc⟩ := h
  intro hmem
  have hhref : u.href = u.scheme ++ ':' :: '/' :: '/' ::
      (u.authority ++ '/' :: (joinSegs u.path ++ queryTail u.query)) := by
    simp [JsUrl.href, hf, fragTail, List.append_assoc]
  rw [hhref] at hmem
  simp only [List.mem_append, List.mem_cons] at hmem
  rcases hmem with hm | hm | hm | hm | hm | hm | hm | hm
  · exact absurd ((hsc '#' hm).2) (by simp [segBreak])
  · exact absurd hm (by decide)
  · exact absurd hm (by decide)
  · exact absurd hm (by decide)
  · exact absurd (hac '#' hm) (by simp [segBreak])
  · exact absurd hm (by decide)
  · rcases mem_joinSegs hm with hm2 | ⟨s, hsm, hcm⟩
    · exact absurd hm2 (by decide)
    · exact absurd (hpc s hsm '#' hcm) (by simp [segBreak])
  · cases hq : u.query with
    | none => rw [hq] at hm; simp [queryTail] at hm
    | some q =>
      rw [hq] at hm
      simp only [queryTail, List.mem_cons] at hm
      rcases hm with hm | hm
      · exact absurd hm (by decide)
      · exact absurd (hqc q hq '#' hm) (by simp)

theorem href_ends_slash_inv (u : JsUrl) (h : u.WF) (hf : u.fragment = none)
    (hends : endsWithSlash u.href = true) :
    (∃ q', u.query = some (q' ++ ['/'])) ∨
      (u.query = none ∧ ∃ σ, u.path = σ ++ [[]]) := by
  obtain ⟨hs, hsc, ha, hac, hp, hpc, hqc⟩ := h
  unfold endsWithSlash at hends
  rw [decide_eq_true_iff] at hends
  cases hq : u.query with
  | some q =>
    left
    have hhref : u.href = (u.scheme ++ ':' :: '/' :: '/' :: u.authority ++
        '/' :: joinSegs u.path ++ ['?']) ++ q := by
      simp [JsUrl.href, hq, hf, queryTail, fragTail, List.append_assoc]
    rcases List.eq_nil_or_concat' q with hq2 | ⟨q', cl, hq2⟩
    · rw [hhref, hq2, List.append_nil, List.getLast?_concat] at hends
      exact absurd hends (by decide)
    · rw [hhref, hq2, ← List.append_assoc, List.getLast?_concat] at hends
      obtain rfl : cl = '/' := by simpa using hends
      exact ⟨q', by rw [hq2]⟩
  | none =>
    right
    refine ⟨rfl, ?_⟩
    have hhref : u.href = (u.scheme ++ ':' :: '/' :: '/' :: u.authority) ++
        '/' :: joinSegs u.path := by
      simp [JsUrl.href, hq, hf, queryTail, fragTail, List.append_assoc]
    rcases List.eq_nil_or_concat' u.path with hp2 | ⟨σ, s, hp2⟩
    · exact absurd hp2 hp
    · refine ⟨σ, ?_⟩
      rw [hp2]
      cases hse : s with
      | nil => rfl
      | cons c₀ s₀ =>
        exfalso
        have hsne : s ≠ [] := by rw [hse]; simp
        have hlast : u.href.getLast? = s.getLast? := by
          rw [hhref, hp2, joinSegs_concat]
          split
          · rename_i hσ
            rw [show ((u.scheme ++ ':' :: '/' :: '/' :: u.authority) ++
                '/' :: s : Str) =
                ((u.scheme ++ ':' :: '/' :: '/' :: u.authority) ++ ['/']) ++ s by
              simp]
            exact List.getLast?_append_of_ne_nil _ hsne
          · rename_i hσ
            rw [show ((u.scheme ++ ':' :: '/' :: '/' :: u.authority) ++
                '/' :: (joinSegs σ ++ '/' :: s) : Str) =
                ((u.scheme ++ ':' :: '/' :: '/' :: u.authority) ++
                  '/' :: joinSegs σ ++ ['/']) ++ s by
              simp [List.append_assoc]]
            exact List.getLast?_append_of_ne_nil _ hsne
        rw [hlast] at hends
        have hmem : '/' ∈ s := getLast?_mem_of_eq hends
        have := hpc s (by rw [hp2]; simp) '/' hmem
        simp [segBreak] at this

theorem href_defrag_query_slash (u : JsUrl) (q' : Str)
    (hq : u.query = some (q' ++ ['/'])) (hf : u.fragment = none) :
    u.href = ({ u with query := some q' } : JsUrl).href ++ ['/'] := by
  simp [JsUrl.href, hq, hf, queryTail, fragTail, List.append_assoc]

theorem href_defrag_path_slash (u : JsUrl) (σ : List Str) (hσ : σ ≠ [])
    (hp : u.path = σ ++ [[]]) (hq : u.query = none) (hf : u.fragment = none) :
    u.href = ({ u with path := σ } : JsUrl).href ++ ['/'] := by
  simp [JsUrl.href, hp, hq, hf, queryTail, fragTail, joinSegs_concat, if_neg hσ,
    List.append_assoc]

theorem href_root (u : JsUrl) (hp : u.path = [[]]) (hq : u.query = none)
    (hf : u.fragment = none) :
    u.href = (u.scheme ++ ':' :: '/' :: '/' :: u.authority) ++ ['/'] := by
  simp [JsUrl.href, hp, hq, hf, queryTail, fragTail, joinSegs]

theorem parseAbs_hostOnly (scheme auth : Str) (hs : scheme ≠ [])
    (hsc : ∀ c ∈ scheme, (c = ':') = False ∧ segBreak c = false)
    (ha : auth ≠ []) (hac : ∀ c ∈ auth, segBreak c = false) :
    parseAbs (scheme ++ ':' :: '/' :: '/' :: auth) =
      some ⟨scheme, auth, [[]], none, none⟩ := by
  have hschemeColon : ∀ c ∈ scheme, (fun c => decide (c = ':')) c = false := by
    intro c hc
    simpa using fun hcc => ((hsc c hc).1).mp hcc
  rw [parseAbs, spanUntil_break _ scheme ':' ('/' :: '/' :: auth) hschemeColon (by simp)]
  simp only [if_neg hs]
  rw [spanUntil_all segBreak auth hac]
  simp only [if_neg ha]
  rfl

theorem WF_defrag (u : JsUrl) (h : u.WF) : ({ u with fragment := none } : JsUrl).WF := by
  obtain ⟨hs, hsc, ha, hac, hp, hpc, hqc⟩ := h
  exact ⟨hs, hsc, ha, hac, hp, hpc, fun q hq => hqc q hq⟩

theorem WF_setQuery (u : JsUrl) (q' : Str) (h : u.WF)
    (hq : u.query = some (q' ++ ['/'])) :
    ({ u with query := some q' } : JsUrl).WF := by
  obtain ⟨hs, hsc, ha, hac, hp, hpc, hqc⟩ := h
  refine ⟨hs, hsc, ha, hac, hp, hpc, ?_⟩
  intro q hq2 c hc
  cases hq2
  exact hqc (q' ++ ['/']) hq c (List.mem_append_left _ hc)

theorem WF_setPath (u : JsUrl) (σ : List Str) (hσ : σ ≠ []) (h : u.WF)
    (hp : u.path = σ ++ [[]]) :
    ({ u with path := σ } : JsUrl).WF := by
  obtain ⟨hs, hsc, ha, hac, hp2, hpc, hqc⟩ := h
  refine ⟨hs, hsc, ha, hac, hσ, ?_, hqc⟩
  intro s hsm c hc
  exact hpc s (by rw [hp]; exact List.mem_append_left _ hsm) c hc

theorem normalizeUrl_of_newURL (u b : Str) (r : JsUrl) (hparse : newURL u b = some r) :
    normalizeUrl u b =
      (if endsWithSlash ({ r with fragment := none } : JsUrl).href ∧
          ({ r with fragment := none } : JsUrl).href ≠ b ++ ['/'] then
        some ({ r with fragment := none } : JsUrl).href.dropLast
      else some ({ r with fragment := none } : JsUrl).href) := by
  simp only [normalizeUrl, hparse]

/-- For a well-formed, fragment-free URL object whose serialisation is `s`,
a second `normalizeUrl` run parses `s` back to the same object; if `s` does
not end in a slash, or equals the preserved root form, the run is a no-op. -/
theorem normalizeUrl_fix (s b : Str) (r₂ : JsUrl) (hwf : r₂.WF)
    (hfrag : r₂.fragment = none) (hs : s = r₂.href)
    (hH : endsWithSlash s = false ∨ s = b ++ ['/']) :
    normalizeUrl s b = some s := by
  have hparse2 : newURL s b = some r₂ :=
    newURL_of_parseAbs s b r₂ (by rw [hs]; exact parseAbs_href r₂ hwf)
  have hr2 : ({ r₂ with fragment := none } : JsUrl) = r₂ := by
    cases r₂
    simp_all
  rw [normalizeUrl_of_newURL s b r₂ hparse2, hr2, ← hs]
  rcases hH with hH | hH
  · rw [if_neg]
    rintro ⟨h1, h2⟩
    rw [hH] at h1
    exact absurd h1 (by simp)
  · rw [if_neg]
    rintro ⟨h1, h2⟩
    exact h2 hH

/-- C5 (amended): on every accepted input, `normalizeUrl` yields a
fragment-free string; the output can end with a trailing slash only when it
equals `baseUrl + '/'` or when the fragment-stripped href itself ended in a
double slash (so one `slice(0, -1)` was not enough); and `normalizeUrl` is
idempotent at every input whose output does not end with a slash or equals
`baseUrl + '/'`. -/
theorem normalizeUrl_amended (u b : Str) (r : JsUrl)
    (hparse : newURL u b = some r) (hwf : r.WF) :
    ∃ s, normalizeUrl u b = some s ∧
      '#' ∉ s ∧
      (endsWithSlash s = true →
        s = b ++ ['/'] ∨
          (endsWithSlash ({ r with fragment := none } : JsUrl).href = true ∧
            endsWithSlash (({ r with fragment := none } : JsUrl).href.dropLast) = true)) ∧
      ((endsWithSlash s = false ∨ s = b ++ ['/']) → normalizeUrl s b = some s) := by
  have hwf' : ({ r with fragment := none } : JsUrl).WF := WF_defrag r hwf
  have hfrag' : ({ r with fragment := none } : JsUrl).fragment = none := rfl
  have hnohash : '#' ∉ ({ r with fragment := none } : JsUrl).href :=
    href_no_hash _ hwf' hfrag'
  rw [normalizeUrl_of_newURL u b r hparse]
  by_cases hcond : endsWithSlash ({ r with fragment := none } : JsUrl).href = true ∧
      ({ r with fragment := none } : JsUrl).href ≠ b ++ ['/']
  · -- the trailing slash is stripped
    obtain ⟨hends, hneq⟩ := hcond
    rw [if_pos (by exact ⟨hends, hneq⟩)]
    refine ⟨({ r with fragment := none } : JsUrl).href.dropLast, rfl, ?_, ?_, ?_⟩
    · intro hmem
      exact hnohash (List.dropLast_subset _ hmem)
    · intro hes
      exact Or.inr ⟨hends, hes⟩
    · intro hH
      rcases href_ends_slash_inv _ hwf' hfrag' hends with ⟨q', hq⟩ | ⟨hqn, σ, hpσ⟩
      · -- the slash ended the query
        have hdec := href_defrag_query_slash _ q' hq hfrag'
        have hsdrop : ({ r with fragment := none } : JsUrl).href.dropLast =
            ({ r with fragment := none, query := some q' } : JsUrl).href := by
          rw [hdec, List.dropLast_concat]
        exact normalizeUrl_fix _ b _ (WF_setQuery _ q' hwf' hq) rfl hsdrop hH
      · rcases eq_or_ne σ [] with hσ | hσ
        · -- the path was the root path `/`
          subst hσ
          rw [List.nil_append] at hpσ
          have hdec := href_root _ hpσ hqn hfrag'
          have hsdrop : ({ r with fragment := none } : JsUrl).href.dropLast =
              r.scheme ++ ':' :: '/' :: '/' :: r.authority := by
            rw [hdec, List.dropLast_concat]
          obtain ⟨hs1, hs2, hs3, hs4, hs5, hs6, hs7⟩ := hwf'
          have hparse3 : parseAbs (r.scheme ++ ':' :: '/' :: '/' :: r.authority) =
              some ⟨r.scheme, r.authority, [[]], none, none⟩ :=
            parseAbs_hostOnly r.scheme r.authority hs1 hs2 hs3 hs4
          have hrec : ({ r with fragment := none } : JsUrl) =
              ⟨r.scheme, r.authority, [[]], none, none⟩ := by
            cases r
            simp_all
          rw [hsdrop, normalizeUrl_of_newURL _ b _
            (newURL_of_parseAbs _ b _ hparse3), ← hrec]
          have hback : ({ ({ r with fragment := none } : JsUrl) with
              fragment := none } : JsUrl) = ({ r with fragment := none } : JsUrl) := rfl
          rw [hback, if_pos ⟨hends, hneq⟩, hsdrop]
        · -- the path ended in an empty segment after a nonempty prefix
          have hdec := href_defrag_path_slash _ σ hσ hpσ hqn hfrag'
          have hsdrop : ({ r with fragment := none } : JsUrl).href.dropLast =
              ({ r with fragment := none, path := σ } : JsUrl).href := by
            rw [hdec, List.dropLast_concat]
          exact normalizeUrl_fix _ b _ (WF_setPath _ σ hσ hwf' hpσ) rfl hsdrop hH
  · -- no strip: the output is the fragment-stripped href itself
    rw [if_neg hcond]
    refine ⟨({ r with fragment := none } : JsUrl).href, rfl, hnohash, ?_, ?_⟩
    · intro hes
      rcases not_and_or.mp hcond with hc | hc
      · exact absurd hes hc
      · exact Or.inl (not_not.mp hc)
    · intro hH
      exact normalizeUrl_fix _ b _ hwf' hfrag' rfl hH

/-- C5 (counterexample): on the accepted input `http://example.com/a//`
(with the default base `http://localhost:4000`), `normalizeUrl` returns
`http://example.com/a/` — an output that still ends with a trailing slash
although it differs from the site root — and a second application returns
`http://example.com/a` instead, so `normalize(normalize(u)) ≠ normalize(u)`:
both the idempotence clause and the no-trailing-slash clause of the claim
fail on this input. -/
theorem normalizeUrl_not_idempotent :
    normalizeUrl ("http://example.com/a//".toList) ("http://localhost:4000".toList) =
        some ("http://example.com/a/".toList) ∧
      endsWithSlash ("http://example.com/a/".toList) = true ∧
      "http://example.com/a/".toList ≠ "http://localhost:4000".toList ++ ['/'] ∧
      normalizeUrl ("http://example.com/a/".toList) ("http://localhost:4000".toList) =
        some ("http://example.com/a".toList) ∧
      "http://example.com/a".toList ≠ "http://example.com/a/".toList := by
  refine ⟨by decide, by decide, by decide, by decide, by decide⟩

/-- C5 (witness): the amended theorem applied at the accepted input
`http://example.com/a/` with base `http://localhost:4000`. -/
theorem normalizeUrl_amended_witness :
    (newURL ("http://example.com/a/".toList) ("http://localhost:4000".toList) =
        some ⟨"http".toList, "example.com".toList, ["a".toList, []], none, none⟩ ∧
      JsUrl.WF ⟨"http".toList, "example.com".toList, ["a".toList, []], none, none⟩) ∧
    (∃ s, normalizeUrl ("http://example.com/a/".toList) ("http://localhost:4000".toList) =
          some s ∧
        '#' ∉ s ∧
        (endsWithSlash s = true →
          s = "http://localhost:4000".toList ++ ['/'] ∨
            (endsWithSlash ({ (⟨"http".toList, "example.com".toList,
                ["a".toList, []], none, none⟩ : JsUrl) with fragment := none } : JsUrl).href =
                true ∧
              endsWithSlash (({ (⟨"http".toList, "example.com".toList,
                ["a".toList, []], none, none⟩ : JsUrl) with
                  fragment := none } : JsUrl).href.dropLast) = true)) ∧
        ((endsWithSlash s = false ∨ s = "http://localhost:4000".toList ++ ['/']) →
          normalizeUrl s ("http://localhost:4000".toList) = some s)) :=
  ⟨⟨by decide, by decide⟩,
    normalizeUrl_amended ("http://example.com/a/".toList) ("http://localhost:4000".toList)
      ⟨"http".toList, "example.com".toList, ["a".toList, []], none, none⟩
      (by decide) (by decide)⟩

/-! ## The crawl engine

Shallow embedding of the crawl state machine of `scripts/site-check.js`:
the `state` object, `crawlPage` (with its inner `processLinks` helper and
image loop), the seeding and draining loop of `main`, `validateLinks` and
`analyzeIsolatedPages`.  The page-fetch collaborator (Playwright page load +
DOM extraction + failed-image side channel) is a function argument of the
environment, as is the link-existence prober of `validateLinks`. -/

/-- The three outgoing-link buckets of a page record. -/
structure OutgoingLinks where
  header : List Str
  footer : List Str
  content : List Str
deriving DecidableEq, Repr

/-- A page record of the graph store
(`state.pages` value: `{ outgoingLinks, images, incomingLinks, status? }`).
`status` is `none` when the JS object has no `status` field (records created
for link targets at classification time). -/
structure PageRecord where
  outgoingLinks : OutgoingLinks
  images : List Str
  incomingLinks : List Str
  status : Option Nat
deriving DecidableEq, Repr

/-- An entry of `state.errors`. -/
structure ErrorEntry where
  url : Str
  error : Str
  referrers : List Str
deriving DecidableEq, Repr

/-- An entry of `state.redirects`. -/
structure RedirectRecord where
  from' : Str
  to' : Str
  status : Nat
deriving DecidableEq, Repr

/-- An entry of `state.brokenLinks`. -/
structure BrokenLink where
  url : Str
  referrers : List Str
  status : Nat
deriving DecidableEq, Repr

/-- A value of `state.brokenImages` (`{ pages, alt }`). -/
structure BrokenImageEntry where
  pages : List Str
  alt : Str
deriving DecidableEq, Repr

/-- A value of `state.externalLinks` (`{ pages: Set }`). -/
structure ExternalDomainEntry where
  pages : List Str
deriving DecidableEq, Repr

/-- The crawler state (the JS `state` object).  The fields after
`externalLinks` are ghost instrumentation (see the module docstring):
`fetchLog` records each `page.goto` dispatch, `okLog` each successful
(status-200) fetch, `refLog` each internal link-target registration, and
`biLog` each broken-image report `(imageUrl, pageUrl, alt)`. -/
structure CrawlState where
  visited : List Str
  toVisit : List Str
  pages : List (Str × PageRecord)
  brokenLinks : List BrokenLink
  brokenImages : List (Str × BrokenImageEntry)
  redirects : List RedirectRecord
  errors : List ErrorEntry
  externalLinks : List (Str × ExternalDomainEntry)
  fetchLog : List Str
  okLog : List Str
  refLog : List Str
  biLog : List (Str × Str × Str)
deriving DecidableEq, Repr

/-- The empty initial crawler state. -/
def initialState : CrawlState :=
  ⟨[], [], [], [], [], [], [], [], [], [], [], []⟩

/-- A link extracted by the DOM collaborator (`{ href, text }`). -/
structure ExtractedLink where
  href : Str
  text : Str
deriving DecidableEq, Repr

/-- An image extracted by the DOM collaborator (`{ src, alt }`). -/
structure ExtractedImage where
  src : Str
  alt : Str
deriving DecidableEq, Repr

/-- The result of `extractLinksAndImages` on a loaded page. -/
structure Extraction where
  headerLinks : List ExtractedLink
  footerLinks : List ExtractedLink
  contentLinks : List ExtractedLink
  images : List ExtractedImage
deriving DecidableEq, Repr

/-- Outcome of dispatching `page.goto(url)`: a response carrying the HTTP
status, final URL, extracted links/images and the failed-image side channel;
a null response; or a thrown exception. -/
inductive FetchOutcome where
  | response (status : Nat) (finalUrl : Str) (extraction : Extraction)
      (failedImages : List Str)
  | noResponse
  | exn (message : Str)
deriving DecidableEq, Repr

/-- The crawl environment: configuration (`CONFIG.baseUrl`,
`CONFIG.maxPages`) and the page-fetch collaborator. -/
structure Env where
  baseUrl : Str
  maxPages : Nat
  fetch : Str → FetchOutcome

/-- A link bucket name. -/
inductive Category where
  | header
  | footer
  | content
deriving DecidableEq, Repr

/-- `pageData.outgoingLinks[category].push(link)`. -/
def pushOutgoing (pd : PageRecord) (cat : Category) (l : Str) : PageRecord :=
  match cat with
  | .header => { pd with outgoingLinks :=
      { pd.outgoingLinks with header := pd.outgoingLinks.header ++ [l] } }
  | .footer => { pd with outgoingLinks :=
      { pd.outgoingLinks with footer := pd.outgoingLinks.footer ++ [l] } }
  | .content => { pd with outgoingLinks :=
      { pd.outgoingLinks with content := pd.outgoingLinks.content ++ [l] } }

/-- A fresh page record (`{ outgoingLinks: {header:[],footer:[],content:[]},
images: [], incomingLinks: [] }`), with an optional `status` field. -/
def emptyRecord (st : Option Nat) : PageRecord :=
  ⟨⟨[], [], []⟩, [], [], st⟩

/-- The referrers captured for a failed page or probed link:
`state.pages.has(url) ? state.pages.get(url).incomingLinks : []`. -/
def referrersOf (st : CrawlState) (url : Str) : List Str :=
  match mapGet? st.pages url with
  | some pd => pd.incomingLinks
  | none => []

/-- One iteration of the `processLinks` loop of `crawlPage` for a single
extracted link of the given bucket, on page `pageUrl`. -/
def processLink (baseUrl : Str) (pageUrl : Str) (cat : Category)
    (st : CrawlState) (link : ExtractedLink) : CrawlState :=
  match normalizeUrl link.href pageUrl with
  | none => st
  | some normalized =>
    if isInternalUrl normalized baseUrl then
      let pages₁ := mapUpdate st.pages pageUrl (fun pd => pushOutgoing pd cat normalized)
      let pages₂ :=
        if mapHas pages₁ normalized then pages₁
        else pages₁ ++ [(normalized, emptyRecord none)]
      let pages₃ := mapUpdate pages₂ normalized
        (fun pd => { pd with incomingLinks := pd.incomingLinks ++ [pageUrl] })
      let st : CrawlState := { st with pages := pages₃,
                                       refLog := st.refLog ++ [normalized] }
      if normalized ∉ st.visited ∧ normalized ∉ st.toVisit then
        { st with toVisit := st.toVisit ++ [normalized] }
      else st
    else
      match hostnameOfUrl normalized with
      | none => st
      | some hn =>
        let ext₁ :=
          if mapHas st.externalLinks hn then st.externalLinks
          else st.externalLinks ++ [(hn, ⟨[]⟩)]
        let ext₂ := mapUpdate ext₁ hn
          (fun e => { e with pages := setAdd e.pages pageUrl })
        { st with externalLinks := ext₂ }

/-- One iteration of the image loop of `crawlPage` for a single extracted
image of page `pageUrl`, with the failed-image side channel of that load. -/
def processImage (pageUrl : Str) (failedImages : List Str)
    (st : CrawlState) (image : ExtractedImage) : CrawlState :=
  match normalizeUrl image.src pageUrl with
  | none => st
  | some imageUrl =>
    let pages₁ := mapUpdate st.pages pageUrl
      (fun pd => { pd with images := pd.images ++ [imageUrl] })
    let st := { st with pages := pages₁ }
    if imageUrl ∈ failedImages then
      let st := { st with biLog := st.biLog ++ [(imageUrl, pageUrl, image.alt)] }
      if mapHas st.brokenImages imageUrl then
        let bi₂ := mapUpdate st.brokenImages imageUrl
          (fun e => { e with pages := e.pages ++ [pageUrl] })
        { st with brokenImages := bi₂ }
      else
        { st with brokenImages :=
          st.brokenImages ++ [(imageUrl, ⟨[pageUrl], image.alt⟩)] }
    else st

/-- The link/image classification step of `crawlPage` for a successfully
fetched page: `processLinks(headerLinks, 'header')`,
`processLinks(footerLinks, 'footer')`, `processLinks(contentLinks,
'content')`, then the image loop. -/
def classifyPage (baseUrl : Str) (pageUrl : Str) (ext : Extraction)
    (failedImages : List Str) (st : CrawlState) : CrawlState :=
  let st := ext.headerLinks.foldl (processLink baseUrl pageUrl .header) st
  let st := ext.footerLinks.foldl (processLink baseUrl pageUrl .footer) st
  let st := ext.contentLinks.foldl (processLink baseUrl pageUrl .content) st
  ext.images.foldl (processImage pageUrl failedImages) st

/-- `finalUrl === url + '/' || finalUrl + '/' === url`. -/
def isTrailingSlashRedirect (finalUrl url : Str) : Bool :=
  finalUrl = url ++ ['/'] || finalUrl ++ ['/'] = url

/-- Model of `crawlPage(browser, url)`: skip if visited or over budget,
mark visited, dispatch the fetch, record an error (with the current
incoming links as referrers) on a non-200 response / null response /
exception, otherwise record a redirect if the final URL differs beyond a
trailing slash, create the page record if absent (with the HTTP status),
and classify the extracted links and images. -/
def crawlPage (env : Env) (st : CrawlState) (url : Str) : CrawlState :=
  if url ∈ st.visited ∨ env.maxPages ≤ st.visited.length then st
  else
    let st := { st with visited := setAdd st.visited url,
                        fetchLog := st.fetchLog ++ [url] }
    match env.fetch url with
    | .exn msg =>
        { st with errors := st.errors ++ [⟨url, msg, referrersOf st url⟩] }
    | .noResponse =>
        { st with errors := st.errors ++
          [⟨url, "HTTP unknown".toList, referrersOf st url⟩] }
    | .response status finalUrl ext failedImages =>
      if status ≠ 200 then
        { st with errors := st.errors ++
          [⟨url, "HTTP ".toList ++ (toString status).toList, referrersOf st url⟩] }
      else
        let st :=
          if finalUrl ≠ url ∧ ¬ isTrailingSlashRedirect finalUrl url then
            { st with redirects := st.redirects ++ [⟨url, finalUrl, status⟩] }
          else st
        let st :=
          if mapHas st.pages url then st
          else { st with pages := st.pages ++ [(url, emptyRecord (some status))] }
        let st := { st with okLog := st.okLog ++ [url] }
        classifyPage env.baseUrl url ext failedImages st

theorem processLink_frame (b p : Str) (c : Category) (st : CrawlState)
    (l : ExtractedLink) :
    (processLink b p c st l).visited = st.visited ∧
      (processLink b p c st l).fetchLog = st.fetchLog ∧
      (processLink b p c st l).errors = st.errors ∧
      (processLink b p c st l).redirects = st.redirects ∧
      (processLink b p c st l).brokenLinks = st.brokenLinks ∧
      (processLink b p c st l).brokenImages = st.brokenImages ∧
      (processLink b p c st l).okLog = st.okLog ∧
      (processLink b p c st l).biLog = st.biLog := by
  unfold processLink
  split
  · exact ⟨rfl, rfl, rfl, rfl, rfl, rfl, rfl, rfl⟩
  · dsimp only
    split
    · split
      · split <;> exact ⟨rfl, rfl, rfl, rfl, rfl, rfl, rfl, rfl⟩
      · split <;> exact ⟨rfl, rfl, rfl, rfl, rfl, rfl, rfl, rfl⟩
    · split
      · exact ⟨rfl, rfl, rfl, rfl, rfl, rfl, rfl, rfl⟩
      · split <;> exact ⟨rfl, rfl, rfl, rfl, rfl, rfl, rfl, rfl⟩

theorem processImage_frame (p : Str) (fi : List Str) (st : CrawlState)
    (img : ExtractedImage) :
    (processImage p fi st img).visited = st.visited ∧
      (processImage p fi st img).toVisit = st.toVisit ∧
      (processImage p fi st img).fetchLog = st.fetchLog ∧
      (processImage p fi st img).errors = st.errors ∧
      (processImage p fi st img).redirects = st.redirects ∧
      (processImage p fi st img).brokenLinks = st.brokenLinks ∧
      (processImage p fi st img).externalLinks = st.externalLinks ∧
      (processImage p fi st img).okLog = st.okLog ∧
      (processImage p fi st img).refLog = st.refLog := by
  unfold processImage
  split
  · exact ⟨rfl, rfl, rfl, rfl, rfl, rfl, rfl, rfl, rfl⟩
  · dsimp only
    split
    · split <;> exact ⟨rfl, rfl, rfl, rfl, rfl, rfl, rfl, rfl, rfl⟩
    · exact ⟨rfl, rfl, rfl, rfl, rfl, rfl, rfl, rfl, rfl⟩

theorem classifyPage_visited (b p : Str) (ext : Extraction) (fi : List Str)
    (st : CrawlState) :
    (classifyPage b p ext fi st).visited = st.visited ∧
      (classifyPage b p ext fi st).fetchLog = st.fetchLog := by
  unfold classifyPage
  have himg : ∀ (imgs : List ExtractedImage) (s : CrawlState),
      ((imgs.foldl (processImage p fi) s).visited = s.visited ∧
        (imgs.foldl (processImage p fi) s).fetchLog = s.fetchLog) := by
    intro imgs
    induction imgs with
    | nil => intro s; exact ⟨rfl, rfl⟩
    | cons i tl ih =>
      intro s
      have h1 := processImage_frame p fi s i
      have h2 := ih (processImage p fi s i)
      simp only [List.foldl_cons]
      exact ⟨h2.1.trans h1.1, h2.2.trans h1.2.2.1⟩
  have hlnk : ∀ (c : Category) (ls : List ExtractedLink) (s : CrawlState),
      ((ls.foldl (processLink b p c) s).visited = s.visited ∧
        (ls.foldl (processLink b p c) s).fetchLog = s.fetchLog) := by
    intro c ls
    induction ls with
    | nil => intro s; exact ⟨rfl, rfl⟩
    | cons l tl ih =>
      intro s
      have h1 := processLink_frame b p c s l
      have h2 := ih (processLink b p c s l)
      simp only [List.foldl_cons]
      exact ⟨h2.1.trans h1.1, h2.2.trans h1.2.1⟩
  dsimp only
  constructor
  · rw [(himg ext.images _).1, (hlnk .content ext.contentLinks _).1,
      (hlnk .footer ext.footerLinks _).1, (hlnk .header ext.headerLinks _).1]
  · rw [(himg ext.images _).2, (hlnk .content ext.contentLinks _).2,
      (hlnk .footer ext.footerLinks _).2, (hlnk .header ext.headerLinks _).2]

theorem crawlPage_growth (env : Env) (st : CrawlState) (url : Str) :
    ((crawlPage env st url).visited = st.visited ∧
      (crawlPage env st url).toVisit = st.toVisit) ∨
      ((url ∉ st.visited ∧ st.visited.length < env.maxPages) ∧
        (crawlPage env st url).visited = st.visited ++ [url]) := by
  unfold crawlPage
  split
  · exact Or.inl ⟨rfl, rfl⟩
  · rename_i h
    push_neg at h
    obtain ⟨hnv, hlt⟩ := h
    right
    refine ⟨⟨hnv, hlt⟩, ?_⟩
    have hadd : setAdd st.visited url = st.visited ++ [url] := by
      unfold setAdd
      rw [if_neg hnv]
    dsimp only
    split
    · exact hadd
    · exact hadd
    · split
      · exact hadd
      · rw [(classifyPage_visited _ _ _ _ _).1]
        dsimp only
        split
        · split <;> exact hadd
        · split <;> exact hadd

/-- The crawl drain loop of `main`: while the queue is nonempty and the
budget is not exhausted, take the first queue element, delete it, and crawl
it. -/
def crawlLoop (env : Env) (st : CrawlState) : CrawlState :=
  match hq : st.toVisit with
  | [] => st
  | url :: _ =>
    if hv : st.visited.length < env.maxPages then
      crawlLoop env (crawlPage env { st with toVisit := setDelete st.toVisit url } url)
    else st
termination_by (env.maxPages - st.visited.length, st.toVisit.length)
decreasing_by
  rcases crawlPage_growth env { st with toVisit := setDelete st.toVisit url } url with
    ⟨hveq, hteq⟩ | ⟨_, hvg⟩
  · apply Prod.Lex.right'
    · exact Nat.le_of_eq (by rw [hveq])
    · rw [hteq]
      dsimp only
      rw [hq]
      unfold setDelete
      simp only [List.filter_cons, decide_not, decide_eq_true_eq]
      rw [if_neg (by simp)]
      calc (List.filter (fun y => !decide (y = url)) _).length
          ≤ _ := List.length_filter_le _ _
        _ < (url :: _).length := by simp
  · apply Prod.Lex.left
    rw [hvg]
    simp only [List.length_append, List.length_cons, List.length_nil]
    omega

/-- The seed URL list of `main`: sitemap URLs when the sitemap collaborator
returned a nonempty list, otherwise the base URL alone. -/
def seedUrls (env : Env) (sitemapUrls : Option (List Str)) : List Str :=
  match sitemapUrls with
  | some urls => if 0 < urls.length then urls else [env.baseUrl]
  | none => [env.baseUrl]

/-- The state after seeding: each seed URL added to `state.toVisit`. -/
def seededState (env : Env) (sitemapUrls : Option (List Str)) : CrawlState :=
  (seedUrls env sitemapUrls).foldl
    (fun s u => { s with toVisit := setAdd s.toVisit u }) initialState

/-- A whole crawl run of `main` (seeding followed by draining). -/
def runCrawl (env : Env) (sitemapUrls : Option (List Str)) : CrawlState :=
  crawlLoop env (seededState env sitemapUrls)

/-- The crawler states a run passes through, at `crawlPage` granularity:
the seeded state, and every state obtained by one iteration of the drain
loop (pop the queue head, then `crawlPage` it) from a reachable state. -/
inductive CrawlReach (env : Env) (sitemapUrls : Option (List Str)) :
    CrawlState → Prop where
  | seed : CrawlReach env sitemapUrls (seededState env sitemapUrls)
  | step (st : CrawlState) (url : Str) (rest : List Str) :
      CrawlReach env sitemapUrls st →
      st.toVisit = url :: rest →
      st.visited.length < env.maxPages →
      CrawlReach env sitemapUrls
        (crawlPage env { st with toVisit := setDelete st.toVisit url } url)

theorem crawlLoop_reach_aux (env : Env) (sm : Option (List Str)) :
    ∀ st : CrawlState, CrawlReach env sm st → CrawlReach env sm (crawlLoop env st) := by
  intro st₀
  induction st₀ using crawlLoop.induct env with
  | case1 x hq =>
    intro h
    unfold crawlLoop
    split
    · exact h
    · rename_i url2 tail2 hq2
      rw [hq] at hq2
      cases hq2
  | case2 x url tail hq hv ih =>
    intro h
    unfold crawlLoop
    split
    · rename_i hq2
      rw [hq] at hq2
      cases hq2
    · rename_i url2 tail2 hq2
      rw [hq] at hq2
      obtain ⟨rfl, rfl⟩ : url2 = url ∧ tail2 = tail := by
        cases hq2
        exact ⟨rfl, rfl⟩
      rw [dif_pos hv]
      exact ih (CrawlReach.step x url2 tail2 h hq hv)
  | case3 x url tail hq hv =>
    intro h
    unfold crawlLoop
    split
    · exact h
    · rename_i url2 tail2 hq2
      rw [hq] at hq2
      obtain ⟨rfl, rfl⟩ : url2 = url ∧ tail2 = tail := by
        cases hq2
        exact ⟨rfl, rfl⟩
      rw [dif_neg hv]
      exact h

/-- The final state of a run is reachable: applying the drain loop to a
reachable state yields a reachable state. -/
theorem runCrawl_reach (env : Env) (sitemapUrls : Option (List Str)) :
    CrawlReach env sitemapUrls (runCrawl env sitemapUrls) :=
  crawlLoop_reach_aux env sitemapUrls _ CrawlReach.seed


theorem mapGet?_update_ne {κ α : Type} [DecidableEq κ] (m : List (κ × α))
    (k j : κ) (f : α → α) (h : j ≠ k) :
    mapGet? (mapUpdate m k f) j = mapGet? m j := by
  rw [mapGet?_update, if_neg h]

theorem mapGet?_update_self {κ α : Type} [DecidableEq κ] (m : List (κ × α))
    (k : κ) (f : α → α) :
    mapGet? (mapUpdate m k f) k = (mapGet? m k).map f := by
  rw [mapGet?_update, if_pos rfl]

theorem mem_mapUpdate {κ α : Type} [DecidableEq κ] {m : List (κ × α)}
    {k : κ} {f : α → α} {e : κ × α} (h : e ∈ mapUpdate m k f) :
    ∃ e₀ ∈ m, e = e₀ ∨ e = (e₀.1, f e₀.2) := by
  induction m with
  | nil => simp [mapUpdate] at h
  | cons e₁ rest ih =>
    obtain ⟨k₁, v₁⟩ := e₁
    by_cases h1 : k₁ = k
    · simp only [mapUpdate, if_pos h1, List.mem_cons] at h
      rcases h with h | h
      · exact ⟨(k₁, v₁), by simp, Or.inr (by simp [h])⟩
      · obtain ⟨e₀, he₀, hor⟩ := ih h
        exact ⟨e₀, List.mem_cons_of_mem _ he₀, hor⟩
    · simp only [mapUpdate, if_neg h1, List.mem_cons] at h
      rcases h with h | h
      · exact ⟨(k₁, v₁), by simp, Or.inl h⟩
      · obtain ⟨e₀, he₀, hor⟩ := ih h
        exact ⟨e₀, List.mem_cons_of_mem _ he₀, hor⟩

/-! ### Per-step lemmas about `processLink` and `processImage` -/

theorem processLink_toVisit (b p : Str) (c : Category) (st : CrawlState)
    (l : ExtractedLink) :
    (processLink b p c st l).toVisit = st.toVisit ∨
      ∃ t, (processLink b p c st l).toVisit = st.toVisit ++ [t] ∧
        t ∉ st.visited ∧ t ∉ st.toVisit := by
  unfold processLink
  split
  · exact Or.inl rfl
  · rename_i t hnorm
    dsimp only
    split
    · split
      · rename_i hguard
        exact Or.inr ⟨t, rfl, hguard.1, hguard.2⟩
      · exact Or.inl rfl
    · split
      · exact Or.inl rfl
      · split <;> exact Or.inl rfl

theorem processLink_status (b p : Str) (c : Category) (st : CrawlState)
    (l : ExtractedLink) (k : Str) (pd : PageRecord)
    (h : mapGet? st.pages k = some pd) :
    ∃ pd', mapGet? (processLink b p c st l).pages k = some pd' ∧
      pd'.status = pd.status := by
  unfold processLink
  split
  · exact ⟨pd, h, rfl⟩
  · rename_i t hnorm
    split
    · dsimp only
      have h₁ : ∃ pd₁, mapGet? (mapUpdate st.pages p
          (fun pd => pushOutgoing pd c t)) k = some pd₁ ∧ pd₁.status = pd.status := by
        by_cases hkp : k = p
        · subst hkp
          refine ⟨pushOutgoing pd c t, ?_, ?_⟩
          · rw [mapGet?_update_self, h]; rfl
          · cases c <;> rfl
        · exact ⟨pd, by rw [mapGet?_update_ne _ _ _ _ hkp]; exact h, rfl⟩
      obtain ⟨pd₁, h₁, hs₁⟩ := h₁
      have h₂ : ∃ pd₂, mapGet? (if mapHas (mapUpdate st.pages p
            (fun pd => pushOutgoing pd c t)) t then
            mapUpdate st.pages p (fun pd => pushOutgoing pd c t)
          else mapUpdate st.pages p (fun pd => pushOutgoing pd c t) ++
            [(t, emptyRecord none)]) k = some pd₂ ∧ pd₂.status = pd.status := by
        split
        · exact ⟨pd₁, h₁, hs₁⟩
        · exact ⟨pd₁, mapGet?_append_old _ _ _ _ h₁, hs₁⟩
      obtain ⟨pd₂, h₂, hs₂⟩ := h₂
      have h₃ : ∃ pd₃, mapGet? (mapUpdate (if mapHas (mapUpdate st.pages p
            (fun pd => pushOutgoing pd c t)) t then
            mapUpdate st.pages p (fun pd => pushOutgoing pd c t)
          else mapUpdate st.pages p (fun pd => pushOutgoing pd c t) ++
            [(t, emptyRecord none)]) t
          (fun pd => { pd with incomingLinks := pd.incomingLinks ++ [p] })) k =
            some pd₃ ∧ pd₃.status = pd.status := by
        by_cases hkt : k = t
        · subst hkt
          refine ⟨{ pd₂ with incomingLinks := pd₂.incomingLinks ++ [p] }, ?_, hs₂⟩
          rw [mapGet?_update_self, h₂]
          rfl
        · exact ⟨pd₂, by rw [mapGet?_update_ne _ _ _ _ hkt]; exact h₂, hs₂⟩
      obtain ⟨pd₃, h₃, hs₃⟩ := h₃
      split <;> exact ⟨pd₃, h₃, hs₃⟩
    · split
      · exact ⟨pd, h, rfl⟩
      · exact ⟨pd, h, rfl⟩

theorem processImage_pages (p : Str) (fi : List Str) (st : CrawlState)
    (img : ExtractedImage) :
    (∀ k, k ≠ p → mapGet? (processImage p fi st img).pages k = mapGet? st.pages k) ∧
      (∀ pd, mapGet? st.pages p = some pd →
        ∃ pd', mapGet? (processImage p fi st img).pages p = some pd' ∧
          pd'.status = pd.status ∧ pd'.incomingLinks = pd.incomingLinks ∧
          pd'.outgoingLinks = pd.outgoingLinks) := by
  unfold processImage
  split
  · exact ⟨fun k _ => rfl, fun pd h => ⟨pd, h, rfl, rfl, rfl⟩⟩
  · rename_i iu hnorm
    dsimp only
    constructor
    · intro k hk
      have hbase : mapGet? (mapUpdate st.pages p
          (fun pd => { pd with images := pd.images ++ [iu] })) k = mapGet? st.pages k :=
        mapGet?_update_ne _ _ _ _ hk
      split
      · split <;> exact hbase
      · exact hbase
    · intro pd h
      have hbase : mapGet? (mapUpdate st.pages p
          (fun pd => { pd with images := pd.images ++ [iu] })) p =
            some { pd with images := pd.images ++ [iu] } := by
        rw [mapGet?_update_self, h]
        rfl
      split
      · split <;> exact ⟨{ pd with images := pd.images ++ [iu] }, hbase, rfl, rfl, rfl⟩
      · exact ⟨{ pd with images := pd.images ++ [iu] }, hbase, rfl, rfl, rfl⟩


/-! ### The frontier invariant (C4) -/

/-- The frontier invariant: the visited set and the pending queue are
duplicate-free and disjoint, and the fetch dispatch log coincides with the
visited set (every visited-mark is paired with exactly one dispatch). -/
def FrontierInv (st : CrawlState) : Prop :=
  st.visited.Nodup ∧ st.toVisit.Nodup ∧ (∀ u ∈ st.toVisit, u ∉ st.visited) ∧
    st.fetchLog = st.visited

theorem frontier_processLink (b p : Str) (c : Category) (st : CrawlState)
    (l : ExtractedLink) (h : FrontierInv st) :
    FrontierInv (processLink b p c st l) := by
  obtain ⟨h1, h2, h3, h4⟩ := h
  have hf := processLink_frame b p c st l
  rcases processLink_toVisit b p c st l with ht | ⟨t, ht, htv, htt⟩
  · exact ⟨hf.1 ▸ h1, ht ▸ h2, by rw [ht, hf.1]; exact h3, by rw [hf.2.1, hf.1]; exact h4⟩
  · refine ⟨hf.1 ▸ h1, ?_, ?_, by rw [hf.2.1, hf.1]; exact h4⟩
    · rw [ht]
      simp [List.nodup_append, h2, htt]
    · intro u hu
      rw [ht] at hu
      rw [hf.1]
      rcases List.mem_append.mp hu with hu | hu
      · exact h3 u hu
      · simp only [List.mem_singleton] at hu
        subst hu
        exact htv

theorem frontier_processImage (p : Str) (fi : List Str) (st : CrawlState)
    (img : ExtractedImage) (h : FrontierInv st) :
    FrontierInv (processImage p fi st img) := by
  obtain ⟨h1, h2, h3, h4⟩ := h
  have hf := processImage_frame p fi st img
  exact ⟨hf.1 ▸ h1, hf.2.1 ▸ h2, by rw [hf.2.1, hf.1]; exact h3,
    by rw [hf.2.2.1, hf.1]; exact h4⟩

theorem frontier_classifyPage (b p : Str) (ext : Extraction) (fi : List Str)
    (st : CrawlState) (h : FrontierInv st) :
    FrontierInv (classifyPage b p ext fi st) := by
  unfold classifyPage
  dsimp only
  have hlnk : ∀ (c : Category) (ls : List ExtractedLink) (s : CrawlState),
      FrontierInv s → FrontierInv (ls.foldl (processLink b p c) s) := by
    intro c ls
    induction ls with
    | nil => exact fun s hs => hs
    | cons x tl ih =>
      intro s hs
      exact ih _ (frontier_processLink b p c s x hs)
  have himg : ∀ (imgs : List ExtractedImage) (s : CrawlState),
      FrontierInv s → FrontierInv (imgs.foldl (processImage p fi) s) := by
    intro imgs
    induction imgs with
    | nil => exact fun s hs => hs
    | cons x tl ih =>
      intro s hs
      exact ih _ (frontier_processImage p fi s x hs)
  exact himg _ _ (hlnk _ _ _ (hlnk _ _ _ (hlnk _ _ _ h)))

theorem frontier_crawlPage (env : Env) (st : CrawlState) (url : Str)
    (hnt : url ∉ st.toVisit) (h : FrontierInv st) :
    FrontierInv (crawlPage env st url) := by
  obtain ⟨h1, h2, h3, h4⟩ := h
  unfold crawlPage
  split
  · exact ⟨h1, h2, h3, h4⟩
  · rename_i hc
    push_neg at hc
    obtain ⟨hnv, _⟩ := hc
    have hadd : setAdd st.visited url = st.visited ++ [url] := by
      unfold setAdd
      rw [if_neg hnv]
    have hbase : FrontierInv { st with visited := setAdd st.visited url, fetchLog := st.fetchLog ++ [url] } := by
      refine ⟨?_, h2, ?_, ?_⟩
      · dsimp only
        rw [hadd]
        simp [List.nodup_append, h1, hnv]
      · intro u hu
        dsimp only at hu ⊢
        rw [hadd]
        simp only [List.mem_append, List.mem_singleton]
        rintro (huv | rfl)
        · exact h3 u hu huv
        · exact hnt hu
      · dsimp only
        rw [hadd, h4]
    dsimp only
    split
    · exact hbase
    · exact hbase
    · split
      · exact hbase
      · apply frontier_classifyPage
        split
        · split
          · exact hbase
          · exact hbase
        · split
          · exact hbase
          · exact hbase

theorem seededState_foldl (urls : List Str) (s : CrawlState) :
    urls.foldl (fun s u => { s with toVisit := setAdd s.toVisit u }) s =
      { s with toVisit := urls.foldl setAdd s.toVisit } := by
  induction urls generalizing s with
  | nil => rfl
  | cons u tl ih =>
    simp only [List.foldl_cons, ih]

theorem foldl_setAdd_nodup (urls : List Str) (s : List Str) (h : s.Nodup) :
    (urls.foldl setAdd s).Nodup := by
  induction urls generalizing s with
  | nil => exact h
  | cons u tl ih => exact ih _ (setAdd_nodup s u h)

theorem frontier_seed (env : Env) (sm : Option (List Str)) :
    FrontierInv (seededState env sm) := by
  unfold seededState
  rw [seededState_foldl]
  refine ⟨List.nodup_nil, ?_, ?_, rfl⟩
  · exact foldl_setAdd_nodup _ _ List.nodup_nil
  · intro u _
    simp [initialState]

theorem frontier_reach (env : Env) (sm : Option (List Str)) (st : CrawlState)
    (h : CrawlReach env sm st) : FrontierInv st := by
  induction h with
  | seed => exact frontier_seed env sm
  | step s url rest _ hq _ ih =>
    apply frontier_crawlPage
    · simp [setDelete]
    · obtain ⟨h1, h2, h3, h4⟩ := ih
      refine ⟨h1, ?_, ?_, h4⟩
      · exact List.Nodup.filter _ h2
      · intro u hu
        exact h3 u (List.mem_of_mem_filter hu)


/-- C4: at every state of a crawl run (the seeded state and every state
produced by a drain-loop iteration), the visited set and the pending queue
are duplicate-free and disjoint, and the fetch-dispatch log has no
duplicates (no URL is ever fetched twice); moreover, at the moment a
`processLink` step runs, any URL present in the pending queue afterwards
either was already pending or was in neither the visited set nor the
pending queue of the state the step ran on. -/
theorem frontier_invariants (env : Env) (sm : Option (List Str)) :
    (∀ st, CrawlReach env sm st →
      st.visited.Nodup ∧ st.toVisit.Nodup ∧
        (∀ u ∈ st.toVisit, u ∉ st.visited) ∧ st.fetchLog.Nodup) ∧
    (∀ (st : CrawlState) (b p : Str) (c : Category) (l : ExtractedLink) (x : Str),
      x ∈ (processLink b p c st l).toVisit →
        x ∈ st.toVisit ∨ (x ∉ st.visited ∧ x ∉ st.toVisit)) := by
  constructor
  · intro st hreach
    obtain ⟨h1, h2, h3, h4⟩ := frontier_reach env sm st hreach
    exact ⟨h1, h2, h3, h4 ▸ h1⟩
  · intro st b p c l x hx
    rcases processLink_toVisit b p c st l with ht | ⟨t, ht, htv, htt⟩
    · exact Or.inl (ht ▸ hx)
    · rw [ht] at hx
      rcases List.mem_append.mp hx with hx | hx
      · exact Or.inl hx
      · simp only [List.mem_singleton] at hx
        subst hx
        exact Or.inr ⟨htv, htt⟩

/-- A small concrete crawl environment for witnesses. -/
def envW : Env :=
  ⟨"http://localhost:4000".toList, 10, fun _ => FetchOutcome.noResponse⟩

/-- A concrete extracted link for witnesses. -/
def linkW : ExtractedLink := ⟨"/b".toList, []⟩

/-- C4 (witness): the frontier theorem applied to the seeded state of a
concrete environment, and to a concrete `processLink` step that enqueues
`http://localhost:4000/b`. -/
theorem frontier_invariants_witness :
    (CrawlReach envW none (seededState envW none) ∧
      ((seededState envW none).visited.Nodup ∧
        (seededState envW none).toVisit.Nodup ∧
        (∀ u ∈ (seededState envW none).toVisit, u ∉ (seededState envW none).visited) ∧
        (seededState envW none).fetchLog.Nodup)) ∧
    ("http://localhost:4000/b".toList ∈
        (processLink envW.baseUrl ("http://localhost:4000/a".toList) Category.content
          initialState linkW).toVisit ∧
      ("http://localhost:4000/b".toList ∈ initialState.toVisit ∨
        ("http://localhost:4000/b".toList ∉ initialState.visited ∧
          "http://localhost:4000/b".toList ∉ initialState.toVisit))) :=
  ⟨⟨CrawlReach.seed, (frontier_invariants envW none).1 _ CrawlReach.seed⟩,
    ⟨by decide,
      (frontier_invariants envW none).2 initialState envW.baseUrl
        ("http://localhost:4000/a".toList) Category.content linkW
        ("http://localhost:4000/b".toList) (by decide)⟩⟩


/-- C8: when the fetch of `url` fails — a thrown exception, a null
response, or a non-200 status — `crawlPage` records exactly one error entry
for `url`, whose referrers are the page's current `incomingLinks` (empty
when the page has no record yet), and performs no link or image
classification: the graph store, the pending queue, the broken-image and
external-domain registries and the redirect list are all unchanged, and
`url` is only marked visited (fetched once). -/
theorem crawlPage_failed_fetch (env : Env) (st : CrawlState) (url : Str)
    (hnv : url ∉ st.visited) (hlt : st.visited.length < env.maxPages)
    (hfail : (∃ m, env.fetch url = FetchOutcome.exn m) ∨
      env.fetch url = FetchOutcome.noResponse ∨
      (∃ status finalUrl ext fi,
        env.fetch url = FetchOutcome.response status finalUrl ext fi ∧ status ≠ 200)) :
    (∃ m, (crawlPage env st url).errors =
        st.errors ++ [⟨url, m, referrersOf st url⟩]) ∧
      (crawlPage env st url).pages = st.pages ∧
      (crawlPage env st url).toVisit = st.toVisit ∧
      (crawlPage env st url).brokenImages = st.brokenImages ∧
      (crawlPage env st url).externalLinks = st.externalLinks ∧
      (crawlPage env st url).redirects = st.redirects ∧
      (crawlPage env st url).okLog = st.okLog ∧
      (crawlPage env st url).visited = st.visited ++ [url] := by
  have hguard : ¬ (url ∈ st.visited ∨ env.maxPages ≤ st.visited.length) := by
    push_neg
    exact ⟨hnv, Nat.lt_of_lt_of_le hlt (Nat.le_refl _) |> fun h => by omega⟩
  have hadd : setAdd st.visited url = st.visited ++ [url] := by
    unfold setAdd
    rw [if_neg hnv]
  unfold crawlPage
  rw [if_neg hguard]
  rcases hfail with ⟨m, hf⟩ | hf | ⟨status, finalUrl, ext, fi, hf, hst⟩ <;> rw [hf]
  · exact ⟨⟨m, rfl⟩, rfl, rfl, rfl, rfl, rfl, rfl, hadd⟩
  · exact ⟨⟨"HTTP unknown".toList, rfl⟩, rfl, rfl, rfl, rfl, rfl, rfl, hadd⟩
  · dsimp only
    rw [if_pos hst]
    exact ⟨⟨"HTTP ".toList ++ (toString status).toList, rfl⟩,
      rfl, rfl, rfl, rfl, rfl, rfl, hadd⟩

/-- C8 (witness): the failed-fetch theorem at a concrete state whose fetch
returns HTTP 500. -/
theorem crawlPage_failed_fetch_witness :
    (("http://localhost:4000/x".toList ∉ initialState.visited ∧
        initialState.visited.length < 10) ∧
      (∃ status finalUrl ext fi,
        FetchOutcome.response 500 ("http://localhost:4000/x".toList) ⟨[], [], [], []⟩ [] =
            FetchOutcome.response status finalUrl ext fi ∧ status ≠ 200)) ∧
    ((∃ m, (crawlPage ⟨"http://localhost:4000".toList, 10,
          fun _ => FetchOutcome.response 500 ("http://localhost:4000/x".toList) ⟨[], [], [], []⟩ []⟩
        initialState ("http://localhost:4000/x".toList)).errors =
        initialState.errors ++
          [⟨"http://localhost:4000/x".toList, m,
            referrersOf initialState ("http://localhost:4000/x".toList)⟩]) ∧
      (crawlPage ⟨"http://localhost:4000".toList, 10,
          fun _ => FetchOutcome.response 500 ("http://localhost:4000/x".toList) ⟨[], [], [], []⟩ []⟩
        initialState ("http://localhost:4000/x".toList)).pages = initialState.pages ∧
      (crawlPage ⟨"http://localhost:4000".toList, 10,
          fun _ => FetchOutcome.response 500 ("http://localhost:4000/x".toList) ⟨[], [], [], []⟩ []⟩
        initialState ("http://localhost:4000/x".toList)).toVisit = initialState.toVisit ∧
      (crawlPage ⟨"http://localhost:4000".toList, 10,
          fun _ => FetchOutcome.response 500 ("http://localhost:4000/x".toList) ⟨[], [], [], []⟩ []⟩
        initialState ("http://localhost:4000/x".toList)).brokenImages = initialState.brokenImages ∧
      (crawlPage ⟨"http://localhost:4000".toList, 10,
          fun _ => FetchOutcome.response 500 ("http://localhost:4000/x".toList) ⟨[], [], [], []⟩ []⟩
        initialState ("http://localhost:4000/x".toList)).externalLinks = initialState.externalLinks ∧
      (crawlPage ⟨"http://localhost:4000".toList, 10,
          fun _ => FetchOutcome.response 500 ("http://localhost:4000/x".toList) ⟨[], [], [], []⟩ []⟩
        initialState ("http://localhost:4000/x".toList)).redirects = initialState.redirects ∧
      (crawlPage ⟨"http://localhost:4000".toList, 10,
          fun _ => FetchOutcome.response 500 ("http://localhost:4000/x".toList) ⟨[], [], [], []⟩ []⟩
        initialState ("http://localhost:4000/x".toList)).okLog = initialState.okLog ∧
      (crawlPage ⟨"http://localhost:4000".toList, 10,
          fun _ => FetchOutcome.response 500 ("http://localhost:4000/x".toList) ⟨[], [], [], []⟩ []⟩
        initialState ("http://localhost:4000/x".toList)).visited =
        initialState.visited ++ ["http://localhost:4000/x".toList]) :=
  ⟨⟨⟨by decide, by decide⟩,
    ⟨500, "http://localhost:4000/x".toList, ⟨[], [], [], []⟩, [], rfl, by decide⟩⟩,
    crawlPage_failed_fetch _ initialState ("http://localhost:4000/x".toList)
      (by decide) (by decide)
      (Or.inr (Or.inr ⟨500, "http://localhost:4000/x".toList, ⟨[], [], [], []⟩, [],
        rfl, by decide⟩))⟩


/-! ### HTTP status recording (C1) -/

theorem processImage_status (p : Str) (fi : List Str) (st : CrawlState)
    (img : ExtractedImage) (k : Str) (pd : PageRecord)
    (h : mapGet? st.pages k = some pd) :
    ∃ pd', mapGet? (processImage p fi st img).pages k = some pd' ∧
      pd'.status = pd.status := by
  by_cases hk : k = p
  · rw [hk] at h ⊢
    obtain ⟨pd', h', hs, _, _⟩ := (processImage_pages p fi st img).2 pd h
    exact ⟨pd', h', hs⟩
  · refine ⟨pd, ?_, rfl⟩
    rw [(processImage_pages p fi st img).1 k hk]
    exact h

theorem classifyPage_status (b p : Str) (ext : Extraction) (fi : List Str)
    (st : CrawlState) (k : Str) (pd : PageRecord)
    (h : mapGet? st.pages k = some pd) :
    ∃ pd', mapGet? (classifyPage b p ext fi st).pages k = some pd' ∧
      pd'.status = pd.status := by
  have hlnk : ∀ (c : Category) (ls : List ExtractedLink) (s : CrawlState) (pd : PageRecord),
      mapGet? s.pages k = some pd →
      ∃ pd', mapGet? ((ls.foldl (processLink b p c) s)).pages k = some pd' ∧
        pd'.status = pd.status := by
    intro c ls
    induction ls with
    | nil => exact fun s pd h => ⟨pd, h, rfl⟩
    | cons x tl ih =>
      intro s pd h
      obtain ⟨pd₁, h₁, hs₁⟩ := processLink_status b p c s x k pd h
      obtain ⟨pd₂, h₂, hs₂⟩ := ih _ pd₁ h₁
      exact ⟨pd₂, h₂, hs₂.trans hs₁⟩
  have himg : ∀ (imgs : List ExtractedImage) (s : CrawlState) (pd : PageRecord),
      mapGet? s.pages k = some pd →
      ∃ pd', mapGet? ((imgs.foldl (processImage p fi) s)).pages k = some pd' ∧
        pd'.status = pd.status := by
    intro imgs
    induction imgs with
    | nil => exact fun s pd h => ⟨pd, h, rfl⟩
    | cons x tl ih =>
      intro s pd h
      obtain ⟨pd₁, h₁, hs₁⟩ := processImage_status p fi s x k pd h
      obtain ⟨pd₂, h₂, hs₂⟩ := ih _ pd₁ h₁
      exact ⟨pd₂, h₂, hs₂.trans hs₁⟩
  unfold classifyPage
  dsimp only
  obtain ⟨pd₁, h₁, hs₁⟩ := hlnk .header ext.headerLinks st pd h
  obtain ⟨pd₂, h₂, hs₂⟩ := hlnk .footer ext.footerLinks _ pd₁ h₁
  obtain ⟨pd₃, h₃, hs₃⟩ := hlnk .content ext.contentLinks _ pd₂ h₂
  obtain ⟨pd₄, h₄, hs₄⟩ := himg ext.images _ pd₃ h₃
  exact ⟨pd₄, h₄, ((hs₄.trans hs₃).trans hs₂).trans hs₁⟩

/-- C1 (amended): on a successful (status-200) fetch of `url`, `crawlPage`
gives the PageRecord `httpStatus = 200` only when `url` had no record before
the fetch; when a record already existed — because the page had been
referenced as a link target — the record keeps its previous `status` field
(absent for referenced-only records), so `httpStatus` is never set for it. -/
theorem httpStatus_set_only_on_fresh_record (env : Env) (st : CrawlState)
    (url finalUrl : Str) (ext : Extraction) (fi : List Str)
    (hnv : url ∉ st.visited) (hlt : st.visited.length < env.maxPages)
    (hfetch : env.fetch url = FetchOutcome.response 200 finalUrl ext fi) :
    (mapGet? st.pages url = none →
      ∃ pd', mapGet? (crawlPage env st url).pages url = some pd' ∧
        pd'.status = some 200) ∧
    (∀ pd, mapGet? st.pages url = some pd →
      ∃ pd', mapGet? (crawlPage env st url).pages url = some pd' ∧
        pd'.status = pd.status) := by
  have hguard : ¬ (url ∈ st.visited ∨ env.maxPages ≤ st.visited.length) := by
    push_neg
    exact ⟨hnv, by omega⟩
  unfold crawlPage
  rw [if_neg hguard, hfetch]
  dsimp only
  rw [if_neg (by simp)]
  constructor
  · intro hnone
    have hhas : mapHas st.pages url = false := by
      unfold mapHas
      rw [hnone]
      rfl
    split <;> split <;> rename_i hmh
    · exact absurd (by simpa using hmh) (by rw [hhas]; simp)
    · refine classifyPage_status _ _ _ _ _ url (emptyRecord (some 200)) ?_
      show mapGet? (st.pages ++ [(url, emptyRecord (some 200))]) url =
        some (emptyRecord (some 200))
      rw [mapGet?_append_new _ _ _ _ hnone, if_pos rfl]
    · exact absurd (by simpa using hmh) (by rw [hhas]; simp)
    · refine classifyPage_status _ _ _ _ _ url (emptyRecord (some 200)) ?_
      show mapGet? (st.pages ++ [(url, emptyRecord (some 200))]) url =
        some (emptyRecord (some 200))
      rw [mapGet?_append_new _ _ _ _ hnone, if_pos rfl]
  · intro pd hsome
    split <;> split <;> rename_i hmh
    · exact classifyPage_status _ _ _ _ _ url pd hsome
    · exact absurd (show mapHas st.pages url = true by unfold mapHas; rw [hsome]; rfl)
        (by simpa using hmh)
    · exact classifyPage_status _ _ _ _ _ url pd hsome
    · exact absurd (show mapHas st.pages url = true by unfold mapHas; rw [hsome]; rfl)
        (by simpa using hmh)

theorem crawlLoop_empty (env : Env) (st : CrawlState) (h : st.toVisit = []) :
    crawlLoop env st = st := by
  unfold crawlLoop
  split
  · rfl
  · rename_i url2 tail2 hq2
    rw [h] at hq2
    cases hq2

theorem crawlLoop_step (env : Env) (st : CrawlState) (url : Str) (rest : List Str)
    (hq : st.toVisit = url :: rest) (hv : st.visited.length < env.maxPages) :
    crawlLoop env st =
      crawlLoop env (crawlPage env { st with toVisit := setDelete st.toVisit url } url) := by
  conv_lhs => rw [crawlLoop]
  split
  · rename_i hq2
    rw [hq] at hq2
    cases hq2
  · rename_i url2 tail2 hq2
    rw [hq] at hq2
    obtain ⟨rfl, rfl⟩ : url2 = url ∧ tail2 = rest := by
      cases hq2
      exact ⟨rfl, rfl⟩
    rw [dif_pos hv]


/-- Concrete URLs for the counterexample runs. -/
def aUrl : Str := "http://localhost:4000/a".toList

/-- Concrete URLs for the counterexample runs. -/
def bUrl : Str := "http://localhost:4000/b".toList

/-- The fetch collaborator of the C1 counterexample run: `/a` links to `/b`
in its content, `/b` has no links, both respond 200. -/
def fetchC1 : Str → FetchOutcome := fun u =>
  if u = aUrl then
    FetchOutcome.response 200 aUrl ⟨[], [], [⟨"/b".toList, []⟩], []⟩ []
  else if u = bUrl then
    FetchOutcome.response 200 bUrl ⟨[], [], [], []⟩ []
  else FetchOutcome.noResponse

/-- The C1 counterexample environment. -/
def envC1 : Env := ⟨"http://localhost:4000".toList, 10, fetchC1⟩

/-- The seeded state of the C1 run (sitemap = `[/a]`). -/
def sC1seed : CrawlState := seededState envC1 (some [aUrl])

/-- The state after the run's first iteration (fetch of `/a`). -/
def sC1a : CrawlState :=
  crawlPage envC1 { sC1seed with toVisit := setDelete sC1seed.toVisit aUrl } aUrl

/-- The state after the run's second iteration (fetch of `/b`). -/
def sC1b : CrawlState :=
  crawlPage envC1 { sC1a with toVisit := setDelete sC1a.toVisit bUrl } bUrl

/-- C1 (counterexample): in the run seeded with `/a`, crawling `/a` creates
the PageRecord of its link target `/b`; when `/b` itself is then fetched
with HTTP 200, the record already exists and `crawlPage` never sets its
`status` field — the run ends with `/b` fetched successfully yet its
PageRecord's `httpStatus` unset, contradicting the claim. -/
theorem httpStatus_counterexample :
    CrawlReach envC1 (some [aUrl]) sC1b ∧
      runCrawl envC1 (some [aUrl]) = sC1b ∧
      bUrl ∈ sC1b.fetchLog ∧
      envC1.fetch bUrl = FetchOutcome.response 200 bUrl ⟨[], [], [], []⟩ [] ∧
      (mapGet? sC1b.pages bUrl).map PageRecord.status = some none := by
  refine ⟨?_, ?_, by decide, by decide, by decide⟩
  · exact CrawlReach.step sC1a bUrl []
      (CrawlReach.step sC1seed aUrl [] CrawlReach.seed (by decide) (by decide))
      (by decide) (by decide)
  · show crawlLoop envC1 sC1seed = sC1b
    rw [crawlLoop_step envC1 sC1seed aUrl [] (by decide) (by decide)]
    show crawlLoop envC1 sC1a = sC1b
    rw [crawlLoop_step envC1 sC1a bUrl [] (by decide) (by decide)]
    show crawlLoop envC1 sC1b = sC1b
    exact crawlLoop_empty envC1 sC1b (by decide)

/-- C1 (witness): the amended theorem applied to the state of the C1 run in
which `/b` is about to be fetched and already has a PageRecord. -/
theorem httpStatus_amended_witness :
    (bUrl ∉ sC1a.visited ∧ sC1a.visited.length < envC1.maxPages ∧
      envC1.fetch bUrl = FetchOutcome.response 200 bUrl ⟨[], [], [], []⟩ []) ∧
    ((mapGet? sC1a.pages bUrl = none →
        ∃ pd', mapGet? (crawlPage envC1 sC1a bUrl).pages bUrl = some pd' ∧
          pd'.status = some 200) ∧
      (∀ pd, mapGet? sC1a.pages bUrl = some pd →
        ∃ pd', mapGet? (crawlPage envC1 sC1a bUrl).pages bUrl = some pd' ∧
          pd'.status = pd.status)) :=
  ⟨⟨by decide, by decide, by decide⟩,
    httpStatus_set_only_on_fresh_record envC1 sC1a bUrl bUrl ⟨[], [], [], []⟩ []
      (by decide) (by decide) (by decide)⟩


/-! ### Page-record existence (C2) -/

theorem mapHas_update {κ α : Type} [DecidableEq κ] (m : List (κ × α)) (k j : κ)
    (f : α → α) : mapHas (mapUpdate m k f) j = mapHas m j := by
  unfold mapHas
  rw [mapGet?_update]
  split
  · cases mapGet? m j <;> rfl
  · rfl

theorem mapHas_append_mono {κ α : Type} [DecidableEq κ] (m tl : List (κ × α))
    (j : κ) (h : mapHas m j = true) : mapHas (m ++ tl) j = true := by
  unfold mapHas at h ⊢
  cases hm : mapGet? m j with
  | none => rw [hm] at h; cases h
  | some v => rw [mapGet?_append_old _ _ _ _ hm]; rfl

theorem mapHas_append_self {κ α : Type} [DecidableEq κ] (m : List (κ × α))
    (k : κ) (v : α) : mapHas (m ++ [(k, v)]) k = true := by
  cases hm : mapGet? m k with
  | none =>
    unfold mapHas
    rw [mapGet?_append_new _ _ _ _ hm, if_pos rfl]
    rfl
  | some w =>
    unfold mapHas
    rw [mapGet?_append_old _ _ _ _ hm]
    rfl

/-- The store-existence invariant: every registered internal link target
and every successfully fetched URL has a PageRecord. -/
def StoreInv (st : CrawlState) : Prop :=
  ∀ u, u ∈ st.refLog ∨ u ∈ st.okLog → mapHas st.pages u = true

theorem storeInv_processLink (b p : Str) (c : Category) (st : CrawlState)
    (l : ExtractedLink) (h : StoreInv st) :
    StoreInv (processLink b p c st l) := by
  unfold processLink
  split
  · exact h
  · rename_i t hnorm
    split
    · dsimp only
      have hmain : ∀ u, u ∈ st.refLog ++ [t] ∨ u ∈ st.okLog →
          mapHas (mapUpdate (if mapHas (mapUpdate st.pages p
              (fun pd => pushOutgoing pd c t)) t then
              mapUpdate st.pages p (fun pd => pushOutgoing pd c t)
            else mapUpdate st.pages p (fun pd => pushOutgoing pd c t) ++
              [(t, emptyRecord none)]) t
            (fun pd => { pd with incomingLinks := pd.incomingLinks ++ [p] })) u = true := by
        intro u hu
        rw [mapHas_update]
        by_cases hut : u = t
        · subst hut
          split
          · rename_i hhas
            exact hhas
          · exact mapHas_append_self _ _ _
        · have hu2 : u ∈ st.refLog ∨ u ∈ st.okLog := by
            rcases hu with hu | hu
            · rcases List.mem_append.mp hu with hu | hu
              · exact Or.inl hu
              · simp only [List.mem_singleton] at hu
                exact absurd hu hut
            · exact Or.inr hu
          have hbase : mapHas (mapUpdate st.pages p
              (fun pd => pushOutgoing pd c t)) u = true := by
            rw [mapHas_update]
            exact h u hu2
          split
          · exact hbase
          · exact mapHas_append_mono _ _ _ hbase
      split
      · exact hmain
      · exact hmain
    · split
      · exact h
      · exact h

theorem storeInv_processImage (p : Str) (fi : List Str) (st : CrawlState)
    (img : ExtractedImage) (h : StoreInv st) :
    StoreInv (processImage p fi st img) := by
  unfold processImage
  split
  · exact h
  · dsimp only
    split
    · split
      · intro u hu
        rw [mapHas_update]
        exact h u hu
      · intro u hu
        rw [mapHas_update]
        exact h u hu
    · intro u hu
      rw [mapHas_update]
      exact h u hu

theorem storeInv_classifyPage (b p : Str) (ext : Extraction) (fi : List Str)
    (st : CrawlState) (h : StoreInv st) :
    StoreInv (classifyPage b p ext fi st) := by
  unfold classifyPage
  dsimp only
  have hlnk : ∀ (c : Category) (ls : List ExtractedLink) (s : CrawlState),
      StoreInv s → StoreInv (ls.foldl (processLink b p c) s) := by
    intro c ls
    induction ls with
    | nil => exact fun s hs => hs
    | cons x tl ih => exact fun s hs => ih _ (storeInv_processLink b p c s x hs)
  have himg : ∀ (imgs : List ExtractedImage) (s : CrawlState),
      StoreInv s → StoreInv (imgs.foldl (processImage p fi) s) := by
    intro imgs
    induction imgs with
    | nil => exact fun s hs => hs
    | cons x tl ih => exact fun s hs => ih _ (storeInv_processImage p fi s x hs)
  exact himg _ _ (hlnk _ _ _ (hlnk _ _ _ (hlnk _ _ _ h)))

theorem storeInv_crawlPage (env : Env) (st : CrawlState) (url : Str)
    (h : StoreInv st) : StoreInv (crawlPage env st url) := by
  unfold crawlPage
  split
  · exact h
  · dsimp only
    split
    · exact h
    · exact h
    · split
      · exact h
      · apply storeInv_classifyPage
        split <;> split <;> rename_i hsp hmh <;>
          (intro u hu
           replace hu : u ∈ st.refLog ∨ u ∈ st.okLog ++ [url] := hu
           rcases hu with hu | hu
           · first
             | exact h u (Or.inl hu)
             | exact mapHas_append_mono _ _ _ (h u (Or.inl hu))
           · rcases List.mem_append.mp hu with hu | hu
             · first
               | exact h u (Or.inr hu)
               | exact mapHas_append_mono _ _ _ (h u (Or.inr hu))
             · simp only [List.mem_singleton] at hu
               subst hu
               first
                 | simpa using hmh
                 | exact mapHas_append_self _ _ _)

theorem storeInv_reach (env : Env) (sm : Option (List Str)) (st : CrawlState)
    (h : CrawlReach env sm st) : StoreInv st := by
  induction h with
  | seed =>
    intro u hu
    unfold seededState at hu
    rw [seededState_foldl] at hu
    rcases hu with hu | hu <;> simp [initialState] at hu
  | step s url rest _ hq _ ih =>
    apply storeInv_crawlPage
    intro u hu
    exact ih u hu

/-- C2 (amended): at every state of a crawl run, a PageRecord exists in the
graph store for every URL registered as an internal link target and for
every URL successfully fetched with status 200.  (A fetched page whose
fetch *failed* gets no record — see the counterexample.) -/
theorem pageRecord_exists_amended (env : Env) (sm : Option (List Str))
    (st : CrawlState) (h : CrawlReach env sm st) :
    ∀ u, u ∈ st.refLog ∨ u ∈ st.okLog → mapHas st.pages u = true :=
  storeInv_reach env sm st h

/-- The seeded state of the C2 counterexample run (sitemap = `[/b]`,
every fetch fails with a null response). -/
def sC2seed : CrawlState := seededState envW (some [bUrl])

/-- The state after the C2 run's single iteration: the failed fetch of `/b`. -/
def sC2 : CrawlState :=
  crawlPage envW { sC2seed with toVisit := setDelete sC2seed.toVisit bUrl } bUrl

/-- C2 (counterexample): in the run seeded with the sitemap entry `/b`,
whose fetch fails (null response), the run ends with `/b` fetched (it is in
the dispatch log) and never referenced as a link target, yet the graph
store contains no PageRecord for `/b` — the claimed invariant fails for
fetched-but-failed pages. -/
theorem pageRecord_exists_counterexample :
    CrawlReach envW (some [bUrl]) sC2 ∧
      runCrawl envW (some [bUrl]) = sC2 ∧
      bUrl ∈ sC2.fetchLog ∧
      sC2.refLog = [] ∧
      mapGet? sC2.pages bUrl = none := by
  refine ⟨?_, ?_, by decide, by decide, by decide⟩
  · exact CrawlReach.step sC2seed bUrl [] CrawlReach.seed (by decide) (by decide)
  · show crawlLoop envW sC2seed = sC2
    rw [crawlLoop_step envW sC2seed bUrl [] (by decide) (by decide)]
    show crawlLoop envW sC2 = sC2
    exact crawlLoop_empty envW sC2 (by decide)

/-- C2 (witness): the amended theorem applied to the final state of the C1
run, where `/b` is a registered link target and has a record. -/
theorem pageRecord_exists_witness :
    (CrawlReach envC1 (some [aUrl]) sC1b ∧
      (bUrl ∈ sC1b.refLog ∨ bUrl ∈ sC1b.okLog)) ∧
      mapHas sC1b.pages bUrl = true :=
  have hreach : CrawlReach envC1 (some [aUrl]) sC1b :=
    CrawlReach.step sC1a bUrl []
      (CrawlReach.step sC1seed aUrl [] CrawlReach.seed (by decide) (by decide))
      (by decide) (by decide)
  ⟨⟨hreach, Or.inl (by decide)⟩,
    pageRecord_exists_amended envC1 (some [aUrl]) sC1b hreach bUrl (Or.inl (by decide))⟩


/-! ### Broken-image bookkeeping (C3) -/

theorem mapGet?_append_single_ne {κ α : Type} [DecidableEq κ]
    (m : List (κ × α)) (k j : κ) (v : α) (h : j ≠ k) :
    mapGet? (m ++ [(k, v)]) j = mapGet? m j := by
  cases hm : mapGet? m j with
  | none => rw [mapGet?_append_new _ _ _ _ hm, if_neg h]
  | some w => rw [mapGet?_append_old _ _ _ _ hm]

/-- The failed-image reports of image `i` in the ghost log. -/
def biOcc (log : List (Str × Str × Str)) (i : Str) : List (Str × Str × Str) :=
  log.filter (fun e => e.1 = i)

/-- The broken-image invariant: the registry entry of an image is exactly
the list of pages of its reports, in report order, with the alt text of the
first report. -/
def BrokenImgInv (st : CrawlState) : Prop :=
  ∀ i, (biOcc st.biLog i = [] → mapGet? st.brokenImages i = none) ∧
    (∀ e rest, biOcc st.biLog i = e :: rest →
      mapGet? st.brokenImages i =
        some ⟨(biOcc st.biLog i).map (fun x => x.2.1), e.2.2⟩)

theorem biOcc_append (log : List (Str × Str × Str)) (x : Str × Str × Str)
    (i : Str) :
    biOcc (log ++ [x]) i = biOcc log i ++ (if x.1 = i then [x] else []) := by
  unfold biOcc
  rw [List.filter_append]
  congr 1
  split <;> rename_i hx <;> simp [List.filter, hx]

theorem brokenImgInv_processLink (b p : Str) (c : Category) (st : CrawlState)
    (l : ExtractedLink) (h : BrokenImgInv st) :
    BrokenImgInv (processLink b p c st l) := by
  have hf := processLink_frame b p c st l
  intro i
  rw [hf.2.2.2.2.2.2.2, hf.2.2.2.2.2.1]
  exact h i

theorem brokenImgInv_processImage (p : Str) (fi : List Str) (st : CrawlState)
    (img : ExtractedImage) (h : BrokenImgInv st) :
    BrokenImgInv (processImage p fi st img) := by
  unfold processImage
  split
  · exact h
  · rename_i iu hnorm
    dsimp only
    split
    · rename_i hfail
      split
      · rename_i hhas
        intro i
        dsimp only
        by_cases hi : i = iu
        · subst hi
          rw [biOcc_append]
          simp only [if_pos rfl]
          constructor
          · intro hemp
            exact absurd hemp (by simp)
          · intro e rest hocc
            cases hocce : biOcc st.biLog i with
            | nil =>
              exfalso
              have hnone := (h i).1 hocce
              unfold mapHas at hhas
              rw [hnone] at hhas
              simp at hhas
            | cons e₀ rest₀ =>
              have hprev := (h i).2 e₀ rest₀ hocce
              rw [hocce] at hocc
              simp only [List.cons_append] at hocc
              obtain rfl : e₀ = e := (List.cons.injEq _ _ _ _).mp hocc |>.1
              rw [mapGet?_update_self, hprev]
              simp [hocce]
        · rw [biOcc_append]
          simp only [if_neg (Ne.symm hi), List.append_nil]
          rw [mapGet?_update_ne _ _ _ _ hi]
          exact h i
      · rename_i hhas
        intro i
        dsimp only
        by_cases hi : i = iu
        · subst hi
          rw [biOcc_append]
          simp only [if_pos rfl]
          constructor
          · intro hemp
            exact absurd hemp (by simp)
          · intro e rest hocc
            cases hocce : biOcc st.biLog i with
            | nil =>
              rw [hocce] at hocc
              simp only [List.nil_append] at hocc
              obtain ⟨rfl, rfl⟩ : (i, p, img.alt) = e ∧ rest = [] := by
                cases hocc
                exact ⟨rfl, rfl⟩
              have hnone := (h i).1 hocce
              rw [mapGet?_append_new _ _ _ _ hnone, if_pos rfl]
              simp [hocce]
            | cons e₀ rest₀ =>
              exfalso
              have hprev := (h i).2 e₀ rest₀ hocce
              unfold mapHas at hhas
              rw [hprev] at hhas
              simp at hhas
        · rw [biOcc_append]
          simp only [if_neg (Ne.symm hi), List.append_nil]
          rw [mapGet?_append_single_ne _ _ _ _ hi]
          exact h i
    · intro i
      dsimp only
      exact h i

theorem brokenImgInv_classifyPage (b p : Str) (ext : Extraction) (fi : List Str)
    (st : CrawlState) (h : BrokenImgInv st) :
    BrokenImgInv (classifyPage b p ext fi st) := by
  unfold classifyPage
  dsimp only
  have hlnk : ∀ (c : Category) (ls : List ExtractedLink) (s : CrawlState),
      BrokenImgInv s → BrokenImgInv (ls.foldl (processLink b p c) s) := by
    intro c ls
    induction ls with
    | nil => exact fun s hs => hs
    | cons x tl ih => exact fun s hs => ih _ (brokenImgInv_processLink b p c s x hs)
  have himg : ∀ (imgs : List ExtractedImage) (s : CrawlState),
      BrokenImgInv s → BrokenImgInv (imgs.foldl (processImage p fi) s) := by
    intro imgs
    induction imgs with
    | nil => exact fun s hs => hs
    | cons x tl ih => exact fun s hs => ih _ (brokenImgInv_processImage p fi s x hs)
  exact himg _ _ (hlnk _ _ _ (hlnk _ _ _ (hlnk _ _ _ h)))

theorem brokenImgInv_crawlPage (env : Env) (st : CrawlState) (url : Str)
    (h : BrokenImgInv st) : BrokenImgInv (crawlPage env st url) := by
  unfold crawlPage
  split
  · exact h
  · dsimp only
    split
    · exact fun i => h i
    · exact fun i => h i
    · split
      · exact fun i => h i
      · apply brokenImgInv_classifyPage
        split <;> split <;> exact fun i => h i

theorem brokenImgInv_reach (env : Env) (sm : Option (List Str)) (st : CrawlState)
    (h : CrawlReach env sm st) : BrokenImgInv st := by
  induction h with
  | seed =>
    intro i
    unfold seededState
    rw [seededState_foldl]
    exact ⟨fun _ => rfl, fun e rest hocc => by simp [initialState, biOcc] at hocc⟩
  | step s url rest _ hq _ ih =>
    apply brokenImgInv_crawlPage
    exact fun i => ih i

/-- C3 (amended): at every state of a crawl run, the broken-image registry
entry of an image URL exists iff the image has at least one failed-load
report, its `pages` list has exactly one entry per report — the reporting
page, in report order, with a page repeated if it reported the same failed
image several times (no deduplication by page) — and its `alt` is the alt
text of the first report. -/
theorem brokenImage_entries_amended (env : Env) (sm : Option (List Str))
    (st : CrawlState) (h : CrawlReach env sm st) :
    ∀ i, (biOcc st.biLog i = [] → mapGet? st.brokenImages i = none) ∧
      (∀ e rest, biOcc st.biLog i = e :: rest →
        mapGet? st.brokenImages i =
          some ⟨(biOcc st.biLog i).map (fun x => x.2.1), e.2.2⟩) :=
  brokenImgInv_reach env sm st h


/-- The failed image URL of the C3 counterexample run. -/
def iUrl : Str := "http://localhost:4000/i.png".toList

/-- The fetch collaborator of the C3 run: `/a` embeds the same image
`/i.png` twice (with distinct alt texts) and the image fails to load. -/
def fetchC3 : Str → FetchOutcome := fun u =>
  if u = aUrl then
    FetchOutcome.response 200 aUrl
      ⟨[], [], [],
        [⟨"/i.png".toList, "ALT1".toList⟩, ⟨"/i.png".toList, "ALT2".toList⟩]⟩
      [iUrl]
  else FetchOutcome.noResponse

/-- The C3 counterexample environment. -/
def envC3 : Env := ⟨"http://localhost:4000".toList, 10, fetchC3⟩

/-- The seeded state of the C3 run (sitemap = `[/a]`). -/
def sC3seed : CrawlState := seededState envC3 (some [aUrl])

/-- The state after the C3 run's single iteration (fetch of `/a`). -/
def sC3 : CrawlState :=
  crawlPage envC3 { sC3seed with toVisit := setDelete sC3seed.toVisit aUrl } aUrl

/-- C3 (counterexample): a page that embeds the same failed image twice is
recorded twice in the image's `pages` list — the registry keeps one entry
per failed-load report, not one per distinct affected page, so the list is
not duplicate-free. -/
theorem brokenImage_counterexample :
    CrawlReach envC3 (some [aUrl]) sC3 ∧
      runCrawl envC3 (some [aUrl]) = sC3 ∧
      ∃ e, mapGet? sC3.brokenImages iUrl = some e ∧
        e.pages = [aUrl, aUrl] ∧ e.alt = "ALT1".toList ∧ ¬ e.pages.Nodup := by
  refine ⟨?_, ?_, ?_⟩
  · exact CrawlReach.step sC3seed aUrl [] CrawlReach.seed (by decide) (by decide)
  · show crawlLoop envC3 sC3seed = sC3
    rw [crawlLoop_step envC3 sC3seed aUrl [] (by decide) (by decide)]
    show crawlLoop envC3 sC3 = sC3
    exact crawlLoop_empty envC3 sC3 (by decide)
  · exact ⟨⟨[aUrl, aUrl], "ALT1".toList⟩, by decide, by decide, by decide, by decide⟩

/-- C3 (witness): the amended theorem applied to the final state of the C3
run, at the image with two failed-load reports. -/
theorem brokenImage_amended_witness :
    CrawlReach envC3 (some [aUrl]) sC3 ∧
      mapGet? sC3.brokenImages iUrl =
        some ⟨(biOcc sC3.biLog iUrl).map (fun x => x.2.1),
          ((iUrl, aUrl, ("ALT1".toList : Str)) : Str × Str × Str).2.2⟩ :=
  have hreach : CrawlReach envC3 (some [aUrl]) sC3 :=
    CrawlReach.step sC3seed aUrl [] CrawlReach.seed (by decide) (by decide)
  ⟨hreach,
    (brokenImage_entries_amended envC3 (some [aUrl]) sC3 hreach iUrl).2
      (iUrl, aUrl, "ALT1".toList) [(iUrl, aUrl, "ALT2".toList)] (by decide)⟩


/-! ### Post-crawl link validation (C7) -/

/-- Outcome of `page.request.head(link)`: a response status, or a thrown
error (timeout, network failure). -/
inductive ProbeOutcome where
  | status (code : Nat)
  | err (message : Str)
deriving DecidableEq, Repr

/-- The 404-classification of a probe outcome. -/
def is404 (o : ProbeOutcome) : Bool :=
  match o with
  | ProbeOutcome.status code => code = 404
  | ProbeOutcome.err _ => false

/-- `l ∈` one of the three outgoing-link buckets of a page record. -/
def inBuckets (l : Str) (pd : PageRecord) : Prop :=
  l ∈ pd.outgoingLinks.header ∨ l ∈ pd.outgoingLinks.footer ∨
    l ∈ pd.outgoingLinks.content

/-- The `allLinks.add` folds of `validateLinks` for one page entry. -/
def bucketFold (acc : List Str) (e : Str × PageRecord) : List Str :=
  e.2.outgoingLinks.content.foldl setAdd
    (e.2.outgoingLinks.footer.foldl setAdd
      (e.2.outgoingLinks.header.foldl setAdd acc))

/-- The `allLinks` set of `validateLinks`: every link of every bucket of
every crawled page record, deduplicated in insertion order. -/
def allOutgoing (pages : List (Str × PageRecord)) : List Str :=
  pages.foldl bucketFold []

/-- One iteration of the checking loop of `validateLinks`: skip visited
links, otherwise probe (recorded in the ghost log) and push a BrokenLink
on a 404 response. -/
def checkLink (probe : Str → ProbeOutcome) (acc : CrawlState × List Str)
    (link : Str) : CrawlState × List Str :=
  let st := acc.1
  if link ∈ st.visited then acc
  else
    let log := acc.2 ++ [link]
    match probe link with
    | ProbeOutcome.status code =>
        if code = 404 then
          ({ st with brokenLinks :=
              st.brokenLinks ++ [⟨link, referrersOf st link, 404⟩] }, log)
        else (st, log)
    | ProbeOutcome.err _ => (st, log)

/-- Model of `validateLinks(browser)`: collect every bucket link of every
page, probe the unvisited ones, record 404s.  The second component is the
ghost log of dispatched probes. -/
def validateLinks (probe : Str → ProbeOutcome) (st : CrawlState) :
    CrawlState × List Str :=
  (allOutgoing st.pages).foldl (checkLink probe) (st, [])

theorem mem_foldl_setAdd (xs : List Str) (acc : List Str) (y : Str) :
    y ∈ xs.foldl setAdd acc ↔ y ∈ acc ∨ y ∈ xs := by
  induction xs generalizing acc with
  | nil => simp
  | cons x tl ih =>
    rw [List.foldl_cons, ih, setAdd_mem]
    simp [or_assoc]

theorem mem_bucketFold (acc : List Str) (e : Str × PageRecord) (y : Str) :
    y ∈ bucketFold acc e ↔ y ∈ acc ∨ inBuckets y e.2 := by
  unfold bucketFold inBuckets
  rw [mem_foldl_setAdd, mem_foldl_setAdd, mem_foldl_setAdd]
  simp [or_assoc]

theorem mem_allOutgoing_aux (pages : List (Str × PageRecord)) (acc : List Str)
    (y : Str) (h : y ∈ pages.foldl bucketFold acc) :
    y ∈ acc ∨ ∃ e ∈ pages, inBuckets y e.2 := by
  induction pages generalizing acc with
  | nil => exact Or.inl h
  | cons e tl ih =>
    rw [List.foldl_cons] at h
    rcases ih _ h with h1 | ⟨e₀, he₀, hb⟩
    · rcases (mem_bucketFold acc e y).mp h1 with h2 | h2
      · exact Or.inl h2
      · exact Or.inr ⟨e, List.mem_cons_self e tl, h2⟩
    · exact Or.inr ⟨e₀, List.mem_cons_of_mem e he₀, hb⟩

theorem mem_allOutgoing (pages : List (Str × PageRecord)) (y : Str)
    (h : y ∈ allOutgoing pages) : ∃ e ∈ pages, inBuckets y e.2 := by
  rcases mem_allOutgoing_aux pages [] y h with h1 | h1
  · cases h1
  · exact h1

/-- Every link in every bucket of every page record is internal: the push
at classification time is guarded by `isInternalUrl`. -/
def BucketsInternal (b : Str) (st : CrawlState) : Prop :=
  ∀ e ∈ st.pages, ∀ l, inBuckets l e.2 → isInternalUrl l b = true

theorem inBuckets_pushOutgoing (l : Str) (pd : PageRecord) (c : Category)
    (n : Str) (h : inBuckets l (pushOutgoing pd c n)) :
    inBuckets l pd ∨ l = n := by
  cases c <;>
    (simp only [pushOutgoing, inBuckets, List.mem_append, List.mem_singleton] at h ⊢
     tauto)

theorem inBuckets_emptyRecord (l : Str) (s : Option Nat) :
    ¬ inBuckets l (emptyRecord s) := by
  unfold inBuckets emptyRecord
  simp

theorem bucketsInternal_processLink (b p : Str) (c : Category) (st : CrawlState)
    (lk : ExtractedLink) (h : BucketsInternal b st) :
    BucketsInternal b (processLink b p c st lk) := by
  unfold processLink
  split
  · exact h
  · rename_i normalized hnorm
    dsimp only
    split
    · rename_i hint
      have key : ∀ e ∈ mapUpdate
          (if mapHas (mapUpdate st.pages p (fun pd => pushOutgoing pd c normalized))
              normalized = true
           then mapUpdate st.pages p (fun pd => pushOutgoing pd c normalized)
           else mapUpdate st.pages p (fun pd => pushOutgoing pd c normalized) ++
             [(normalized, emptyRecord none)])
          normalized (fun pd => { pd with incomingLinks := pd.incomingLinks ++ [p] }),
          ∀ x, inBuckets x e.2 → isInternalUrl x b = true := by
        intro e he x hx
        obtain ⟨e₂, he₂, hor⟩ := mem_mapUpdate he
        have hx₂ : inBuckets x e₂.2 := by
          rcases hor with rfl | rfl
          · exact hx
          · exact hx
        have he₂' : e₂ ∈ mapUpdate st.pages p (fun pd => pushOutgoing pd c normalized) ∨
            e₂ = (normalized, emptyRecord none) := by
          split at he₂
          · exact Or.inl he₂
          · rcases List.mem_append.mp he₂ with hh | hh
            · exact Or.inl hh
            · exact Or.inr (by simpa using hh)
        rcases he₂' with he₂' | rfl
        · obtain ⟨e₀, he₀, hor₀⟩ := mem_mapUpdate he₂'
          rcases hor₀ with heq | heq
          · exact h e₀ he₀ x (heq ▸ hx₂)
          · rw [heq] at hx₂
            rcases inBuckets_pushOutgoing x e₀.2 c normalized hx₂ with hb | heq2
            · exact h e₀ he₀ x hb
            · rw [heq2]
              exact hint
        · exact absurd hx₂ (inBuckets_emptyRecord x none)
      split
      · exact fun e he x hx => key e he x hx
      · exact fun e he x hx => key e he x hx
    · split
      · exact h
      · exact fun e he x hx => h e he x hx

theorem bucketsInternal_processImage (b p : Str) (fi : List Str)
    (st : CrawlState) (img : ExtractedImage) (h : BucketsInternal b st) :
    BucketsInternal b (processImage p fi st img) := by
  unfold processImage
  split
  · exact h
  · rename_i iu hnorm
    dsimp only
    have key : ∀ e ∈ mapUpdate st.pages p
        (fun pd => { pd with images := pd.images ++ [iu] }),
        ∀ x, inBuckets x e.2 → isInternalUrl x b = true := by
      intro e he x hx
      obtain ⟨e₀, he₀, hor⟩ := mem_mapUpdate he
      have hx₀ : inBuckets x e₀.2 := by
        rcases hor with rfl | rfl
        · exact hx
        · exact hx
      exact h e₀ he₀ x hx₀
    split
    · split
      · exact fun e he x hx => key e he x hx
      · exact fun e he x hx => key e he x hx
    · exact fun e he x hx => key e he x hx

theorem bucketsInternal_classifyPage (b p : Str) (ext : Extraction)
    (fi : List Str) (st : CrawlState) (h : BucketsInternal b st) :
    BucketsInternal b (classifyPage b p ext fi st) := by
  unfold classifyPage
  dsimp only
  have hlnk : ∀ (c : Category) (ls : List ExtractedLink) (s : CrawlState),
      BucketsInternal b s → BucketsInternal b (ls.foldl (processLink b p c) s) := by
    intro c ls
    induction ls with
    | nil => exact fun s hs => hs
    | cons x tl ih => exact fun s hs => ih _ (bucketsInternal_processLink b p c s x hs)
  have himg : ∀ (imgs : List ExtractedImage) (s : CrawlState),
      BucketsInternal b s → BucketsInternal b (imgs.foldl (processImage p fi) s) := by
    intro imgs
    induction imgs with
    | nil => exact fun s hs => hs
    | cons x tl ih => exact fun s hs => ih _ (bucketsInternal_processImage b p fi s x hs)
  exact himg _ _ (hlnk _ _ _ (hlnk _ _ _ (hlnk _ _ _ h)))

theorem bucketsInternal_crawlPage (env : Env) (st : CrawlState) (url : Str)
    (h : BucketsInternal env.baseUrl st) :
    BucketsInternal env.baseUrl (crawlPage env st url) := by
  unfold crawlPage
  split
  · exact h
  · dsimp only
    split
    · exact fun e he x hx => h e he x hx
    · exact fun e he x hx => h e he x hx
    · split
      · exact fun e he x hx => h e he x hx
      · apply bucketsInternal_classifyPage
        split <;> split <;> rename_i hsp hmh <;>
          (intro e he x hx
           first
           | exact h e he x hx
           | (rcases List.mem_append.mp he with he' | he'
              · exact h e he' x hx
              · simp only [List.mem_singleton] at he'
                subst he'
                exact absurd hx (inBuckets_emptyRecord x _)))

theorem bucketsInternal_reach (env : Env) (sm : Option (List Str))
    (st : CrawlState) (h : CrawlReach env sm st) :
    BucketsInternal env.baseUrl st := by
  induction h with
  | seed =>
    intro e he x hx
    unfold seededState at he
    rw [seededState_foldl] at he
    simp [initialState] at he
  | step s url rest _ hq _ ih =>
    apply bucketsInternal_crawlPage
    exact fun e he x hx => ih e he x hx

theorem checkLink_foldl (probe : Str → ProbeOutcome) (links : List Str)
    (st : CrawlState) :
    ∀ (s₀ : CrawlState) (log₀ : List Str),
      s₀.pages = st.pages → s₀.visited = st.visited →
      (links.foldl (checkLink probe) (s₀, log₀)).1.pages = st.pages ∧
      (links.foldl (checkLink probe) (s₀, log₀)).1.visited = st.visited ∧
      (links.foldl (checkLink probe) (s₀, log₀)).2 =
        log₀ ++ links.filter (fun l => decide (l ∉ st.visited)) ∧
      (links.foldl (checkLink probe) (s₀, log₀)).1.brokenLinks =
        s₀.brokenLinks ++
          ((links.filter (fun l => decide (l ∉ st.visited))).filter
            (fun l => is404 (probe l))).map
            (fun l => ⟨l, referrersOf st l, 404⟩) := by
  induction links with
  | nil =>
    intro s₀ log₀ hp hv
    exact ⟨hp, hv, by simp, by simp⟩
  | cons x xs ih =>
    intro s₀ log₀ hp hv
    by_cases hxv : x ∈ st.visited
    · have hstep : checkLink probe (s₀, log₀) x = (s₀, log₀) := by
        unfold checkLink
        dsimp only
        rw [hv, if_pos hxv]
      have hfc : (x :: xs).filter (fun l => decide (l ∉ st.visited)) =
          xs.filter (fun l => decide (l ∉ st.visited)) := by
        simp [List.filter_cons, hxv]
      rw [List.foldl_cons, hstep, hfc]
      exact ih s₀ log₀ hp hv
    · have hxv' : x ∉ s₀.visited := by rw [hv]; exact hxv
      have hfc : (x :: xs).filter (fun l => decide (l ∉ st.visited)) =
          x :: xs.filter (fun l => decide (l ∉ st.visited)) := by
        simp [List.filter_cons, hxv]
      rw [List.foldl_cons, hfc]
      have href : referrersOf s₀ x = referrersOf st x := by
        unfold referrersOf
        rw [hp]
      cases hpr : probe x with
      | status code =>
        by_cases h404 : code = 404
        · subst h404
          have hstep : checkLink probe (s₀, log₀) x =
              ({ s₀ with brokenLinks :=
                  s₀.brokenLinks ++ [⟨x, referrersOf s₀ x, 404⟩] }, log₀ ++ [x]) := by
            unfold checkLink
            dsimp only
            rw [if_neg hxv', hpr]
            rfl
          rw [hstep]
          obtain ⟨ihp, ihv, ihlog, ihbl⟩ :=
            ih { s₀ with brokenLinks :=
                s₀.brokenLinks ++ [⟨x, referrersOf s₀ x, 404⟩] } (log₀ ++ [x]) hp hv
          refine ⟨ihp, ihv, ?_, ?_⟩
          · rw [ihlog, List.append_assoc]
            rfl
          · rw [ihbl]
            have h404f : (x :: xs.filter (fun l => decide (l ∉ st.visited))).filter
                (fun l => is404 (probe l)) =
                x :: (xs.filter (fun l => decide (l ∉ st.visited))).filter
                  (fun l => is404 (probe l)) := by
              simp [List.filter_cons, hpr, is404]
            rw [h404f, List.map_cons, href]
            dsimp only
            rw [List.append_assoc]
            rfl
        · have hstep : checkLink probe (s₀, log₀) x = (s₀, log₀ ++ [x]) := by
            unfold checkLink
            dsimp only
            rw [if_neg hxv', hpr]
            dsimp only
            rw [if_neg h404]
          rw [hstep]
          obtain ⟨ihp, ihv, ihlog, ihbl⟩ := ih s₀ (log₀ ++ [x]) hp hv
          refine ⟨ihp, ihv, ?_, ?_⟩
          · rw [ihlog, List.append_assoc]
            rfl
          · rw [ihbl]
            have h404f : (x :: xs.filter (fun l => decide (l ∉ st.visited))).filter
                (fun l => is404 (probe l)) =
                (xs.filter (fun l => decide (l ∉ st.visited))).filter
                  (fun l => is404 (probe l)) := by
              simp [List.filter_cons, hpr, is404, h404]
            rw [h404f]
      | err msg =>
        have hstep : checkLink probe (s₀, log₀) x = (s₀, log₀ ++ [x]) := by
          unfold checkLink
          dsimp only
          rw [if_neg hxv', hpr]
        rw [hstep]
        obtain ⟨ihp, ihv, ihlog, ihbl⟩ := ih s₀ (log₀ ++ [x]) hp hv
        refine ⟨ihp, ihv, ?_, ?_⟩
        · rw [ihlog, List.append_assoc]
          rfl
        · rw [ihbl]
          have h404f : (x :: xs.filter (fun l => decide (l ∉ st.visited))).filter
              (fun l => is404 (probe l)) =
              (xs.filter (fun l => decide (l ∉ st.visited))).filter
                (fun l => is404 (probe l)) := by
            simp [List.filter_cons, hpr, is404]
          rw [h404f]

/-- C7: at any reachable crawler state, the link-validation pass probes
exactly the bucket links not visited during the crawl (all of which are
internal — external links never enter a bucket and are never probed); its
only effect on the state is to append, for each probe answering 404,
exactly one BrokenLink carrying the probed URL, the target's current
incoming links as referrers (empty when the target has no record), and
status 404; probes answering any other status, or failing with an error,
produce nothing. -/
theorem validateLinks_spec (env : Env) (sm : Option (List Str))
    (st : CrawlState) (h : CrawlReach env sm st) (probe : Str → ProbeOutcome) :
    (validateLinks probe st).2 =
        (allOutgoing st.pages).filter (fun l => decide (l ∉ st.visited)) ∧
      (∀ l ∈ (validateLinks probe st).2, isInternalUrl l env.baseUrl = true) ∧
      (validateLinks probe st).1.brokenLinks = st.brokenLinks ++
        (((allOutgoing st.pages).filter (fun l => decide (l ∉ st.visited))).filter
          (fun l => is404 (probe l))).map (fun l => ⟨l, referrersOf st l, 404⟩) ∧
      (validateLinks probe st).1.pages = st.pages ∧
      (validateLinks probe st).1.visited = st.visited := by
  obtain ⟨hpg, hvis, hlog, hbl⟩ :=
    checkLink_foldl probe (allOutgoing st.pages) st st [] rfl rfl
  have hbi := bucketsInternal_reach env sm st h
  refine ⟨by simpa using hlog, ?_, hbl, hpg, hvis⟩
  intro l hl
  have hl2 : (validateLinks probe st).2 =
      (allOutgoing st.pages).filter (fun l => decide (l ∉ st.visited)) := by
    simpa using hlog
  have hl' : l ∈ (allOutgoing st.pages).filter
      (fun l => decide (l ∉ st.visited)) := hl2 ▸ hl
  have hmem : l ∈ allOutgoing st.pages := (List.mem_filter.mp hl').1
  obtain ⟨e, he, hb⟩ := mem_allOutgoing st.pages l hmem
  exact hbi e he l hb

/-- The all-404 probe collaborator of the C7 witness. -/
def probe404 : Str → ProbeOutcome := fun _ => ProbeOutcome.status 404

/-- C7 (witness): the validation theorem applied to the mid-crawl state of
the C1 run in which `/b` has been discovered but not yet visited: the pass
probes exactly `/b` (an internal link), and records exactly one BrokenLink
for it with referrers `[/a]` and status 404. -/
theorem validateLinks_witness :
    CrawlReach envC1 (some [aUrl]) sC1a ∧
      (validateLinks probe404 sC1a).2 = [bUrl] ∧
      (validateLinks probe404 sC1a).1.brokenLinks = [⟨bUrl, [aUrl], 404⟩] ∧
      (∀ l ∈ (validateLinks probe404 sC1a).2, isInternalUrl l envC1.baseUrl = true) :=
  have hr : CrawlReach envC1 (some [aUrl]) sC1a :=
    CrawlReach.step sC1seed aUrl [] CrawlReach.seed (by decide) (by decide)
  ⟨hr, by decide, by decide,
    (validateLinks_spec envC1 (some [aUrl]) sC1a hr probe404).2.1⟩


/-! ### Orphan detection (C9) -/

theorem mapGet?_mem {κ α : Type} [DecidableEq κ] (m : List (κ × α)) (k : κ)
    (v : α) (h : mapGet? m k = some v) : (k, v) ∈ m := by
  induction m with
  | nil => cases h
  | cons e rest ih =>
    obtain ⟨k₁, v₁⟩ := e
    by_cases hk : k₁ = k
    · simp only [mapGet?, if_pos hk] at h
      injection h with hv
      subst hk
      subst hv
      exact List.mem_cons_self _ _
    · simp only [mapGet?, if_neg hk] at h
      exact List.mem_cons_of_mem _ (ih h)

theorem mapGet?_of_mem_nodup {κ α : Type} [DecidableEq κ] (m : List (κ × α))
    (k : κ) (v : α) (hnd : (m.map Prod.fst).Nodup) (h : (k, v) ∈ m) :
    mapGet? m k = some v := by
  induction m with
  | nil => cases h
  | cons e rest ih =>
    obtain ⟨k₁, v₁⟩ := e
    rw [List.map_cons, List.nodup_cons] at hnd
    rcases List.mem_cons.mp h with heq | hmem
    · injection heq with h1 h2
      subst h1
      subst h2
      simp [mapGet?]
    · have hk : ¬ k₁ = k := by
        intro hkk
        apply hnd.1
        rw [hkk]
        exact List.mem_map.mpr ⟨(k, v), hmem, rfl⟩
      simp only [mapGet?, if_neg hk]
      exact ih hnd.2 hmem

/-- One iteration of the `analyzeIsolatedPages` loop: skip the two homepage
spellings, push `{url, outgoingLinks: total}` when the self-reference-free
incoming links are empty. -/
def isolatedFold (homepage : Option Str) (baseUrl : Str)
    (acc : List (Str × Nat)) (e : Str × PageRecord) : List (Str × Nat) :=
  if some e.1 = homepage ∨ e.1 = baseUrl then acc
  else if (e.2.incomingLinks.filter (fun l => decide (l ≠ e.1))).length = 0 then
    acc ++ [(e.1, e.2.outgoingLinks.header.length +
      e.2.outgoingLinks.footer.length + e.2.outgoingLinks.content.length)]
  else acc

/-- Model of `analyzeIsolatedPages()`: walk the graph store, skipping
`url === homepage || url === CONFIG.baseUrl`, and collect every page whose
incoming links excluding self-references are empty, with its total outgoing
link count. -/
def analyzeIsolatedPages (baseUrl : Str) (st : CrawlState) :
    List (Str × Nat) :=
  st.pages.foldl (isolatedFold (normalizeUrl "/".toList baseUrl) baseUrl) []

theorem mem_isolatedFold_of_mem (hp : Option Str) (b : Str)
    (acc : List (Str × Nat)) (e : Str × PageRecord) (x : Str × Nat)
    (h : x ∈ acc) : x ∈ isolatedFold hp b acc e := by
  unfold isolatedFold
  split
  · exact h
  · split
    · exact List.mem_append_left _ h
    · exact h

theorem isolatedFold_mem (hp : Option Str) (b : Str)
    (ps : List (Str × PageRecord)) (url : Str) (n : Nat) :
    ∀ acc, (url, n) ∈ ps.foldl (isolatedFold hp b) acc ↔
      (url, n) ∈ acc ∨ ∃ pd, (url, pd) ∈ ps ∧
        ¬ (some url = hp ∨ url = b) ∧
        pd.incomingLinks.filter (fun l => decide (l ≠ url)) = [] ∧
        n = pd.outgoingLinks.header.length + pd.outgoingLinks.footer.length +
          pd.outgoingLinks.content.length := by
  induction ps with
  | nil =>
    intro acc
    simp
  | cons e tl ih =>
    intro acc
    rw [List.foldl_cons, ih]
    constructor
    · rintro (hacc | ⟨pd, hpd, hc⟩)
      · unfold isolatedFold at hacc
        split at hacc
        · exact Or.inl hacc
        · rename_i hskip
          split at hacc
          · rename_i hlen
            rcases List.mem_append.mp hacc with h1 | h1
            · exact Or.inl h1
            · simp only [List.mem_singleton, Prod.mk.injEq] at h1
              obtain ⟨hu, hn⟩ := h1
              refine Or.inr ⟨e.2, ?_, ?_, ?_, ?_⟩
              · rw [hu]
                exact List.mem_cons_self e tl
              · rw [hu]
                exact hskip
              · rw [hu]
                exact List.length_eq_zero.mp hlen
              · exact hn
          · exact Or.inl hacc
      · exact Or.inr ⟨pd, List.mem_cons_of_mem e hpd, hc⟩
    · rintro (hacc | ⟨pd, hpd, hskip, hfil, hn⟩)
      · exact Or.inl (mem_isolatedFold_of_mem hp b acc e _ hacc)
      · rcases List.mem_cons.mp hpd with heq | hmem
        · left
          obtain rfl : e = (url, pd) := heq.symm
          unfold isolatedFold
          rw [if_neg hskip, if_pos (by rw [hfil]; rfl)]
          refine List.mem_append_right _ ?_
          simp [hn]
        · exact Or.inr ⟨pd, hmem, hskip, hfil, hn⟩

/-- C9: for a graph store with duplicate-free keys, orphan detection
reports a stored page (other than the two homepage spellings — the
normalized home URL and the bare configured base URL, both of which denote
the home page and are always exempt) as isolated exactly when its incoming
links, excluding self-references, are empty; and neither homepage spelling
is ever reported, regardless of its incoming links. -/
theorem isolated_pages_spec (b : Str) (st : CrawlState)
    (hnd : (st.pages.map Prod.fst).Nodup) :
    (∀ url pd, mapGet? st.pages url = some pd →
      some url ≠ normalizeUrl "/".toList b → url ≠ b →
      ((∃ n, (url, n) ∈ analyzeIsolatedPages b st) ↔
        pd.incomingLinks.filter (fun l => decide (l ≠ url)) = [])) ∧
    (∀ url n, some url = normalizeUrl "/".toList b ∨ url = b →
      (url, n) ∉ analyzeIsolatedPages b st) := by
  constructor
  · intro url pd hget hh hb
    constructor
    · rintro ⟨n, hn⟩
      unfold analyzeIsolatedPages at hn
      rw [isolatedFold_mem] at hn
      rcases hn with h0 | ⟨pd', hpd', hskip, hfil, htot⟩
      · cases h0
      · have hg' : mapGet? st.pages url = some pd' :=
          mapGet?_of_mem_nodup _ _ _ hnd hpd'
        rw [hget] at hg'
        injection hg' with hpp
        rw [hpp]
        exact hfil
    · intro hfil
      refine ⟨pd.outgoingLinks.header.length + pd.outgoingLinks.footer.length +
        pd.outgoingLinks.content.length, ?_⟩
      unfold analyzeIsolatedPages
      rw [isolatedFold_mem]
      refine Or.inr ⟨pd, mapGet?_mem _ _ _ hget, ?_, hfil, rfl⟩
      rintro (h1 | h1)
      · exact hh h1
      · exact hb h1
  · intro url n hhome hmem
    unfold analyzeIsolatedPages at hmem
    rw [isolatedFold_mem] at hmem
    rcases hmem with h0 | ⟨pd, _, hskip, _, _⟩
    · cases h0
    · exact hskip hhome

/-- C9 (witness): the orphan-detection theorem applied to the final state of
the C1 run: `/a` (fetched from the sitemap, never linked to) is reported
isolated with its one outgoing link, and the configured base URL is never
reported. -/
theorem isolated_pages_witness :
    ((sC1b.pages.map Prod.fst).Nodup ∧
      analyzeIsolatedPages envC1.baseUrl sC1b = [(aUrl, 1)]) ∧
    ((∃ n, (aUrl, n) ∈ analyzeIsolatedPages envC1.baseUrl sC1b) ↔
      (PageRecord.incomingLinks ⟨⟨[], [], [bUrl]⟩, [], [], some 200⟩).filter
        (fun l => decide (l ≠ aUrl)) = []) ∧
    (∀ n, (envC1.baseUrl, n) ∉ analyzeIsolatedPages envC1.baseUrl sC1b) := by
  refine ⟨⟨by decide, by decide⟩, ?_, ?_⟩
  · exact (isolated_pages_spec envC1.baseUrl sC1b (by decide)).1 aUrl
      ⟨⟨[], [], [bUrl]⟩, [], [], some 200⟩ (by decide) (by decide) (by decide)
  · exact fun n =>
      (isolated_pages_spec envC1.baseUrl sC1b (by decide)).2 envC1.baseUrl n
        (Or.inr rfl)


/-! ### The classification frame (C10) -/

/-- The normalized internal targets of an extracted-link list of page `p`:
exactly the URLs whose incomingLinks the classification loop touches. -/
def internalTargets (baseUrl pageUrl : Str) (links : List ExtractedLink) :
    List Str :=
  links.filterMap (fun l =>
    match normalizeUrl l.href pageUrl with
    | none => none
    | some n => if isInternalUrl n baseUrl then some n else none)

theorem mem_internalTargets (b p : Str) (links : List ExtractedLink)
    (l : ExtractedLink) (hl : l ∈ links) (n : Str)
    (hn : normalizeUrl l.href p = some n) (hint : isInternalUrl n b = true) :
    n ∈ internalTargets b p links := by
  unfold internalTargets
  refine List.mem_filterMap.mpr ⟨l, hl, ?_⟩
  rw [hn]
  simp [hint]

theorem internalTargets_cons_subset (b p : Str) (l : ExtractedLink)
    (tl : List ExtractedLink) (n : Str) (h : n ∈ internalTargets b p tl) :
    n ∈ internalTargets b p (l :: tl) := by
  unfold internalTargets at h ⊢
  obtain ⟨a, ha, hfa⟩ := List.mem_filterMap.mp h
  exact List.mem_filterMap.mpr ⟨a, List.mem_cons_of_mem l ha, hfa⟩

theorem incomingLinks_pushOutgoing (pd : PageRecord) (c : Category) (n : Str) :
    (pushOutgoing pd c n).incomingLinks = pd.incomingLinks := by
  cases c <;> rfl

theorem processLink_pages_other (b p : Str) (c : Category) (st : CrawlState)
    (l : ExtractedLink) (q : Str) (hqp : q ≠ p)
    (hqt : ∀ n, normalizeUrl l.href p = some n → isInternalUrl n b = true →
      q ≠ n) :
    mapGet? (processLink b p c st l).pages q = mapGet? st.pages q := by
  unfold processLink
  split
  · rfl
  · rename_i n hn
    dsimp only
    split
    · rename_i hint
      have hqn : q ≠ n := hqt n hn hint
      have key : mapGet? (mapUpdate
          (if mapHas (mapUpdate st.pages p (fun pd => pushOutgoing pd c n))
              n = true
           then mapUpdate st.pages p (fun pd => pushOutgoing pd c n)
           else mapUpdate st.pages p (fun pd => pushOutgoing pd c n) ++
             [(n, emptyRecord none)])
          n (fun pd => { pd with incomingLinks := pd.incomingLinks ++ [p] })) q =
          mapGet? st.pages q := by
        rw [mapGet?_update_ne _ _ _ _ hqn]
        split
        · exact mapGet?_update_ne _ _ _ _ hqp
        · rw [mapGet?_append_single_ne _ _ _ _ hqn]
          exact mapGet?_update_ne _ _ _ _ hqp
      split
      · exact key
      · exact key
    · split
      · rfl
      · rfl

theorem processLink_pages_self_inc (b p : Str) (c : Category) (st : CrawlState)
    (l : ExtractedLink)
    (hpt : ∀ n, normalizeUrl l.href p = some n → isInternalUrl n b = true →
      p ≠ n) :
    (mapGet? (processLink b p c st l).pages p).map PageRecord.incomingLinks =
      (mapGet? st.pages p).map PageRecord.incomingLinks := by
  unfold processLink
  split
  · rfl
  · rename_i n hn
    dsimp only
    split
    · rename_i hint
      have hpn : p ≠ n := hpt n hn hint
      have key : (mapGet? (mapUpdate
          (if mapHas (mapUpdate st.pages p (fun pd => pushOutgoing pd c n))
              n = true
           then mapUpdate st.pages p (fun pd => pushOutgoing pd c n)
           else mapUpdate st.pages p (fun pd => pushOutgoing pd c n) ++
             [(n, emptyRecord none)])
          n (fun pd => { pd with incomingLinks := pd.incomingLinks ++ [p] })) p).map
            PageRecord.incomingLinks =
          (mapGet? st.pages p).map PageRecord.incomingLinks := by
        rw [mapGet?_update_ne _ _ _ _ hpn]
        split
        · rw [mapGet?_update_self]
          cases hm : mapGet? st.pages p with
          | none => rfl
          | some pd =>
            show some (pushOutgoing pd c n).incomingLinks = some pd.incomingLinks
            rw [incomingLinks_pushOutgoing]
        · rw [mapGet?_append_single_ne _ _ _ _ hpn, mapGet?_update_self]
          cases hm : mapGet? st.pages p with
          | none => rfl
          | some pd =>
            show some (pushOutgoing pd c n).incomingLinks = some pd.incomingLinks
            rw [incomingLinks_pushOutgoing]
      split
      · exact key
      · exact key
    · split
      · rfl
      · rfl

theorem processImage_pages_self_inc (p : Str) (fi : List Str) (st : CrawlState)
    (img : ExtractedImage) :
    (mapGet? (processImage p fi st img).pages p).map PageRecord.incomingLinks =
      (mapGet? st.pages p).map PageRecord.incomingLinks := by
  unfold processImage
  split
  · rfl
  · rename_i iu hnorm
    dsimp only
    have key : (mapGet? (mapUpdate st.pages p
        (fun pd => { pd with images := pd.images ++ [iu] })) p).map
          PageRecord.incomingLinks =
        (mapGet? st.pages p).map PageRecord.incomingLinks := by
      rw [mapGet?_update_self]
      cases hm : mapGet? st.pages p with
      | none => rfl
      | some pd => rfl
    split
    · split
      · exact key
      · exact key
    · exact key

theorem foldl_processLink_other (b p : Str) (c : Category)
    (links : List ExtractedLink) (q : Str) (hqp : q ≠ p)
    (hqt : q ∉ internalTargets b p links) :
    ∀ st : CrawlState,
      mapGet? (links.foldl (processLink b p c) st).pages q =
        mapGet? st.pages q := by
  induction links with
  | nil => exact fun st => rfl
  | cons l tl ih =>
    intro st
    have hqthead : ∀ n, normalizeUrl l.href p = some n →
        isInternalUrl n b = true → q ≠ n := by
      intro n hn hint hqn
      exact hqt (hqn ▸ mem_internalTargets b p (l :: tl) l
        (List.mem_cons_self l tl) n hn hint)
    have hqt' : q ∉ internalTargets b p tl := fun hm =>
      hqt (internalTargets_cons_subset b p l tl q hm)
    rw [List.foldl_cons, ih hqt',
      processLink_pages_other b p c st l q hqp hqthead]

theorem foldl_processLink_self_inc (b p : Str) (c : Category)
    (links : List ExtractedLink)
    (hpt : p ∉ internalTargets b p links) :
    ∀ st : CrawlState,
      (mapGet? (links.foldl (processLink b p c) st).pages p).map
          PageRecord.incomingLinks =
        (mapGet? st.pages p).map PageRecord.incomingLinks := by
  induction links with
  | nil => exact fun st => rfl
  | cons l tl ih =>
    intro st
    have hpthead : ∀ n, normalizeUrl l.href p = some n →
        isInternalUrl n b = true → p ≠ n := by
      intro n hn hint hpn
      exact hpt (hpn ▸ mem_internalTargets b p (l :: tl) l
        (List.mem_cons_self l tl) n hn hint)
    have hpt' : p ∉ internalTargets b p tl := fun hm =>
      hpt (internalTargets_cons_subset b p l tl p hm)
    rw [List.foldl_cons, ih hpt',
      processLink_pages_self_inc b p c st l hpthead]

theorem foldl_processImage_other (p : Str) (fi : List Str)
    (imgs : List ExtractedImage) (q : Str) (hqp : q ≠ p) :
    ∀ st : CrawlState,
      mapGet? (imgs.foldl (processImage p fi) st).pages q =
        mapGet? st.pages q := by
  induction imgs with
  | nil => exact fun st => rfl
  | cons i tl ih =>
    intro st
    rw [List.foldl_cons, ih, (processImage_pages p fi st i).1 q hqp]

theorem foldl_processImage_self_inc (p : Str) (fi : List Str)
    (imgs : List ExtractedImage) :
    ∀ st : CrawlState,
      (mapGet? (imgs.foldl (processImage p fi) st).pages p).map
          PageRecord.incomingLinks =
        (mapGet? st.pages p).map PageRecord.incomingLinks := by
  induction imgs with
  | nil => exact fun st => rfl
  | cons i tl ih =>
    intro st
    rw [List.foldl_cons, ih, processImage_pages_self_inc p fi st i]

/-- The scalar crawler-state fields untouched by classification. -/
def ScalarFrame (s₁ s₀ : CrawlState) : Prop :=
  s₁.visited = s₀.visited ∧ s₁.fetchLog = s₀.fetchLog ∧ s₁.okLog = s₀.okLog ∧
  s₁.errors = s₀.errors ∧ s₁.redirects = s₀.redirects ∧
  s₁.brokenLinks = s₀.brokenLinks

theorem classifyPage_scalar (b p : Str) (ext : Extraction) (fi : List Str)
    (st : CrawlState) : ScalarFrame (classifyPage b p ext fi st) st := by
  unfold classifyPage
  dsimp only
  have hl : ∀ (c : Category) (ls : List ExtractedLink) (s : CrawlState),
      ScalarFrame (ls.foldl (processLink b p c) s) s := by
    intro c ls
    induction ls with
    | nil => exact fun s => ⟨rfl, rfl, rfl, rfl, rfl, rfl⟩
    | cons x tl ih =>
      intro s
      obtain ⟨h1, h2, h3, h4, h5, h6⟩ := ih (processLink b p c s x)
      have hf := processLink_frame b p c s x
      exact ⟨h1.trans hf.1, h2.trans hf.2.1, h3.trans hf.2.2.2.2.2.2.1,
        h4.trans hf.2.2.1, h5.trans hf.2.2.2.1, h6.trans hf.2.2.2.2.1⟩
  have hi : ∀ (imgs : List ExtractedImage) (s : CrawlState),
      ScalarFrame (imgs.foldl (processImage p fi) s) s := by
    intro imgs
    induction imgs with
    | nil => exact fun s => ⟨rfl, rfl, rfl, rfl, rfl, rfl⟩
    | cons x tl ih =>
      intro s
      obtain ⟨h1, h2, h3, h4, h5, h6⟩ := ih (processImage p fi s x)
      have hf := processImage_frame p fi s x
      exact ⟨h1.trans hf.1, h2.trans hf.2.2.1, h3.trans hf.2.2.2.2.2.2.2.1,
        h4.trans hf.2.2.2.1, h5.trans hf.2.2.2.2.1, h6.trans hf.2.2.2.2.2.1⟩
  obtain ⟨a1, a2, a3, a4, a5, a6⟩ := hl Category.header ext.headerLinks st
  obtain ⟨b1, b2, b3, b4, b5, b6⟩ :=
    hl Category.footer ext.footerLinks (ext.headerLinks.foldl (processLink b p .header) st)
  obtain ⟨c1, c2, c3, c4, c5, c6⟩ :=
    hl Category.content ext.contentLinks
      (ext.footerLinks.foldl (processLink b p .footer)
        (ext.headerLinks.foldl (processLink b p .header) st))
  obtain ⟨d1, d2, d3, d4, d5, d6⟩ :=
    hi ext.images
      (ext.contentLinks.foldl (processLink b p .content)
        (ext.footerLinks.foldl (processLink b p .footer)
          (ext.headerLinks.foldl (processLink b p .header) st)))
  exact ⟨((d1.trans c1).trans b1).trans a1, ((d2.trans c2).trans b2).trans a2,
    ((d3.trans c3).trans b3).trans a3, ((d4.trans c4).trans b4).trans a4,
    ((d5.trans c5).trans b5).trans a5, ((d6.trans c6).trans b6).trans a6⟩

/-- C10 (amended): classifying the links and images of a successfully
fetched page `p` leaves visited, the fetch/ok logs, errors, redirects and
brokenLinks untouched; the PageRecord of any page that is neither `p` nor a
normalized internal link target of `p` is bit-for-bit unchanged; and `p`'s
own incomingLinks are unchanged provided `p` is not among its own internal
link targets — a self-link makes the classification append `p` to its
own incomingLinks (see the counterexample). -/
theorem classify_frame_amended (b p : Str) (ext : Extraction) (fi : List Str)
    (st : CrawlState) :
    ScalarFrame (classifyPage b p ext fi st) st ∧
    (∀ q, q ≠ p →
      q ∉ internalTargets b p
        (ext.headerLinks ++ ext.footerLinks ++ ext.contentLinks) →
      mapGet? (classifyPage b p ext fi st).pages q = mapGet? st.pages q) ∧
    (p ∉ internalTargets b p
        (ext.headerLinks ++ ext.footerLinks ++ ext.contentLinks) →
      (mapGet? (classifyPage b p ext fi st).pages p).map
          PageRecord.incomingLinks =
        (mapGet? st.pages p).map PageRecord.incomingLinks) := by
  have hsplit : ∀ n, n ∈ internalTargets b p ext.headerLinks ∨
      n ∈ internalTargets b p ext.footerLinks ∨
      n ∈ internalTargets b p ext.contentLinks →
      n ∈ internalTargets b p
        (ext.headerLinks ++ ext.footerLinks ++ ext.contentLinks) := by
    intro n hor
    unfold internalTargets at hor ⊢
    rw [List.filterMap_append, List.filterMap_append]
    rcases hor with h1 | h1 | h1
    · exact List.mem_append_left _ (List.mem_append_left _ h1)
    · exact List.mem_append_left _ (List.mem_append_right _ h1)
    · exact List.mem_append_right _ h1
  refine ⟨classifyPage_scalar b p ext fi st, ?_, ?_⟩
  · intro q hqp hqt
    unfold classifyPage
    dsimp only
    rw [foldl_processImage_other p fi ext.images q hqp,
      foldl_processLink_other b p .content ext.contentLinks q hqp
        (fun hm => hqt (hsplit q (Or.inr (Or.inr hm)))),
      foldl_processLink_other b p .footer ext.footerLinks q hqp
        (fun hm => hqt (hsplit q (Or.inr (Or.inl hm)))),
      foldl_processLink_other b p .header ext.headerLinks q hqp
        (fun hm => hqt (hsplit q (Or.inl hm)))]
  · intro hpt
    unfold classifyPage
    dsimp only
    rw [foldl_processImage_self_inc p fi ext.images,
      foldl_processLink_self_inc b p .content ext.contentLinks
        (fun hm => hpt (hsplit p (Or.inr (Or.inr hm)))),
      foldl_processLink_self_inc b p .footer ext.footerLinks
        (fun hm => hpt (hsplit p (Or.inr (Or.inl hm)))),
      foldl_processLink_self_inc b p .header ext.headerLinks
        (fun hm => hpt (hsplit p (Or.inl hm)))]

/-- The self-linking page of the C10 counterexample. -/
def sUrl : Str := "http://localhost:4000/s".toList

/-- The fetch collaborator of the C10 run: `/s` links to itself in its
content. -/
def fetchC10 : Str → FetchOutcome := fun u =>
  if u = sUrl then
    FetchOutcome.response 200 sUrl ⟨[], [], [⟨"/s".toList, []⟩], []⟩ []
  else FetchOutcome.noResponse

/-- The C10 counterexample environment. -/
def envC10 : Env := ⟨"http://localhost:4000".toList, 10, fetchC10⟩

/-- The seeded state of the C10 run (sitemap = `[/s]`). -/
def sC10seed : CrawlState := seededState envC10 (some [sUrl])

/-- The state after the C10 run's single iteration (fetch of `/s`). -/
def sC10 : CrawlState :=
  crawlPage envC10 { sC10seed with toVisit := setDelete sC10seed.toVisit sUrl }
    sUrl

/-- The graph store of `/s` just before its classification step: the fresh
record with empty incomingLinks. -/
def stC10pre : CrawlState :=
  ⟨[], [], [(sUrl, emptyRecord (some 200))], [], [], [], [], [], [], [], [], []⟩

/-- C10 (counterexample): a page whose content links to itself is its own
internal link target, and the classification step appends the page to its
own incomingLinks — both in isolation on the pre-classification store and
in the crawl run seeded with `/s` — refuting the claim that a page's own
incomingLinks are left unchanged by classifying its links. -/
theorem classify_frame_counterexample :
    CrawlReach envC10 (some [sUrl]) sC10 ∧
      runCrawl envC10 (some [sUrl]) = sC10 ∧
      sUrl ∈ internalTargets envC10.baseUrl sUrl [⟨"/s".toList, []⟩] ∧
      (mapGet? (classifyPage envC10.baseUrl sUrl
          ⟨[], [], [⟨"/s".toList, []⟩], []⟩ [] stC10pre).pages sUrl).map
        PageRecord.incomingLinks = some [sUrl] ∧
      (mapGet? stC10pre.pages sUrl).map PageRecord.incomingLinks = some [] ∧
      (mapGet? sC10.pages sUrl).map PageRecord.incomingLinks = some [sUrl] := by
  refine ⟨?_, ?_, by decide, by decide, by decide, by decide⟩
  · exact CrawlReach.step sC10seed sUrl [] CrawlReach.seed (by decide) (by decide)
  · show crawlLoop envC10 sC10seed = sC10
    rw [crawlLoop_step envC10 sC10seed sUrl [] (by decide) (by decide)]
    show crawlLoop envC10 sC10 = sC10
    exact crawlLoop_empty envC10 sC10 (by decide)

/-- The extraction of the C10 witness (`/a` links to `/b` in its content). -/
def extW : Extraction := ⟨[], [], [linkW], []⟩

/-- The witness store: `/a` with a fresh status-200 record. -/
def stW : CrawlState :=
  ⟨[], [], [(aUrl, emptyRecord (some 200))], [], [], [], [], [], [], [], [], []⟩

/-- C10 (witness): the frame theorem applied to a concrete classification —
`/a` links only to `/b`, so the scalar fields survive, the record of the
unrelated URL `/i.png` is unchanged, and `/a`'s own incomingLinks are
unchanged. -/
theorem classify_frame_witness :
    ScalarFrame (classifyPage envC1.baseUrl aUrl extW [] stW) stW ∧
      mapGet? (classifyPage envC1.baseUrl aUrl extW [] stW).pages iUrl =
        mapGet? stW.pages iUrl ∧
      (mapGet? (classifyPage envC1.baseUrl aUrl extW [] stW).pages aUrl).map
          PageRecord.incomingLinks =
        (mapGet? stW.pages aUrl).map PageRecord.incomingLinks :=
  ⟨(classify_frame_amended envC1.baseUrl aUrl extW [] stW).1,
    (classify_frame_amended envC1.baseUrl aUrl extW [] stW).2.1 iUrl
      (by decide) (by decide),
    (classify_frame_amended envC1.baseUrl aUrl extW [] stW).2.2 (by decide)⟩


/-! ## The layering analyzer (`site-visualize.js`, C6)

The visualizer consumes the report: each page carries its three
outgoing-link buckets (`header`/`footer`/`content` model
`outgoingLinks.header` etc.), incoming links, the isolated flag and the
issues object.  `calculateLayers` is modelled with a ghost `expLog`
recording each dequeued-and-expanded `(uri, depth)` pair.  The JS function
throws a TypeError when the report has no home page (`pages['/']` is
undefined and `getPageStatus` dereferences it), modelled by `Option`. -/

/-- The `issues` object of a report page. -/
structure VIssues where
  error : Option Str
  brokenLinks : List Str
  brokenImages : List Str
deriving DecidableEq, Repr

/-- A page of the visualizer input report. -/
structure RPage where
  header : List Str
  footer : List Str
  content : List Str
  incomingLinks : List Str
  isIsolated : Bool
  issues : VIssues
deriving DecidableEq, Repr

/-- The record `getPageStatus` returns. -/
structure PageStat where
  status : Str
  hasError : Bool
  hasBrokenLinks : Bool
  hasBrokenImages : Bool
  isIsolated : Bool
  incomingCount : Nat
  outgoingCount : Nat
deriving DecidableEq, Repr

/-- Model of `getPageStatus(pageData)`; `none` models the `{}` fallback
(whose `issues?.error` is `undefined !== null`, hence an error). -/
def getPageStatus (pd? : Option RPage) : PageStat :=
  match pd? with
  | none => ⟨"error".toList, true, false, false, false, 0, 0⟩
  | some pd =>
    let hasError := pd.issues.error.isSome
    let hasBrokenLinks := decide (0 < pd.issues.brokenLinks.length)
    let hasBrokenImages := decide (0 < pd.issues.brokenImages.length)
    let isIsolated := pd.isIsolated
    ⟨if hasError then "error".toList
      else if hasBrokenLinks then "broken-links".toList
      else if isIsolated then "isolated".toList
      else if hasBrokenImages then "warning".toList
      else "healthy".toList,
      hasError, hasBrokenLinks, hasBrokenImages, isIsolated,
      pd.incomingLinks.length,
      pd.header.length + pd.footer.length + pd.content.length⟩

/-- A `pageMetadata` layer value: a numeric layer or the string
`'isolated'`. -/
inductive LayerTag where
  | num (n : Nat)
  | isolated
deriving DecidableEq, Repr

/-- A `pageMetadata` entry (`{ layer, type, ...getPageStatus(...) }`). -/
structure VMeta where
  layer : LayerTag
  ptype : Str
  status : PageStat
deriving DecidableEq, Repr

/-- The result of `identifyHeaderFooterPages(pages)`. -/
structure NavPages where
  header : List Str
  footer : List Str
  all : List Str
deriving DecidableEq, Repr

/-- Model of `identifyHeaderFooterPages`: the deduplicated header links of
all pages, the deduplicated footer links, and their union in insertion
order. -/
def identifyHeaderFooterPages (pages : List (Str × RPage)) : NavPages :=
  let headerPages := pages.foldl (fun acc e => e.2.header.foldl setAdd acc) []
  let footerPages := pages.foldl (fun acc e => e.2.footer.foldl setAdd acc) []
  ⟨headerPages, footerPages, footerPages.foldl setAdd headerPages⟩

/-- The nav-loop layer of a nav page: header (alone or with footer) wins
layer 1, footer-only gets layer 2. -/
def navLayer (nav : NavPages) (uri : Str) : Nat :=
  if uri ∈ nav.header then 1 else 2

/-- The nav-loop `type` string. -/
def navType (nav : NavPages) (uri : Str) : Str :=
  if uri ∈ nav.header ∧ uri ∈ nav.footer then "header-footer".toList
  else if uri ∈ nav.header then "header".toList
  else "footer".toList

/-- `'/'`, the BFS root. -/
def homeUri : Str := "/".toList

/-- The concatenation of the three outgoing-link buckets of a report page
(the `allLinks` array of the BFS body). -/
def allLinksOf (p : RPage) : List Str :=
  p.header ++ p.footer ++ p.content

/-- Every bucket link of every report page, deduplicated (the universe the
BFS can ever enqueue from). -/
def rBucketFold (acc : List Str) (e : Str × RPage) : List Str :=
  e.2.content.foldl setAdd (e.2.footer.foldl setAdd (e.2.header.foldl setAdd acc))

/-- The link universe of a report. -/
def linkUniverse (pages : List (Str × RPage)) : List Str :=
  pages.foldl rBucketFold []

theorem mem_rBucketFold (acc : List Str) (e : Str × RPage) (y : Str) :
    y ∈ rBucketFold acc e ↔ y ∈ acc ∨ y ∈ allLinksOf e.2 := by
  unfold rBucketFold allLinksOf
  rw [mem_foldl_setAdd, mem_foldl_setAdd, mem_foldl_setAdd]
  simp [or_assoc]

theorem mem_linkUniverse_aux (ps : List (Str × RPage)) (y : Str) :
    ∀ acc, y ∈ ps.foldl rBucketFold acc ↔
      y ∈ acc ∨ ∃ e ∈ ps, y ∈ allLinksOf e.2 := by
  induction ps with
  | nil =>
    intro acc
    constructor
    · exact fun h => Or.inl h
    · rintro (h | ⟨e₀, he₀, hb⟩)
      · exact h
      · cases he₀
  | cons e tl ih =>
    intro acc
    rw [List.foldl_cons, ih, mem_rBucketFold]
    constructor
    · rintro ((h | h) | ⟨e₀, he₀, hb⟩)
      · exact Or.inl h
      · exact Or.inr ⟨e, List.mem_cons_self e tl, h⟩
      · exact Or.inr ⟨e₀, List.mem_cons_of_mem e he₀, hb⟩
    · rintro (h | ⟨e₀, he₀, hb⟩)
      · exact Or.inl (Or.inl h)
      · rcases List.mem_cons.mp he₀ with heq | hm
        · exact Or.inl (Or.inr (heq ▸ hb))
        · exact Or.inr ⟨e₀, hm, hb⟩

theorem mem_linkUniverse (pages : List (Str × RPage)) (k : Str) (p : RPage)
    (hk : (k, p) ∈ pages) (u : Str) (hu : u ∈ allLinksOf p) :
    u ∈ linkUniverse pages := by
  unfold linkUniverse
  exact (mem_linkUniverse_aux pages u []).mpr (Or.inr ⟨(k, p), hk, hu⟩)

/-- The BFS state: the visited set, the queue of `(uri, depth)` pairs, the
`layers` arrays, `pageMetadata`, and the ghost expansion log. -/
structure BfsState where
  visited : List Str
  queue : List (Str × Nat)
  layers : List (Nat × List Str)
  meta : List (Str × VMeta)
  expLog : List (Str × Nat)
deriving DecidableEq, Repr

/-- One iteration of the inner link loop of the BFS: skip visited targets,
otherwise mark visited, file the target under layer `depth + 3`, record its
content metadata and enqueue it at `depth + 1`. -/
def discover (pages : List (Str × RPage)) (depth : Nat)
    (st : BfsState) (linkUri : Str) : BfsState :=
  if linkUri ∈ st.visited then st
  else
    let newLayer := depth + 1 + 2
    let layers' :=
      if mapHas st.layers newLayer then
        mapUpdate st.layers newLayer (fun l => l ++ [linkUri])
      else st.layers ++ [(newLayer, [linkUri])]
    ⟨st.visited ++ [linkUri], st.queue ++ [(linkUri, depth + 1)], layers',
      mapSet st.meta linkUri
        ⟨LayerTag.num newLayer, "content".toList,
          getPageStatus (mapGet? pages linkUri)⟩,
      st.expLog⟩

/-- The record written for a page discovered from depth `depth`. -/
def contentRecord (pages : List (Str × RPage)) (depth : Nat) (u : Str) :
    VMeta :=
  ⟨LayerTag.num (depth + 1 + 2), "content".toList,
    getPageStatus (mapGet? pages u)⟩

theorem discover_foldl (pages : List (Str × RPage)) (depth : Nat)
    (links : List Str) :
    ∀ st : BfsState, ∃ newly : List Str,
      (links.foldl (discover pages depth) st).visited =
          st.visited ++ newly ∧
      (links.foldl (discover pages depth) st).queue =
          st.queue ++ newly.map (fun u => (u, depth + 1)) ∧
      (links.foldl (discover pages depth) st).expLog = st.expLog ∧
      (∀ u ∈ newly, u ∈ links ∧ u ∉ st.visited) ∧
      (∀ l ∈ links, l ∈ st.visited ++ newly) ∧
      (∀ u, u ∉ newly →
        mapGet? (links.foldl (discover pages depth) st).meta u =
          mapGet? st.meta u) ∧
      (∀ u ∈ newly,
        mapGet? (links.foldl (discover pages depth) st).meta u =
          some (contentRecord pages depth u)) := by
  induction links with
  | nil =>
    intro st
    exact ⟨[], by simp, by simp, rfl, by simp, by simp, fun u _ => rfl,
      by simp⟩
  | cons l tl ih =>
    intro st
    rw [List.foldl_cons]
    by_cases hv : l ∈ st.visited
    · have hd : discover pages depth st l = st := by
        unfold discover
        rw [if_pos hv]
      rw [hd]
      obtain ⟨n, h1, h2, h3, h4, h5, h6, h7⟩ := ih st
      refine ⟨n, h1, h2, h3, ?_, ?_, h6, h7⟩
      · exact fun u hu => ⟨List.mem_cons_of_mem l (h4 u hu).1, (h4 u hu).2⟩
      · intro x hx
        rcases List.mem_cons.mp hx with rfl | hx'
        · exact List.mem_append_left _ hv
        · exact h5 x hx'
    · have hdv : (discover pages depth st l).visited = st.visited ++ [l] := by
        unfold discover
        rw [if_neg hv]
      have hdq : (discover pages depth st l).queue =
          st.queue ++ [(l, depth + 1)] := by
        unfold discover
        rw [if_neg hv]
      have hde : (discover pages depth st l).expLog = st.expLog := by
        unfold discover
        rw [if_neg hv]
      have hdm : (discover pages depth st l).meta =
          mapSet st.meta l (contentRecord pages depth l) := by
        unfold discover contentRecord
        rw [if_neg hv]
      obtain ⟨n, h1, h2, h3, h4, h5, h6, h7⟩ := ih (discover pages depth st l)
      have hln : l ∉ n := by
        intro hl
        exact (h4 l hl).2 (by rw [hdv]; exact List.mem_append_right _ (by simp))
      refine ⟨l :: n, ?_, ?_, ?_, ?_, ?_, ?_, ?_⟩
      · rw [h1, hdv, List.append_assoc]
        rfl
      · rw [h2, hdq, List.append_assoc]
        rfl
      · rw [h3, hde]
      · intro u hu
        rcases List.mem_cons.mp hu with rfl | hu'
        · exact ⟨List.mem_cons_self _ _, hv⟩
        · obtain ⟨hul, hunv⟩ := h4 u hu'
          refine ⟨List.mem_cons_of_mem l hul, ?_⟩
          intro huv
          apply hunv
          rw [hdv]
          exact List.mem_append_left _ huv
      · intro x hx
        rcases List.mem_cons.mp hx with rfl | hx'
        · exact List.mem_append_right _ (List.mem_cons_self _ _)
        · have := h5 x hx'
          rw [hdv] at this
          rcases List.mem_append.mp this with h | h
          · rcases List.mem_append.mp h with h' | h'
            · exact List.mem_append_left _ h'
            · simp only [List.mem_singleton] at h'
              exact List.mem_append_right _ (h' ▸ List.mem_cons_self _ _)
          · exact List.mem_append_right _ (List.mem_cons_of_mem l h)
      · intro u hu
        have hul : u ≠ l := fun h => hu (h ▸ List.mem_cons_self _ _)
        have hun : u ∉ n := fun h => hu (List.mem_cons_of_mem l h)
        rw [h6 u hun, hdm, mapGet?_set]
        rw [if_neg hul]
      · intro u hu
        rcases List.mem_cons.mp hu with rfl | hu'
        · rw [h6 u hln, hdm, mapGet?_set, if_pos rfl]
        · exact h7 u hu'

/-- Model of the BFS `while` loop of `calculateLayers`. -/
def bfsLoop (pages : List (Str × RPage)) (st : BfsState) : BfsState :=
  match hq : st.queue with
  | [] => st
  | (uri, depth) :: rest =>
    match hp : mapGet? pages uri with
    | none => bfsLoop pages { st with queue := rest }
    | some p =>
      bfsLoop pages ((allLinksOf p).foldl (discover pages depth)
        { st with queue := rest, expLog := st.expLog ++ [(uri, depth)] })
termination_by
  (((linkUniverse pages).filter (fun u => decide (u ∉ st.visited))).length,
    st.queue.length)
decreasing_by
· apply Prod.Lex.right'
  · exact Nat.le_refl _
  · rw [hq]
    simp
· rcases discover_foldl pages depth (allLinksOf p)
      { st with queue := rest, expLog := st.expLog ++ [(uri, depth)] } with
    ⟨newly, h1, h2, h3, h4, h5, h6, h7⟩
  cases newly with
  | nil =>
    apply Prod.Lex.right'
    · rw [h1]
      simp
    · rw [h2]
      dsimp only
      rw [hq]
      simp
  | cons x n =>
    apply Prod.Lex.left
    have hxl : x ∈ allLinksOf p := (h4 x (List.mem_cons_self x n)).1
    have hxv : x ∉ st.visited := (h4 x (List.mem_cons_self x n)).2
    have hxU : x ∈ linkUniverse pages :=
      mem_linkUniverse pages uri p (mapGet?_mem pages uri p hp) x hxl
    rw [h1]
    dsimp only
    have hsub : ((linkUniverse pages).filter
        (fun u => decide (u ∉ st.visited ++ x :: n))).length ≤
        ((linkUniverse pages).filter
          (fun u => decide (u ≠ x) && decide (u ∉ st.visited))).length := by
      apply List.Sublist.length_le
      apply List.monotone_filter_right
      intro a ha
      simp only [decide_eq_true_eq, List.mem_append, List.mem_cons] at ha
      simp only [Bool.and_eq_true, decide_eq_true_eq]
      exact ⟨fun h => ha (Or.inr (Or.inl h)), fun h => ha (Or.inl h)⟩
    have heq2 : (linkUniverse pages).filter
        (fun u => decide (u ≠ x) && decide (u ∉ st.visited)) =
        ((linkUniverse pages).filter (fun u => decide (u ∉ st.visited))).filter
          (fun u => decide (u ≠ x)) := by
      rw [List.filter_filter]
    have hxmem : x ∈ (linkUniverse pages).filter
        (fun u => decide (u ∉ st.visited)) :=
      List.mem_filter.mpr ⟨hxU, by simp [hxv]⟩
    have hlt : (((linkUniverse pages).filter
        (fun u => decide (u ∉ st.visited))).filter
          (fun u => decide (u ≠ x))).length <
        ((linkUniverse pages).filter
          (fun u => decide (u ∉ st.visited))).length := by
      apply List.length_filter_lt_length_iff_exists.mpr
      exact ⟨x, hxmem, by simp⟩
    calc ((linkUniverse pages).filter
          (fun u => decide (u ∉ st.visited ++ x :: n))).length
        ≤ _ := hsub
      _ = _ := by rw [heq2]
      _ < _ := hlt


/-- The metadata record of the home page written before the nav loop. -/
def homeRecord (pages : List (Str × RPage)) : VMeta :=
  ⟨LayerTag.num 0, "home".toList, getPageStatus (mapGet? pages homeUri)⟩

/-- The metadata record the nav loop writes for a nav page. -/
def navRecord (pages : List (Str × RPage)) (nav : NavPages) (uri : Str) :
    VMeta :=
  ⟨LayerTag.num (navLayer nav uri), navType nav uri,
    getPageStatus (mapGet? pages uri)⟩

/-- The metadata record of a page the BFS never reached. -/
def isoRecord (pages : List (Str × RPage)) (uri : Str) : VMeta :=
  ⟨LayerTag.isolated, "isolated".toList, getPageStatus (mapGet? pages uri)⟩

/-- The BFS state after seeding: home and nav metadata and layers written,
`visited = {home} ∪ nav.all`, queue `home@0, headers@1, footers@2`. -/
def initBfs (pages : List (Str × RPage)) : BfsState :=
  let nav := identifyHeaderFooterPages pages
  ⟨nav.all.foldl setAdd [homeUri],
    (homeUri, 0) ::
      (nav.header.map (fun u => (u, 1)) ++ nav.footer.map (fun u => (u, 2))),
    nav.all.foldl
      (fun ls uri => mapUpdate ls (navLayer nav uri) (fun l => l ++ [uri]))
      [(0, [homeUri]), (1, []), (2, [])],
    nav.all.foldl (fun m uri => mapSet m uri (navRecord pages nav uri))
      [(homeUri, homeRecord pages)],
    []⟩

/-- The result of `calculateLayers`. -/
structure CalcResult where
  layers : List (Nat × List Str)
  isolatedLayer : Option (List Str)
  pageMetadata : List (Str × VMeta)
  bfsVisited : List Str
  expLog : List (Str × Nat)
deriving DecidableEq, Repr

/-- The isolated-page pass after the BFS. -/
def postBfs (pages : List (Str × RPage)) (st : BfsState) : CalcResult :=
  let iso := pages.foldl
    (fun acc e => if e.1 ∈ st.visited then acc else acc ++ [e.1]) []
  let meta₂ := pages.foldl
    (fun m e => if e.1 ∈ st.visited then m
      else mapSet m e.1 (isoRecord pages e.1)) st.meta
  ⟨st.layers, if 0 < iso.length then some iso else none, meta₂, st.visited,
    st.expLog⟩

/-- Model of `calculateLayers(pages)`; `none` models the TypeError the
function throws when the report has no home page. -/
def calculateLayers (pages : List (Str × RPage)) : Option CalcResult :=
  if mapHas pages homeUri then
    some (postBfs pages (bfsLoop pages (initBfs pages)))
  else none

theorem bfsLoop_empty (pages : List (Str × RPage)) (st : BfsState)
    (h : st.queue = []) : bfsLoop pages st = st := by
  unfold bfsLoop
  split
  · rfl
  · rename_i uri2 depth2 rest2 hq2
    rw [h] at hq2
    cases hq2

theorem bfsLoop_skip (pages : List (Str × RPage)) (st : BfsState) (uri : Str)
    (depth : Nat) (rest : List (Str × Nat))
    (hq : st.queue = (uri, depth) :: rest) (hp : mapGet? pages uri = none) :
    bfsLoop pages st = bfsLoop pages { st with queue := rest } := by
  conv_lhs => rw [bfsLoop]
  split
  · rename_i hq2
    rw [hq] at hq2
    cases hq2
  · rename_i uri2 depth2 rest2 hq2
    rw [hq] at hq2
    obtain ⟨h1, h2, h3⟩ : uri2 = uri ∧ depth2 = depth ∧ rest2 = rest := by
      cases hq2
      exact ⟨rfl, rfl, rfl⟩
    subst h1
    subst h2
    subst h3
    split
    · rfl
    · rename_i p2 hp2
      rw [hp] at hp2
      cases hp2

theorem bfsLoop_step (pages : List (Str × RPage)) (st : BfsState) (uri : Str)
    (depth : Nat) (rest : List (Str × Nat)) (p : RPage)
    (hq : st.queue = (uri, depth) :: rest)
    (hp : mapGet? pages uri = some p) :
    bfsLoop pages st = bfsLoop pages ((allLinksOf p).foldl
      (discover pages depth)
      { st with queue := rest, expLog := st.expLog ++ [(uri, depth)] }) := by
  conv_lhs => rw [bfsLoop]
  split
  · rename_i hq2
    rw [hq] at hq2
    cases hq2
  · rename_i uri2 depth2 rest2 hq2
    rw [hq] at hq2
    obtain ⟨h1, h2, h3⟩ : uri2 = uri ∧ depth2 = depth ∧ rest2 = rest := by
      cases hq2
      exact ⟨rfl, rfl, rfl⟩
    subst h1
    subst h2
    subst h3
    split
    · rename_i hp2
      rw [hp] at hp2
      cases hp2
    · rename_i p2 hp2
      rw [hp] at hp2
      obtain rfl : p = p2 := by
        cases hp2
        rfl
      rfl

theorem bfsLoop_props (pages : List (Str × RPage)) :
    ∀ st : BfsState,
      (∃ ext, (bfsLoop pages st).visited = st.visited ++ ext) ∧
      (∃ ext, (bfsLoop pages st).expLog = st.expLog ++ ext) ∧
      (∀ u, u ∈ st.visited →
        mapGet? (bfsLoop pages st).meta u = mapGet? st.meta u) := by
  intro st₀
  induction st₀ using bfsLoop.induct pages with
  | case1 st hq =>
    rw [bfsLoop_empty pages st hq]
    exact ⟨⟨[], by simp⟩, ⟨[], by simp⟩, fun u _ => rfl⟩
  | case2 st uri depth rest hq hp ih =>
    rw [bfsLoop_skip pages st uri depth rest hq hp]
    exact ih
  | case3 st uri depth rest hq p hp ih =>
    rw [bfsLoop_step pages st uri depth rest p hq hp]
    obtain ⟨newly, h1, h2, h3, h4, h5, h6, h7⟩ :=
      discover_foldl pages depth (allLinksOf p)
        { st with queue := rest, expLog := st.expLog ++ [(uri, depth)] }
    obtain ⟨⟨e1, he1⟩, ⟨e2, he2⟩, hm⟩ := ih
    refine ⟨⟨newly ++ e1, ?_⟩, ⟨(uri, depth) :: e2, ?_⟩, ?_⟩
    · rw [he1, h1]
      dsimp only
      rw [List.append_assoc]
    · rw [he2, h3]
      dsimp only
      rw [List.append_assoc]
      rfl
    · intro u hu
      have hun : u ∉ newly := fun h => (h4 u h).2 hu
      have huF : u ∈ ((allLinksOf p).foldl (discover pages depth) { st with queue := rest, expLog := st.expLog ++ [(uri, depth)] }).visited := by
        rw [h1]
        exact List.mem_append_left _ hu
      rw [hm u huF, h6 u hun]

/-- The BFS invariant: metadata keys are exactly the visited pages, any
content-layer (≥ 3) metadata originates in a logged expansion of a stored
page at layer-minus-3 depth, and the links of every logged expansion are
all visited. -/
def BfsInv (pages : List (Str × RPage)) (st : BfsState) : Prop :=
  (∀ u, mapHas st.meta u = true → u ∈ st.visited) ∧
  (∀ u, u ∈ st.visited → mapHas st.meta u = true) ∧
  (∀ u m, mapGet? st.meta u = some m → ∀ L, m.layer = LayerTag.num L →
    3 ≤ L →
    ∃ w dw p, (w, dw) ∈ st.expLog ∧ mapGet? pages w = some p ∧
      u ∈ allLinksOf p ∧ L = dw + 3) ∧
  (∀ w dw, (w, dw) ∈ st.expLog → ∃ p, mapGet? pages w = some p ∧
    ∀ v ∈ allLinksOf p, v ∈ st.visited)

theorem bfsInv_step (pages : List (Str × RPage)) (st : BfsState) (uri : Str)
    (depth : Nat) (rest : List (Str × Nat)) (p : RPage)
    (hp : mapGet? pages uri = some p) (h : BfsInv pages st) :
    BfsInv pages ((allLinksOf p).foldl (discover pages depth)
      { st with queue := rest, expLog := st.expLog ++ [(uri, depth)] }) := by
  obtain ⟨K1, K2, K3, K4⟩ := h
  obtain ⟨newly, h1, h2, h3, h4, h5, h6, h7⟩ :=
    discover_foldl pages depth (allLinksOf p)
      { st with queue := rest, expLog := st.expLog ++ [(uri, depth)] }
  refine ⟨?_, ?_, ?_, ?_⟩
  · intro u hmh
    rw [h1]
    by_cases hun : u ∈ newly
    · exact List.mem_append_right _ hun
    · apply List.mem_append_left
      apply K1
      unfold mapHas at hmh ⊢
      rw [h6 u hun] at hmh
      exact hmh
  · intro u hu
    rw [h1] at hu
    rcases List.mem_append.mp hu with hu | hu
    · have hun : u ∉ newly := fun hh => (h4 u hh).2 hu
      unfold mapHas
      rw [h6 u hun]
      exact K2 u hu
    · unfold mapHas
      rw [h7 u hu]
      rfl
  · intro u m hm L hL h3L
    by_cases hun : u ∈ newly
    · rw [h7 u hun] at hm
      obtain rfl : contentRecord pages depth u = m := by
        cases hm
        rfl
      have hLd : depth + 1 + 2 = L := by
        have := hL
        unfold contentRecord at this
        cases this
        rfl
      refine ⟨uri, depth, p, ?_, hp, (h4 u hun).1, by omega⟩
      rw [h3]
      exact List.mem_append_right _ (List.mem_cons_self _ _)
    · rw [h6 u hun] at hm
      obtain ⟨w, dw, p', hw, hp', hu', hL'⟩ := K3 u m hm L hL h3L
      refine ⟨w, dw, p', ?_, hp', hu', hL'⟩
      rw [h3]
      exact List.mem_append_left _ hw
  · intro w dw hw
    rw [h3] at hw
    rcases List.mem_append.mp hw with hw | hw
    · obtain ⟨p', hp', hv⟩ := K4 w dw hw
      refine ⟨p', hp', ?_⟩
      intro v hvl
      rw [h1]
      exact List.mem_append_left _ (hv v hvl)
    · simp only [List.mem_singleton, Prod.mk.injEq] at hw
      obtain ⟨rfl, rfl⟩ := hw
      refine ⟨p, hp, ?_⟩
      intro v hvl
      rw [h1]
      exact h5 v hvl

theorem bfsInv_loop (pages : List (Str × RPage)) :
    ∀ st : BfsState, BfsInv pages st → BfsInv pages (bfsLoop pages st) := by
  intro st₀
  induction st₀ using bfsLoop.induct pages with
  | case1 st hq =>
    intro h
    rw [bfsLoop_empty pages st hq]
    exact h
  | case2 st uri depth rest hq hp ih =>
    intro h
    rw [bfsLoop_skip pages st uri depth rest hq hp]
    exact ih ⟨h.1, h.2.1, h.2.2.1, h.2.2.2⟩
  | case3 st uri depth rest hq p hp ih =>
    intro h
    rw [bfsLoop_step pages st uri depth rest p hq hp]
    exact ih (bfsInv_step pages st uri depth rest p hp h)

theorem foldl_mapSet_get (f : Str → VMeta) (keys : List Str) :
    keys.Nodup → ∀ (m₀ : List (Str × VMeta)) (u : Str),
      mapGet? (keys.foldl (fun m k => mapSet m k (f k)) m₀) u =
        if u ∈ keys then some (f u) else mapGet? m₀ u := by
  induction keys with
  | nil =>
    intro _ m₀ u
    simp
  | cons k tl ih =>
    intro hnd m₀ u
    rw [List.foldl_cons, ih (List.nodup_cons.mp hnd).2]
    by_cases hu : u ∈ tl
    · rw [if_pos hu, if_pos (List.mem_cons_of_mem k hu)]
    · rw [if_neg hu, mapGet?_set]
      by_cases huk : u = k
      · rw [if_pos huk, if_pos (by rw [huk]; exact List.mem_cons_self k tl),
          huk]
      · rw [if_neg huk, if_neg (by
          intro hmem
          rcases List.mem_cons.mp hmem with h | h
          · exact huk h
          · exact hu h)]

theorem nestedFold_nodup (sel : RPage → List Str) (ps : List (Str × RPage)) :
    ∀ acc : List Str, acc.Nodup →
      (ps.foldl (fun a e => (sel e.2).foldl setAdd a) acc).Nodup := by
  induction ps with
  | nil => exact fun acc h => h
  | cons e tl ih =>
    intro acc h
    exact ih _ (foldl_setAdd_nodup _ _ h)

theorem navAll_nodup (pages : List (Str × RPage)) :
    (identifyHeaderFooterPages pages).all.Nodup := by
  unfold identifyHeaderFooterPages
  dsimp only
  apply foldl_setAdd_nodup
  exact nestedFold_nodup RPage.header pages [] List.nodup_nil

theorem isoFold_frame (pages ps : List (Str × RPage)) (vis : List Str) :
    ∀ (m₀ : List (Str × VMeta)) (u : Str), u ∈ vis →
      mapGet? (ps.foldl (fun m e => if e.1 ∈ vis then m
        else mapSet m e.1 (isoRecord pages e.1)) m₀) u = mapGet? m₀ u := by
  induction ps with
  | nil => exact fun m₀ u _ => rfl
  | cons e tl ih =>
    intro m₀ u hu
    rw [List.foldl_cons]
    by_cases he : e.1 ∈ vis
    · rw [if_pos he]
      exact ih m₀ u hu
    · have hne : ¬ u = e.1 := fun h => he (h ▸ hu)
      rw [if_neg he, ih _ u hu, mapGet?_set, if_neg hne]

theorem isoFold_dichotomy (pages ps : List (Str × RPage)) (vis : List Str) :
    ∀ (m₀ : List (Str × VMeta)) (u : Str),
      mapGet? (ps.foldl (fun m e => if e.1 ∈ vis then m
        else mapSet m e.1 (isoRecord pages e.1)) m₀) u = mapGet? m₀ u ∨
      mapGet? (ps.foldl (fun m e => if e.1 ∈ vis then m
        else mapSet m e.1 (isoRecord pages e.1)) m₀) u =
        some (isoRecord pages u) := by
  induction ps with
  | nil => exact fun m₀ u => Or.inl rfl
  | cons e tl ih =>
    intro m₀ u
    rw [List.foldl_cons]
    by_cases he : e.1 ∈ vis
    · rw [if_pos he]
      exact ih m₀ u
    · rw [if_neg he]
      rcases ih (mapSet m₀ e.1 (isoRecord pages e.1)) u with h | h
      · rw [h, mapGet?_set]
        by_cases huk : u = e.1
        · rw [if_pos huk]
          exact Or.inr (by rw [huk])
        · rw [if_neg huk]
          exact Or.inl rfl
      · exact Or.inr h


theorem initBfs_visited (pages : List (Str × RPage)) (u : Str) :
    u ∈ (initBfs pages).visited ↔
      u = homeUri ∨ u ∈ (identifyHeaderFooterPages pages).all := by
  unfold initBfs
  dsimp only
  rw [mem_foldl_setAdd]
  constructor
  · rintro (h | h)
    · exact Or.inl (List.mem_singleton.mp h)
    · exact Or.inr h
  · rintro (h | h)
    · exact Or.inl (List.mem_singleton.mpr h)
    · exact Or.inr h

theorem initBfs_meta (pages : List (Str × RPage)) (u : Str) :
    mapGet? (initBfs pages).meta u =
      if u ∈ (identifyHeaderFooterPages pages).all
      then some (navRecord pages (identifyHeaderFooterPages pages) u)
      else if u = homeUri then some (homeRecord pages) else none := by
  unfold initBfs
  dsimp only
  rw [foldl_mapSet_get (navRecord pages (identifyHeaderFooterPages pages)) _
    (navAll_nodup pages)]
  by_cases hu : u ∈ (identifyHeaderFooterPages pages).all
  · rw [if_pos hu, if_pos hu]
  · rw [if_neg hu, if_neg hu]
    by_cases huh : u = homeUri
    · rw [if_pos huh]
      subst huh
      simp [mapGet?]
    · rw [if_neg huh]
      have h1 : ¬ homeUri = u := fun hh => huh hh.symm
      simp [mapGet?, h1]

theorem initBfs_expLog (pages : List (Str × RPage)) :
    (initBfs pages).expLog = [] := rfl

theorem bfsInv_init (pages : List (Str × RPage)) :
    BfsInv pages (initBfs pages) := by
  refine ⟨?_, ?_, ?_, ?_⟩
  · intro u hmh
    rw [initBfs_visited]
    unfold mapHas at hmh
    rw [initBfs_meta] at hmh
    by_cases hu : u ∈ (identifyHeaderFooterPages pages).all
    · exact Or.inr hu
    · rw [if_neg hu] at hmh
      by_cases huh : u = homeUri
      · exact Or.inl huh
      · rw [if_neg huh] at hmh
        simp at hmh
  · intro u hu
    rw [initBfs_visited] at hu
    unfold mapHas
    rw [initBfs_meta]
    by_cases hall : u ∈ (identifyHeaderFooterPages pages).all
    · rw [if_pos hall]
      rfl
    · rw [if_neg hall]
      rcases hu with huh | hall2
      · rw [if_pos huh]
        rfl
      · exact absurd hall2 hall
  · intro u m hm L hL h3L
    rw [initBfs_meta] at hm
    exfalso
    by_cases hall : u ∈ (identifyHeaderFooterPages pages).all
    · rw [if_pos hall] at hm
      obtain rfl : navRecord pages (identifyHeaderFooterPages pages) u = m := by
        cases hm
        rfl
      have hinj : navLayer (identifyHeaderFooterPages pages) u = L := by
        have h' : LayerTag.num (navLayer (identifyHeaderFooterPages pages) u) =
            LayerTag.num L := hL
        cases h'
        rfl
      rw [← hinj] at h3L
      unfold navLayer at h3L
      split at h3L <;> omega
    · rw [if_neg hall] at hm
      by_cases huh : u = homeUri
      · rw [if_pos huh] at hm
        obtain rfl : homeRecord pages = m := by
          cases hm
          rfl
        have h' : LayerTag.num 0 = LayerTag.num L := hL
        cases h'
        omega
      · rw [if_neg huh] at hm
        cases hm
  · intro w dw hw
    rw [initBfs_expLog] at hw
    cases hw

theorem postBfs_meta (pages : List (Str × RPage)) (st : BfsState) (u : Str) :
    mapGet? (postBfs pages st).pageMetadata u =
      mapGet? (pages.foldl (fun m e => if e.1 ∈ st.visited then m
        else mapSet m e.1 (isoRecord pages e.1)) st.meta) u := rfl

theorem postBfs_visited (pages : List (Str × RPage)) (st : BfsState) :
    (postBfs pages st).bfsVisited = st.visited := rfl

theorem postBfs_expLog (pages : List (Str × RPage)) (st : BfsState) :
    (postBfs pages st).expLog = st.expLog := rfl

/-- C6 (amended): for a report containing a home page, `calculateLayers`
(i) leaves the home page at layer 0 only when no header or footer bucket
mentions it — otherwise the nav loop overwrites its metadata with layer 1
or 2; (ii) assigns every nav page layer 1 when it appears in a header
bucket (also when it is in a footer bucket too) and layer 2 otherwise;
(iii) assigns a content layer `dw + 3` to exactly the pages discovered
while expanding some stored page at queue depth `dw` — the depth at which
the interleaved multi-source BFS happened to dequeue that parent, which is
not in general the minimum hop depth (see the counterexample); and (iv)
visits and labels every bucket link of every expanded page. -/
theorem layering_amended (pages : List (Str × RPage)) (nav : NavPages)
    (hnav : nav = identifyHeaderFooterPages pages) (res : CalcResult)
    (hres : calculateLayers pages = some res) :
    (homeUri ∉ nav.all →
      (mapGet? res.pageMetadata homeUri).map VMeta.layer =
        some (LayerTag.num 0)) ∧
    (∀ u ∈ nav.all,
      (mapGet? res.pageMetadata u).map VMeta.layer =
        some (LayerTag.num (navLayer nav u))) ∧
    (∀ u m, mapGet? res.pageMetadata u = some m → ∀ L,
      m.layer = LayerTag.num L → 3 ≤ L →
      ∃ w dw p, (w, dw) ∈ res.expLog ∧ mapGet? pages w = some p ∧
        u ∈ allLinksOf p ∧ L = dw + 3) ∧
    (∀ w dw, (w, dw) ∈ res.expLog → ∃ p, mapGet? pages w = some p ∧
      ∀ v ∈ allLinksOf p, v ∈ res.bfsVisited ∧
        mapHas res.pageMetadata v = true) := by
  subst hnav
  unfold calculateLayers at hres
  split at hres
  · obtain rfl : postBfs pages (bfsLoop pages (initBfs pages)) = res := by
      cases hres
      rfl
    obtain ⟨⟨extV, hextV⟩, ⟨extE, hextE⟩, hfr⟩ := bfsLoop_props pages (initBfs pages)
    obtain ⟨K1, K2, K3, K4⟩ := bfsInv_loop pages (initBfs pages) (bfsInv_init pages)
    refine ⟨?_, ?_, ?_, ?_⟩
    · intro hh
      have hvis0 : homeUri ∈ (initBfs pages).visited :=
        (initBfs_visited pages homeUri).mpr (Or.inl rfl)
      have hvis : homeUri ∈ (bfsLoop pages (initBfs pages)).visited := by
        rw [hextV]
        exact List.mem_append_left _ hvis0
      rw [postBfs_meta,
        isoFold_frame pages pages (bfsLoop pages (initBfs pages)).visited
          (bfsLoop pages (initBfs pages)).meta homeUri hvis,
        hfr homeUri hvis0, initBfs_meta, if_neg hh, if_pos rfl]
      rfl
    · intro u hu
      have hvis0 : u ∈ (initBfs pages).visited :=
        (initBfs_visited pages u).mpr (Or.inr hu)
      have hvis : u ∈ (bfsLoop pages (initBfs pages)).visited := by
        rw [hextV]
        exact List.mem_append_left _ hvis0
      rw [postBfs_meta,
        isoFold_frame pages pages (bfsLoop pages (initBfs pages)).visited
          (bfsLoop pages (initBfs pages)).meta u hvis,
        hfr u hvis0, initBfs_meta, if_pos hu]
      rfl
    · intro u m hm L hL h3L
      rw [postBfs_meta] at hm
      rcases isoFold_dichotomy pages pages
          (bfsLoop pages (initBfs pages)).visited
          (bfsLoop pages (initBfs pages)).meta u with hd | hd
      · rw [hd] at hm
        obtain ⟨w, dw, p, hw, hp, hup, hLd⟩ := K3 u m hm L hL h3L
        exact ⟨w, dw, p, hw, hp, hup, hLd⟩
      · rw [hd] at hm
        obtain rfl : isoRecord pages u = m := by
          cases hm
          rfl
        cases hL
    · intro w dw hw
      rw [postBfs_expLog] at hw
      obtain ⟨p, hp, hv⟩ := K4 w dw hw
      refine ⟨p, hp, ?_⟩
      intro v hvl
      have hvv := hv v hvl
      refine ⟨by rw [postBfs_visited]; exact hvv, ?_⟩
      unfold mapHas
      rw [postBfs_meta,
        isoFold_frame pages pages (bfsLoop pages (initBfs pages)).visited
          (bfsLoop pages (initBfs pages)).meta v hvv]
      exact K2 v hvv
  · cases hres

/-- A report page carrying only outgoing-link buckets. -/
def mkRPage (h f c : List Str) : RPage := ⟨h, f, c, [], false, ⟨none, [], []⟩⟩

/-- The C6 counterexample report: home links `/f` in its footer and `/n` in
its content; `/f` and `/n` both link `/x` in their content. -/
def pagesC6 : List (Str × RPage) :=
  [(homeUri, mkRPage [] ["/f".toList] ["/n".toList]),
   ("/f".toList, mkRPage [] [] ["/x".toList]),
   ("/n".toList, mkRPage [] [] ["/x".toList]),
   ("/x".toList, mkRPage [] [] [])]

/-- The BFS state after expanding home (depth 0). -/
def c6s1 : BfsState :=
  (allLinksOf (mkRPage [] ["/f".toList] ["/n".toList])).foldl
    (discover pagesC6 0)
    { initBfs pagesC6 with queue := [("/f".toList, 2)], expLog := (initBfs pagesC6).expLog ++ [(homeUri, 0)] }

/-- The BFS state after expanding `/f` (footer seed, depth 2). -/
def c6s2 : BfsState :=
  (allLinksOf (mkRPage [] [] ["/x".toList])).foldl (discover pagesC6 2)
    { c6s1 with queue := [("/n".toList, 1)], expLog := c6s1.expLog ++ [("/f".toList, 2)] }

/-- The BFS state after expanding `/n` (home child, depth 1). -/
def c6s3 : BfsState :=
  (allLinksOf (mkRPage [] [] ["/x".toList])).foldl (discover pagesC6 1)
    { c6s2 with queue := [("/x".toList, 3)], expLog := c6s2.expLog ++ [("/n".toList, 1)] }

/-- The final BFS state (after expanding `/x`). -/
def c6s4 : BfsState :=
  (allLinksOf (mkRPage [] [] [])).foldl (discover pagesC6 3)
    { c6s3 with queue := [], expLog := c6s3.expLog ++ [("/x".toList, 3)] }

theorem c6_bfs : bfsLoop pagesC6 (initBfs pagesC6) = c6s4 := by
  rw [bfsLoop_step pagesC6 (initBfs pagesC6) homeUri 0 [("/f".toList, 2)]
    (mkRPage [] ["/f".toList] ["/n".toList]) (by decide) (by decide)]
  show bfsLoop pagesC6 c6s1 = c6s4
  rw [bfsLoop_step pagesC6 c6s1 ("/f".toList) 2 [("/n".toList, 1)]
    (mkRPage [] [] ["/x".toList]) (by decide) (by decide)]
  show bfsLoop pagesC6 c6s2 = c6s4
  rw [bfsLoop_step pagesC6 c6s2 ("/n".toList) 1 [("/x".toList, 3)]
    (mkRPage [] [] ["/x".toList]) (by decide) (by decide)]
  show bfsLoop pagesC6 c6s3 = c6s4
  rw [bfsLoop_step pagesC6 c6s3 ("/x".toList) 3 []
    (mkRPage [] [] []) (by decide) (by decide)]
  show bfsLoop pagesC6 c6s4 = c6s4
  exact bfsLoop_empty pagesC6 c6s4 (by decide)

theorem c6_run : calculateLayers pagesC6 = some (postBfs pagesC6 c6s4) := by
  unfold calculateLayers
  rw [if_pos (by decide), c6_bfs]

/-- The second C6 report: the home page appears in its own header bucket
(a logo link), so the nav loop reassigns it to layer 1. -/
def pagesC6b : List (Str × RPage) := [(homeUri, mkRPage [homeUri] [] [])]

/-- The BFS state of the `pagesC6b` run after expanding home at depth 0. -/
def c6bs1 : BfsState :=
  (allLinksOf (mkRPage [homeUri] [] [])).foldl (discover pagesC6b 0)
    { initBfs pagesC6b with queue := [(homeUri, 1)], expLog := (initBfs pagesC6b).expLog ++ [(homeUri, 0)] }

/-- The final BFS state of the `pagesC6b` run (home expanded again as a
header seed at depth 1). -/
def c6bs2 : BfsState :=
  (allLinksOf (mkRPage [homeUri] [] [])).foldl (discover pagesC6b 1)
    { c6bs1 with queue := [], expLog := c6bs1.expLog ++ [(homeUri, 1)] }

theorem c6b_run : calculateLayers pagesC6b = some (postBfs pagesC6b c6bs2) := by
  unfold calculateLayers
  rw [if_pos (by decide)]
  have hb : bfsLoop pagesC6b (initBfs pagesC6b) = c6bs2 := by
    rw [bfsLoop_step pagesC6b (initBfs pagesC6b) homeUri 0 [(homeUri, 1)]
      (mkRPage [homeUri] [] []) (by decide) (by decide)]
    show bfsLoop pagesC6b c6bs1 = c6bs2
    rw [bfsLoop_step pagesC6b c6bs1 homeUri 1 []
      (mkRPage [homeUri] [] []) (by decide) (by decide)]
    show bfsLoop pagesC6b c6bs2 = c6bs2
    exact bfsLoop_empty pagesC6b c6bs2 (by decide)
  rw [hb]

/-- C6 (counterexample): in the `pagesC6` report, `/n` — a direct content
link of home — gets layer 3, and `/x` gets layer 5, because the footer seed
`/f` (queued at depth 2) is dequeued before home's children and claims `/x`
at depth 3 first; yet `/n` (layer 3) links to `/x`, so the minimum-hop rule
claimed by the spec would give `/x` at most layer 3 + 1 = 4.  Moreover, in
the `pagesC6b` report, whose home page appears in a header bucket, home's
layer is overwritten to 1, refuting the claim that it is always 0. -/
theorem layering_counterexample :
    calculateLayers pagesC6 = some (postBfs pagesC6 c6s4) ∧
      (mapGet? (postBfs pagesC6 c6s4).pageMetadata ("/n".toList)).map
        VMeta.layer = some (LayerTag.num 3) ∧
      (mapGet? (postBfs pagesC6 c6s4).pageMetadata ("/x".toList)).map
        VMeta.layer = some (LayerTag.num 5) ∧
      mapGet? pagesC6 ("/n".toList) = some (mkRPage [] [] ["/x".toList]) ∧
      ("/x".toList) ∈ allLinksOf (mkRPage [] [] ["/x".toList]) ∧
      ¬ (5 : Nat) ≤ 3 + 1 ∧
      calculateLayers pagesC6b = some (postBfs pagesC6b c6bs2) ∧
      (mapGet? (postBfs pagesC6b c6bs2).pageMetadata homeUri).map
        VMeta.layer = some (LayerTag.num 1) :=
  ⟨c6_run, by decide, by decide, by decide, by decide, by decide, c6b_run,
    by decide⟩

/-- C6 (witness): the amended theorem applied to the `pagesC6` run — home
(absent from the nav buckets) keeps layer 0, and the footer page `/f` gets
its nav layer. -/
theorem layering_witness :
    (homeUri ∉ (identifyHeaderFooterPages pagesC6).all ∧
      (mapGet? (postBfs pagesC6 c6s4).pageMetadata homeUri).map VMeta.layer =
        some (LayerTag.num 0)) ∧
    (("/f".toList) ∈ (identifyHeaderFooterPages pagesC6).all ∧
      (mapGet? (postBfs pagesC6 c6s4).pageMetadata ("/f".toList)).map
          VMeta.layer =
        some (LayerTag.num
          (navLayer (identifyHeaderFooterPages pagesC6) ("/f".toList)))) :=
  ⟨⟨by decide,
    (layering_amended pagesC6 (identifyHeaderFooterPages pagesC6) rfl
      (postBfs pagesC6 c6s4) c6_run).1 (by decide)⟩,
   ⟨by decide,
    (layering_amended pagesC6 (identifyHeaderFooterPages pagesC6) rfl
      (postBfs pagesC6 c6s4) c6_run).2.1 ("/f".toList) (by decide)⟩⟩

end SiteCheckModel

